import Mathlib

/-!
Verification of the deduplication engine of the readwise-reader-management
repository (`document_deduplicator.py`), as a shallow embedding in Lean 4.

Conventions of the embedding:
* Python strings are Lean `String`s (operated on through their `List Char`
  representation); `str.lower()` / `str.strip()` / `str.upper()` are modelled
  for the ASCII range, which covers every behaviour the claims exercise.
* Python dicts that are used in insertion order are modelled by association
  lists that preserve first-insertion key order.
* Python floats that only ever hold small exact values (similarity ratios,
  quality scores) are modelled by `ℚ`.
* `while` loops are modelled by fuel-indexed recursion, with fuel chosen
  large enough at every call site (the Python loops terminate for the same
  structural reasons).
* Raised exceptions of the modelled fragments are represented by `Option`
  (`none` = the Python code raises / fails).
-/

namespace Dedup

/-! ## Basic Python string-operation models -/

/-- Model of Python `str.lower()` for the ASCII range. -/
def pyLowerChar (c : Char) : Char :=
  if c.val ≥ 65 && c.val ≤ 90 then Char.ofNat (c.toNat + 32) else c

/-- Model of Python `str.upper()` for the ASCII range. -/
def pyUpperChar (c : Char) : Char :=
  if c.val ≥ 97 && c.val ≤ 122 then Char.ofNat (c.toNat - 32) else c

def pyLower (s : String) : String := ⟨s.data.map pyLowerChar⟩

def pyUpper (s : String) : String := ⟨s.data.map pyUpperChar⟩

/-- ASCII whitespace, as stripped by Python `str.strip()` (model). -/
def pyIsSpace (c : Char) : Bool :=
  c = ' ' || c = '\t' || c = '\n' || c = '\r' || c.val = 11 || c.val = 12

def pyStripList (l : List Char) : List Char :=
  ((l.dropWhile pyIsSpace).reverse.dropWhile pyIsSpace).reverse

/-- Model of Python `str.strip()`. -/
def pyStrip (s : String) : String := ⟨pyStripList s.data⟩

/-- `listHasSub needle hay`: `needle` occurs as a contiguous sublist of `hay`.
Model of Python `needle in hay` for strings. -/
def listHasSub (needle : List Char) : List Char → Bool
  | [] => needle = ([] : List Char)
  | c :: rest =>
    (needle = (c :: rest).take needle.length) || listHasSub needle rest

/-- Model of Python `sub in s` (substring containment). -/
def pyIn (sub s : String) : Bool := listHasSub sub.data s.data

/-- Model of Python `s.split(sep)[...]`-style splitting on a one-character
separator: `qs.split('&')` etc.  Produces the (possibly empty) chunks. -/
def splitOnChar (sep : Char) : List Char → List (List Char)
  | [] => [[]]
  | c :: rest =>
    let r := splitOnChar sep rest
    if c = sep then [] :: r
    else
      match r with
      | [] => [[c]]
      | h :: t => (c :: h) :: t

/-- Joining with a one-character separator (`"&".join(...)` model). -/
def joinChar (sep : Char) : List (List Char) → List Char
  | [] => []
  | [x] => x
  | x :: rest => x ++ sep :: joinChar sep rest

/-- Split a list at the first occurrence of a character: returns the part
before it and the part after it (whole list and `none` if absent).
Model of Python `s.split(c, 1)`. -/
def splitFirstChar (sep : Char) (l : List Char) : List Char × Option (List Char) :=
  let pre := l.takeWhile (fun c => c ≠ sep)
  match l.dropWhile (fun c => c ≠ sep) with
  | [] => (pre, none)
  | _ :: rest => (pre, some rest)

/-- Lexicographic comparison of char lists by code point — the order Python
uses to compare strings.  `lexLe a b` means `a ≤ b`. -/
def lexLe : List Char → List Char → Bool
  | [], _ => true
  | _ :: _, [] => false
  | a :: as', b :: bs' =>
    if a.val < b.val then true
    else if b.val < a.val then false
    else lexLe as' bs'

/-- The order relation on strings used to model Python `sorted`. -/
def strLe (a b : String) : Prop := lexLe a.data b.data = true

instance : DecidableRel strLe := fun a b => by
  unfold strLe; infer_instance

/-- Model of Python `sorted` on strings (code-point lexicographic). -/
def pySorted (l : List String) : List String := List.insertionSort strLe l

/-- Model of Python `int(s)` for optionally signed decimal literals with
surrounding ASCII whitespace (underscore digit grouping is not modelled;
the claims never exercise it). -/
def pyInt? (s : String) : Option Int :=
  let l := pyStripList s.data
  let core : Option (Bool × List Char) :=
    match l with
    | '+' :: rest => some (false, rest)
    | '-' :: rest => some (true, rest)
    | rest => some (false, rest)
  match core with
  | some (neg, ds) =>
    if ds ≠ [] ∧ ds.all Char.isDigit then
      let n : Nat := ds.foldl (fun acc c => acc * 10 + (c.toNat - 48)) 0
      some (if neg then -(n : Int) else (n : Int))
    else none
  | none => none

/-! ## Model of `urllib.parse.urlparse` (the fragment used by the engine)

Modelled behaviours: scheme splitting (first `:` with a valid nonempty
scheme), netloc splitting after `//` (with the unbalanced-IPv6-bracket
`ValueError`, the only parse failure the engine can hit), fragment and query
splitting, removal of tab/CR/LF characters, and `;`-parameter splitting of
the path (`urlparse` drops params from `.path`).  The NFKC netloc check and
the multibyte-UTF-8 side of percent decoding are not modelled; no claim
exercises them. -/

structure UrlParts where
  scheme : List Char
  netloc : List Char
  path : List Char
  query : List Char
deriving Repr, DecidableEq

def schemeChar (c : Char) : Bool :=
  c.isAlpha || c.isDigit || c = '+' || c = '-' || c = '.'

/-- Scheme extraction of `urlsplit`: the part before the first `:` becomes
the scheme iff it is nonempty, starts with an ASCII letter, and consists of
scheme characters; otherwise the url is left untouched. -/
def pySchemeSplit (l : List Char) : Option (List Char) × List Char :=
  let pre := l.takeWhile (fun c => c ≠ ':')
  match l.dropWhile (fun c => c ≠ ':') with
  | [] => (none, l)
  | _ :: rest =>
    if pre ≠ [] ∧ (pre.headD ' ').isAlpha ∧ pre.all schemeChar then
      (some (pre.map pyLowerChar), rest)
    else (none, l)

def netlocDelim (c : Char) : Bool := c = '/' || c = '?' || c = '#'

/-- `_splitparams`: drop the `;params` part of the last path segment. Called
by `urlparse` only when the path contains `;`. -/
def pySplitParams (path : List Char) : List Char :=
  let lastSeg := (path.reverse.takeWhile (fun c => c ≠ '/')).reverse
  if path.contains '/' then
    path.take (path.length - lastSeg.length) ++ lastSeg.takeWhile (fun c => c ≠ ';')
  else path.takeWhile (fun c => c ≠ ';')

/-- Model of `urllib.parse.urlparse` (returning only the fields the engine
reads).  `none` models the raised `ValueError` on an unbalanced IPv6
bracket. -/
def pyUrlparse (l0 : List Char) : Option UrlParts :=
  let l := l0.filter (fun c => ¬ (c = '\t' ∨ c = '\r' ∨ c = '\n'))
  let sp := pySchemeSplit l
  let scheme := sp.1.getD []
  let r1 := sp.2
  let hasNetloc := r1.take 2 = ['/', '/']
  let after := if hasNetloc then r1.drop 2 else r1
  let netloc := if hasNetloc then after.takeWhile (fun c => ¬ netlocDelim c) else []
  let r2 := if hasNetloc then after.dropWhile (fun c => ¬ netlocDelim c) else r1
  if (netloc.contains '[' ∧ ¬ netloc.contains ']') ∨
     (netloc.contains ']' ∧ ¬ netloc.contains '[') then none
  else
    let r3 := (splitFirstChar '#' r2).1
    let pathRaw := (splitFirstChar '?' r3).1
    let query := ((splitFirstChar '?' r3).2).getD []
    let path := if pathRaw.contains ';' then pySplitParams pathRaw else pathRaw
    some ⟨scheme, netloc, path, query⟩

/-! ## Model of `urllib.parse.parse_qs` -/

def hexVal? (c : Char) : Option Nat :=
  if '0' ≤ c ∧ c ≤ '9' then some (c.toNat - 48)
  else if 'a' ≤ c ∧ c ≤ 'f' then some (c.toNat - 87)
  else if 'A' ≤ c ∧ c ≤ 'F' then some (c.toNat - 55)
  else none

def pyReplacePlus (l : List Char) : List Char :=
  l.map (fun c => if c = '+' then ' ' else c)

/-- Percent decoding (`urllib.parse.unquote`), single-byte codepoints;
invalid escapes are left in place. -/
def pyUnquote : List Char → List Char
  | [] => []
  | '%' :: a :: b :: rest =>
    match hexVal? a, hexVal? b with
    | some x, some y => Char.ofNat (16 * x + y) :: pyUnquote rest
    | _, _ => '%' :: pyUnquote (a :: b :: rest)
  | '%' :: rest => '%' :: pyUnquote rest
  | c :: rest => c :: pyUnquote rest

/-- `parse_qsl` with default arguments: split on `&`, skip empty chunks and
chunks without `=`, skip pairs with an empty value, `unquote_plus` both key
and value. -/
def parseQsl (q : List Char) : List (List Char × List Char) :=
  (splitOnChar '&' q).flatMap (fun chunk =>
    if chunk = [] then []
    else
      match splitFirstChar '=' chunk with
      | (_, none) => []
      | (k, some v) =>
        if v = [] then []
        else [(pyUnquote (pyReplacePlus k), pyUnquote (pyReplacePlus v))])

/-- Insertion-ordered dict accumulation of `parse_qs`. -/
def qsInsert (kv : List Char × List Char) :
    List (List Char × List (List Char)) → List (List Char × List (List Char))
  | [] => [(kv.1, [kv.2])]
  | (k', vs) :: rest =>
    if k' = kv.1 then (k', vs ++ [kv.2]) :: rest else (k', vs) :: qsInsert kv rest

def parseQs (q : List Char) : List (List Char × List (List Char)) :=
  (parseQsl q).foldl (fun m kv => qsInsert kv m) []

/-! ## The three URL normalizers of `DocumentDeduplicator` -/

/-- The fixed tracking-parameter deny-list of `normalize_url`. -/
def trackingParams : List String :=
  [ "utm_source", "utm_medium", "utm_campaign", "utm_term", "utm_content",
    "fbclid", "gclid", "msclkid", "ref", "source", "campaign",
    "medium", "term", "content", "mc_cid", "mc_eid", "_ga", "_gl" ]

/-- The dict comprehension filtering out deny-listed keys
(`k.lower() not in tracking_params`). -/
def cleanParams (items : List (List Char × List (List Char))) :
    List (List Char × List (List Char)) :=
  items.filter (fun p => ¬ trackingParams.contains ⟨p.1.map pyLowerChar⟩)

/-- The `f"{k}={v}"` query parts, in dict order. -/
def queryPartsOf (items : List (List Char × List (List Char))) : List String :=
  items.flatMap (fun p => p.2.map (fun v => ⟨p.1 ++ '=' :: v⟩))

/-- The rebuilt query string of `normalize_url` for a given raw query. -/
def rebuiltQuery (q : List Char) : List Char :=
  if q ≠ [] then
    let cleaned := cleanParams (parseQs q)
    if cleaned ≠ [] then joinChar '&' ((pySorted (queryPartsOf cleaned)).map String.data)
    else []
  else []

/-- `DocumentDeduplicator.normalize_url` (tracking-aware normalizer). -/
def normalize_url (url : String) : String :=
  if url = "" then ""
  else
    match pyUrlparse (pyStrip (pyLower url)).data with
    | none => pyStrip (pyLower url)
    | some P =>
      let newQuery := rebuiltQuery P.query
      let base := P.scheme ++ ':' :: '/' :: '/' :: P.netloc ++ P.path
      ⟨if newQuery ≠ [] then base ++ '?' :: newQuery else base⟩

/-- `DocumentDeduplicator.normalize_url_simple`. -/
def normalize_url_simple (url : String) : String :=
  if url = "" then ""
  else
    let u := (pyStrip url).data.map pyLowerChar
    let u2 :=
      if u.take 8 = ('h' :: 't' :: 't' :: 'p' :: 's' :: ':' :: '/' :: '/' :: []) then u.drop 8
      else if u.take 7 = ('h' :: 't' :: 't' :: 'p' :: ':' :: '/' :: '/' :: []) then u.drop 7
      else u
    ⟨if u2.getLast? = some '/' then u2.dropLast else u2⟩

/-- `DocumentDeduplicator.normalize_url_advanced`: keep only
`netloc + path`, dropping scheme, query, and fragment; fall back to the
simple normalizer on a parse failure. -/
def normalize_url_advanced (url : String) : String :=
  if url = "" then ""
  else
    match pyUrlparse ((pyStrip url).data.map pyLowerChar) with
    | none => normalize_url_simple url
    | some P =>
      let n := P.netloc ++ P.path
      ⟨if n.getLast? = some '/' then n.dropLast else n⟩

/-- A character set on which the URL pipeline is inert: lower-case ASCII
letters, digits, and the unreserved delimiters `:/?=&.-_~` (no percent
escapes, no `+`, no upper case, no whitespace, no `#;[]`).  Used to state
the amended idempotency claim for `normalize_url`. -/
def urlSafeChar (c : Char) : Bool :=
  (c.toNat ≥ 97 && c.toNat ≤ 122) || (c.toNat ≥ 48 && c.toNat ≤ 57) ||
  c.toNat = 58 || c.toNat = 47 || c.toNat = 63 || c.toNat = 61 || c.toNat = 38 ||
  c.toNat = 46 || c.toNat = 45 || c.toNat = 95 || c.toNat = 126

/-- The key/value pairs of a `parse_qs` dict, flattened in dict order
(the pairs `queryPartsOf` renders). -/
def pairsOf (items : List (List Char × List (List Char))) : List (List Char × List Char) :=
  items.flatMap (fun p => p.2.map (fun v => (p.1, v)))

/-! ## Title normalization and `difflib.SequenceMatcher` model

`calculate_title_similarity` normalizes both titles (lower-case, keep only
word characters / whitespace / CJK ideographs, collapse whitespace runs,
strip) and returns `SequenceMatcher(None, n1, n2).ratio()`.  The matcher is
modelled faithfully: the `b2j` index with the autojunk popularity filter
(`len(b) >= 200`), the longest-match dynamic programming loop, and the two
non-junk extension loops.  The two junk-extension loops of `difflib` are
omitted because no junk predicate is supplied (`isjunk=None` makes `bjunk`
empty, so those loops never fire). -/

def isCJK (c : Char) : Bool := c.val ≥ 0x4e00 && c.val ≤ 0x9fff

/-- Characters kept by `re.sub(r'[^\w\s一-鿿]', '', ·)` (ASCII word
characters modelled; `\s` handled separately). -/
def pyWordChar (c : Char) : Bool := c.isAlphanum || c = '_' || isCJK c

def collapseWsAux : Bool → List Char → List Char
  | _, [] => []
  | prevSp, c :: rest =>
    if pyIsSpace c then
      if prevSp then collapseWsAux true rest else ' ' :: collapseWsAux true rest
    else c :: collapseWsAux false rest

/-- The inner `normalize_title` of `calculate_title_similarity`. -/
def normalize_title (t : String) : String :=
  let l1 := (t.data.map pyLowerChar).filter (fun c => pyWordChar c || pyIsSpace c)
  ⟨pyStripList (collapseWsAux false l1)⟩

def b2jInsert (j : Nat) (c : Char) : List (Char × List Nat) → List (Char × List Nat)
  | [] => [(c, [j])]
  | (c', js) :: rest =>
    if c' = c then (c', js ++ [j]) :: rest else (c', js) :: b2jInsert j c rest

def b2jFull (b : List Char) : List (Char × List Nat) :=
  b.enum.foldl (fun m p => b2jInsert p.1 p.2 m) []

/-- The `b2j` index with the autojunk filter: for `len(b) >= 200`, elements
occurring more than `len(b) // 100 + 1` times are removed. -/
def b2jOf (b : List Char) : List (Char × List Nat) :=
  let m := b2jFull b
  if b.length ≥ 200 then
    m.filter (fun p => ¬ p.2.length > b.length / 100 + 1)
  else m

def b2jGet (m : List (Char × List Nat)) (c : Char) : List Nat :=
  match m.find? (fun p => p.1 = c) with
  | some p => p.2
  | none => []

def njGet (m : List (Nat × Nat)) (j : Nat) : Nat :=
  match m.find? (fun p => p.1 = j) with
  | some p => p.2
  | none => 0

def njSet (j k : Nat) : List (Nat × Nat) → List (Nat × Nat)
  | [] => [(j, k)]
  | (j', k') :: rest => if j' = j then (j, k) :: rest else (j', k') :: njSet j k rest

/-- One row of the `find_longest_match` DP: iterate over the positions of
`a[i]` in `b` (with the `continue`/`break` window checks), building
`newj2len` and updating the best block. -/
def flmRow (i blo bhi : Nat) (j2len : List (Nat × Nat)) :
    List Nat → List (Nat × Nat) → Nat × Nat × Nat → List (Nat × Nat) × (Nat × Nat × Nat)
  | [], acc, best => (acc, best)
  | j :: js, acc, best =>
    if j < blo then flmRow i blo bhi j2len js acc best
    else if bhi ≤ j then (acc, best)
    else
      let k := (if j = 0 then 0 else njGet j2len (j - 1)) + 1
      let acc' := njSet j k acc
      let best' := if k > best.2.2 then (i + 1 - k, j + 1 - k, k) else best
      flmRow i blo bhi j2len js acc' best'

def flmDP (a : List Char) (b2j : List (Char × List Nat)) (alo ahi blo bhi : Nat) :
    Nat × Nat × Nat :=
  ((List.range' alo (ahi - alo)).foldl
    (fun st i =>
      flmRow i blo bhi st.1 (b2jGet b2j (a.getD i ' ')) [] st.2)
    ([], (alo, blo, 0))).2

/-- Backward non-junk extension loop of `find_longest_match`. -/
def extLow (a b : List Char) (alo blo : Nat) :
    Nat → Nat × Nat × Nat → Nat × Nat × Nat
  | 0, st => st
  | fuel + 1, (bi, bj, bs) =>
    if alo < bi ∧ blo < bj ∧ a.getD (bi - 1) ' ' = b.getD (bj - 1) ' ' then
      extLow a b alo blo fuel (bi - 1, bj - 1, bs + 1)
    else (bi, bj, bs)

/-- Forward non-junk extension loop of `find_longest_match`. -/
def extHigh (a b : List Char) (ahi bhi : Nat) :
    Nat → Nat × Nat × Nat → Nat × Nat × Nat
  | 0, st => st
  | fuel + 1, (bi, bj, bs) =>
    if bi + bs < ahi ∧ bj + bs < bhi ∧ a.getD (bi + bs) ' ' = b.getD (bj + bs) ' ' then
      extHigh a b ahi bhi fuel (bi, bj, bs + 1)
    else (bi, bj, bs)

def findLongestMatch (a b : List Char) (b2j : List (Char × List Nat))
    (alo ahi blo bhi : Nat) : Nat × Nat × Nat :=
  let d := flmDP a b2j alo ahi blo bhi
  let e1 := extLow a b alo blo (a.length + b.length) d
  extHigh a b ahi bhi (a.length + b.length) e1

/-- Total size of all matching blocks (the recursion of
`get_matching_blocks`; merging adjacent blocks preserves the sum, so only
the sum is modelled). -/
def msum (a b : List Char) (b2j : List (Char × List Nat)) :
    Nat → Nat → Nat → Nat → Nat → Nat
  | 0, _, _, _, _ => 0
  | fuel + 1, alo, ahi, blo, bhi =>
    if alo < ahi ∧ blo < bhi then
      let m := findLongestMatch a b b2j alo ahi blo bhi
      if m.2.2 = 0 then 0
      else
        msum a b b2j fuel alo m.1 blo m.2.1 + m.2.2 +
          msum a b b2j fuel (m.1 + m.2.2) ahi (m.2.1 + m.2.2) bhi
    else 0

/-- `SequenceMatcher(None, a, b).ratio()` as an exact rational:
`2 * M / (len(a) + len(b))`, built with `mkRat` so that concrete values
reduce in the kernel. -/
def ratioOf (a b : List Char) : ℚ :=
  mkRat (2 * (msum a b (b2jOf b) (a.length + b.length + 1) 0 a.length 0 b.length : Int))
    (a.length + b.length)

/-- `DocumentDeduplicator.calculate_title_similarity`. -/
def calculate_title_similarity (t1 t2 : String) : ℚ :=
  if t1 = "" ∨ t2 = "" then 0
  else
    let n1 := normalize_title t1
    let n2 := normalize_title t2
    if n1 = "" ∨ n2 = "" then 0
    else ratioOf n1.data n2.data

/-! ### Specification helpers for the `SequenceMatcher` verification -/

/-- Validity of a candidate matching block for the given windows. -/
def bestValid (alo ahi blo bhi : Nat) (t : Nat × Nat × Nat) : Prop :=
  alo ≤ t.1 ∧ t.1 + t.2.2 ≤ ahi ∧ blo ≤ t.2.1 ∧ t.2.1 + t.2.2 ≤ bhi

/-- A position of `a` that survives the autojunk filter (its character
occurs in the `b2j` index). -/
def flmLive (a : List Char) (j : Nat) : Prop :=
  j ∈ b2jGet (b2jOf a) (a.getD j ' ')

instance (a : List Char) (j : Nat) : Decidable (flmLive a j) :=
  inferInstanceAs (Decidable (j ∈ b2jGet (b2jOf a) (a.getD j ' ')))

/-- Length of the maximal run of live positions ending at `j` inside the
window `[alo, ahi)`. -/
def wchain (a : List Char) (alo ahi : Nat) : Nat → Nat
  | 0 => if alo = 0 ∧ 0 < ahi ∧ flmLive a 0 then 1 else 0
  | j + 1 =>
    if alo ≤ j + 1 ∧ j + 1 < ahi ∧ flmLive a (j + 1) then wchain a alo ahi j + 1 else 0

/-- Maximum of `wchain` over the first `n` rows of the window. -/
def wmax (a : List Char) (alo ahi : Nat) : Nat → Nat
  | 0 => 0
  | n + 1 => max (wmax a alo ahi n) (wchain a alo ahi (alo + n))

def emptyStr : String := ""

def c6Punct : String := "!!"

/-! ## Date parsing models

`datetime.fromisoformat` (after the `'Z' → '+00:00'` replacement the code
performs) and `datetime.strptime(·, "%Y-%m-%d %H:%M:%S")` are modelled for
the canonical forms `YYYY-MM-DD[<sep>HH:MM[:SS[.ffffff]]][±HH:MM[:SS]]`.
A parsed datetime is `(naive timestamp in microseconds, optional UTC offset
in seconds)`; `none` models a raised `ValueError`. -/

def isLeapYear (y : Int) : Bool := (y % 4 = 0 && y % 100 ≠ 0) || y % 400 = 0

def daysInMonth (y : Int) (m : Nat) : Nat :=
  if m = 2 then (if isLeapYear y then 29 else 28)
  else if m = 4 ∨ m = 6 ∨ m = 9 ∨ m = 11 then 30
  else 31

/-- Days since 1970-01-01 of a civil date (standard days-from-civil
algorithm). -/
def daysFromCivil (y : Int) (m d : Nat) : Int :=
  let y' : Int := if m ≤ 2 then y - 1 else y
  let era : Int := (if 0 ≤ y' then y' else y' - 399) / 400
  let yoe : Int := y' - era * 400
  let mp : Int := ((m : Int) + 9) % 12
  let doy : Int := (153 * mp + 2) / 5 + (d : Int) - 1
  let doe : Int := yoe * 365 + yoe / 4 - yoe / 100 + doy
  era * 146097 + doe - 719468

def digVal (c : Char) : Nat := c.toNat - 48

def read2 : List Char → Option (Nat × List Char)
  | a :: b :: rest =>
    if a.isDigit ∧ b.isDigit then some (10 * digVal a + digVal b, rest) else none
  | _ => none

def read4 : List Char → Option (Nat × List Char)
  | a :: b :: c :: d :: rest =>
    if a.isDigit ∧ b.isDigit ∧ c.isDigit ∧ d.isDigit then
      some (1000 * digVal a + 100 * digVal b + 10 * digVal c + digVal d, rest)
    else none
  | _ => none

/-- Parse `YYYY-MM-DD` with range validation. -/
def readDate (l : List Char) : Option ((Int × Nat × Nat) × List Char) :=
  match read4 l with
  | none => none
  | some (y, r1) =>
    match r1 with
    | '-' :: r2 =>
      match read2 r2 with
      | none => none
      | some (m, r3) =>
        match r3 with
        | '-' :: r4 =>
          match read2 r4 with
          | none => none
          | some (d, r5) =>
            if 1 ≤ y ∧ 1 ≤ m ∧ m ≤ 12 ∧ 1 ≤ d ∧ d ≤ daysInMonth (y : Int) m then
              some (((y : Int), m, d), r5)
            else none
        | _ => none
    | _ => none

/-- Parse an optional fraction `.d{1..6}` to microseconds. -/
def readFrac : List Char → Nat × List Char
  | '.' :: rest =>
    let ds := (rest.takeWhile Char.isDigit).take 6
    let rest' := rest.drop ((rest.takeWhile Char.isDigit).length)
    let scale := 10 ^ (6 - ds.length)
    (ds.foldl (fun acc c => acc * 10 + digVal c) 0 * scale, rest')
  | l => (0, l)

/-- Parse `HH:MM[:SS[.ffffff]]` with range validation; microseconds. -/
def readTime (l : List Char) : Option (Nat × List Char) :=
  match read2 l with
  | none => none
  | some (h, r1) =>
    match r1 with
    | ':' :: r2 =>
      match read2 r2 with
      | none => none
      | some (mi, r3) =>
        let secPart : Option (Nat × Nat × List Char) :=
          match r3 with
          | ':' :: r4 =>
            match read2 r4 with
            | none => none
            | some (s, r5) =>
              let fr := readFrac r5
              some (s, fr.1, fr.2)
          | _ => some (0, 0, r3)
        match secPart with
        | none => none
        | some (s, micro, rest) =>
          if h ≤ 23 ∧ mi ≤ 59 ∧ s ≤ 59 then
            some (((h * 3600 + mi * 60 + s) * 1000000 + micro), rest)
          else none
    | _ => none

/-- Parse an optional trailing UTC offset `±HH:MM[:SS]` (seconds). -/
def readOffset : List Char → Option (Option Int × List Char)
  | [] => some (none, [])
  | c :: rest =>
    if c = '+' ∨ c = '-' then
      match read2 rest with
      | none => none
      | some (h, r1) =>
        match r1 with
        | ':' :: r2 =>
          match read2 r2 with
          | none => none
          | some (mi, r3) =>
            let more : Option (Nat × List Char) :=
              match r3 with
              | ':' :: r4 =>
                match read2 r4 with
                | none => none
                | some (s, r5) => some (s, r5)
              | _ => some (0, r3)
            match more with
            | none => none
            | some (s, rest') =>
              let total : Int := (h : Int) * 3600 + (mi : Int) * 60 + (s : Int)
              some (some (if c = '-' then -total else total), rest')
        | _ => none
    else none

/-- Model of `datetime.fromisoformat` for the supported canonical forms. -/
def pyFromIso (s : String) : Option (Int × Option Int) :=
  match readDate s.data with
  | none => none
  | some ((y, m, d), rest) =>
    let dayMicro : Int := daysFromCivil y m d * 86400000000
    match rest with
    | [] => some (dayMicro, none)
    | _ :: timeRest =>
      match readTime timeRest with
      | none => none
      | some (tMicro, r2) =>
        match readOffset r2 with
        | none => none
        | some (off, r3) =>
          if r3 = [] then some (dayMicro + (tMicro : Int), off) else none

/-- `s.replace('Z', '+00:00')`. -/
def pyReplaceZ (s : String) : String :=
  ⟨s.data.flatMap (fun c =>
    if c = 'Z' then ('+' :: '0' :: '0' :: ':' :: '0' :: '0' :: []) else [c])⟩

/-- Model of `datetime.strptime(s, "%Y-%m-%d %H:%M:%S")` (naive). -/
def pyStrptime (s : String) : Option Int :=
  match readDate s.data with
  | none => none
  | some ((y, m, d), rest) =>
    match rest with
    | ' ' :: r1 =>
      match readTime r1 with
      | none => none
      | some (tMicro, r2) =>
        if r2 = [] ∧ ¬ (s.data.contains '.') then
          some (daysFromCivil y m d * 86400000000 + (tMicro : Int))
        else none
    | _ => none

/-! ## `calculate_metadata_quality_score` and `select_best_document`

Documents fetched from the live API are flat records; the engine reads the
fields below through `document.get(...) or ''` chains, so a missing field
and an empty one coincide and are both modelled by `""` (and `[]` for
tags).  All score contributions are integers, so the Python float score is
modelled by `Nat`.  The wall-clock `datetime.now()` of the recency rule is
an explicit `nowMicro` parameter (naive local timestamp in microseconds). -/

structure LiveDoc where
  id : String := ""
  title : String := ""
  author : String := ""
  summary : String := ""
  published_date : String := ""
  created_at : String := ""
  updated_at : String := ""
  tags : List String := []
  source_url : String := ""
  url : String := ""
  location : String := ""
deriving Repr, DecidableEq

def shortenerDomains : List String := [ "bit.ly", "t.co", "tinyurl", "short" ]

def calculate_metadata_quality_score (nowMicro : Int) (doc : LiveDoc) : Nat :=
  let title := pyStrip doc.title
  let s1 : Nat :=
    if title ≠ "" then
      if title.data.length > 10 then 25 else if title.data.length > 5 then 15 else 5
    else 0
  let author := pyStrip doc.author
  let s2 : Nat := if author ≠ "" ∧ author ≠ "Unknown" then 15 else 0
  let summary := pyStrip doc.summary
  let s3 : Nat :=
    if summary ≠ "" then
      if summary.data.length > 100 then 20 else if summary.data.length > 50 then 15 else 10
    else 0
  let s4 : Nat := if doc.published_date ≠ "" ∨ doc.created_at ≠ "" then 10 else 0
  let s5 : Nat := if doc.tags ≠ [] then (if doc.tags.length ≥ 3 then 10 else 5) else 0
  let url := if doc.source_url ≠ "" then doc.source_url else doc.url
  let s6 : Nat :=
    if url ≠ "" then
      if shortenerDomains.any (fun d => pyIn d url) then 5 else 10
    else 0
  let s7 : Nat :=
    if doc.updated_at ≠ "" then
      match pyFromIso (pyReplaceZ doc.updated_at) with
      | none => 0
      | some t =>
        let daysOld : Int := Int.fdiv (nowMicro - t.1) 86400000000
        if daysOld < 30 then 10 else if daysOld < 90 then 5 else 0
    else 0
  min (s1 + s2 + s3 + s4 + s5 + s6 + s7) 100

/-- Stable descending insertion by an integer-valued key (the effect of a
stable Python `list.sort(key=…, reverse=True)`, applied by folding from the
right): an element is placed before the first element with a strictly
smaller key, after all ties. -/
def stableInsertDescBy {α : Type} (key : α → Int) (x : α) : List α → List α
  | [] => [x]
  | y :: rest => if key y > key x then y :: stableInsertDescBy key x rest else x :: y :: rest

def stableSortDescBy {α : Type} (key : α → Int) (l : List α) : List α :=
  l.foldr (stableInsertDescBy key) []

/-- Stable ascending insertion by key (stable `list.sort(key=…)`). -/
def stableInsertAscBy {α : Type} (key : α → Int) (x : α) : List α → List α
  | [] => [x]
  | y :: rest => if key y < key x then y :: stableInsertAscBy key x rest else x :: y :: rest

def stableSortAscBy {α : Type} (key : α → Int) (l : List α) : List α :=
  l.foldr (stableInsertAscBy key) []

/-- `DocumentDeduplicator.select_best_document`. -/
def select_best_document (nowMicro : Int) (docs : List LiveDoc) :
    Option LiveDoc × List LiveDoc :=
  match docs with
  | [] => (none, [])
  | [d] => (some d, [])
  | _ =>
    let scored := docs.map (fun d => (d, calculate_metadata_quality_score nowMicro d))
    let sorted := stableSortDescBy (fun p => (p.2 : Int)) scored
    (sorted.head?.map (fun p => p.1), (sorted.drop 1).map (fun p => p.1))

/-! ## `find_duplicate_groups`, `analyze_duplicates`, `remove_duplicates`

The `title_groups` dict built by `find_duplicate_groups` is dead code (it
is populated but never read), so it is not modelled.  The title phase uses
the similarity threshold `0.8`. -/

/-- Append into an insertion-ordered multimap (`defaultdict(list)`). -/
def alInsert {α : Type} (k : String) (v : α) :
    List (String × List α) → List (String × List α)
  | [] => [(k, [v])]
  | (k', vs) :: rest =>
    if k' = k then (k', vs ++ [v]) :: rest else (k', vs) :: alInsert k v rest

def liveUrlKey (d : LiveDoc) : String :=
  if d.source_url ≠ "" then d.source_url else d.url

def buildUrlGroups (docs : List LiveDoc) : List (String × List LiveDoc) :=
  docs.foldl (fun m d =>
    if d.id = "" then m
    else
      let url := liveUrlKey d
      if url ≠ "" then
        let nu := normalize_url url
        if nu ≠ "" then alInsert nu d m else m
      else m) []

/-- URL phase: buckets of size ≥ 2 whose ids are all unprocessed become
groups. -/
def urlPhase (ug : List (String × List LiveDoc)) : List (List LiveDoc) × List String :=
  ug.foldl (fun acc p =>
    if p.2.length > 1 ∧ ¬ p.2.any (fun d => d.id ∈ acc.2) then
      (acc.1 ++ [p.2], acc.2 ++ p.2.map (fun d => d.id))
    else acc) ([], [])

def simThreshold : ℚ := mkRat 4 5

/-- Title phase: first-seen-wins clustering of the remaining documents by
pairwise title similarity ≥ 0.8 against the seed. -/
def titlePhase : List LiveDoc → List String → List (List LiveDoc) →
    List (List LiveDoc) × List String
  | [], processed, acc => (acc, processed)
  | d1 :: rest, processed, acc =>
    if d1.id ∈ processed then titlePhase rest processed acc
    else
      let similar := d1 :: rest.filter (fun d2 =>
        d2.id ∉ processed ∧
          calculate_title_similarity d1.title d2.title ≥ simThreshold)
      if similar.length > 1 then
        titlePhase rest (processed ++ similar.map (fun d => d.id)) (acc ++ [similar])
      else titlePhase rest processed acc

def find_duplicate_groups (docs : List LiveDoc) : List (List LiveDoc) :=
  let p1 := urlPhase (buildUrlGroups docs)
  let remaining := docs.filter (fun d => ¬ p1.2.contains d.id)
  (titlePhase remaining p1.2 p1.1).1

structure GroupInfo where
  best : Option LiveDoc
  dups : List LiveDoc
deriving Repr, DecidableEq

structure Analysis where
  total_documents : Nat
  duplicate_groups : Nat
  total_duplicates : Nat
  groups : List GroupInfo
deriving Repr, DecidableEq

/-- `analyze_duplicates` on an explicitly provided document list (`none`
models the `{"error": "No documents found"}` result). -/
def analyze_duplicates (nowMicro : Int) (docs : List LiveDoc) : Option Analysis :=
  if docs = [] then none
  else
    let gs := find_duplicate_groups docs
    some
      { total_documents := docs.length
        duplicate_groups := gs.length
        total_duplicates := (gs.map (fun g => g.length - 1)).sum
        groups := gs.map (fun g =>
          let r := select_best_document nowMicro g
          ⟨r.1, r.2⟩) }

/-- Result of a single `client.delete_document` call: a returned boolean or
a raised exception with its message and (for HTTP errors) the value of the
`Retry-After` response header. -/
inductive DelOutcome where
  | ok (b : Bool)
  | exc (msg : String) (retryAfterHeader : Option String)
deriving Repr, DecidableEq

inductive RemoveStatus where
  | errorNoDocs | noDuplicates | preview | cancelled | executed
deriving Repr, DecidableEq

structure RemoveResult where
  status : RemoveStatus
  removedCount : Nat
  failedDeletions : List String
  deleteCalls : List String
deriving Repr, DecidableEq

/-- The deletion loop of `remove_duplicates` (one call per duplicate, no
retries; `outcomes n` is the result of the `n`-th delete call). -/
def removeLoop (outcomes : Nat → DelOutcome) : List String → Nat → Nat × List String
  | [], _ => (0, [])
  | did :: rest, idx =>
    let r := removeLoop outcomes rest (idx + 1)
    match outcomes idx with
    | .ok true => (r.1 + 1, r.2)
    | .ok false => (r.1, did :: r.2)
    | .exc _ _ => (r.1, did :: r.2)

def yesStr : String := "yes"

/-- `DocumentDeduplicator.remove_duplicates`.  `confirmInput` models the
operator's `input()` answer; `deleteCalls` records every document id for
which `client.delete_document` is invoked. -/
def remove_duplicates (nowMicro : Int) (docs : List LiveDoc) (dryRun autoConfirm : Bool)
    (confirmInput : String) (outcomes : Nat → DelOutcome) : RemoveResult :=
  match analyze_duplicates nowMicro docs with
  | none => ⟨.errorNoDocs, 0, [], []⟩
  | some analysis =>
    if analysis.duplicate_groups = 0 then ⟨.noDuplicates, 0, [], []⟩
    else if dryRun then ⟨.preview, 0, [], []⟩
    else if ¬ autoConfirm ∧ pyLower (pyStrip confirmInput) ≠ yesStr then ⟨.cancelled, 0, [], []⟩
    else
      let ids := analysis.groups.flatMap (fun g => g.dups.map (fun d => d.id))
      let r := removeLoop outcomes ids 0
      ⟨.executed, r.1, r.2, ids⟩

/-! ## CSV duplicate analysis (`find_csv_duplicates`, advanced variant) -/

/-- A CSV row as read by `csv.DictReader` (all fields are strings). -/
structure CsvRow where
  id : String := ""
  title : String := ""
  source_url : String := ""
  author : String := ""
  source : String := ""
  notes : String := ""
  tags : String := ""
  created_at : String := ""
  location : String := ""
  group_id : String := ""
  normalized_url : String := ""
deriving Repr, DecidableEq

structure StdGroup where
  normalized_url : String
  rows : List (Nat × CsvRow)
deriving Repr, DecidableEq

structure CsvAnalysis where
  total_documents : Nat
  duplicate_groups : Nat
  total_duplicates : Nat
  groups : List StdGroup
deriving Repr, DecidableEq

/-- `DocumentDeduplicator.find_csv_duplicates` on parsed CSV rows. -/
def find_csv_duplicates (rows : List CsvRow) : CsvAnalysis :=
  let numbered := rows.enum.map (fun p => (p.1 + 1, p.2))
  let ug := numbered.foldl (fun m r =>
    let su := pyStrip r.2.source_url
    if su ≠ "" then
      let nu := normalize_url_simple su
      if nu ≠ "" then alInsert nu r m else m
    else m) []
  let gs := (ug.filter (fun p => p.2.length > 1)).map (fun p => StdGroup.mk p.1 p.2)
  ⟨rows.length, gs.length, (gs.map (fun g => g.rows.length - 1)).sum, gs⟩

/-- Which of the two advanced-mode rules fired for a pair. -/
inductive MatchReason where
  | titleSim | urlAndTitle
deriving Repr, DecidableEq

structure AdvGroup where
  normalized_url : String
  rows : List (Nat × CsvRow)
  match_reason : Option MatchReason
deriving Repr, DecidableEq

def halfQ : ℚ := mkRat 1 2

/-- The pair decision of `find_csv_duplicates_advanced`
(rule 1: title similarity > 0.5; rule 2: equal advanced-normalized URLs and
title similarity > 0.5, tested only if rule 1 failed). -/
def advDecide (t1 nu1 : String) (r2 : CsvRow) : Option MatchReason :=
  let t2 := pyStrip r2.title
  let u2 := pyStrip r2.source_url
  let nu2 := if u2 ≠ "" then normalize_url_advanced u2 else ""
  let ts := if t1 ≠ "" ∧ t2 ≠ "" then calculate_title_similarity t1 t2 else 0
  if ts > halfQ then some .titleSim
  else if nu1 ≠ "" ∧ nu2 ≠ "" ∧ nu1 = nu2 ∧ ts > halfQ then some .urlAndTitle
  else none

/-- Inner loop of the advanced matcher: scan candidates after the seed,
collecting matches; the recorded reason is the one of the last non-skipped
candidate (`match_reason` is reset to `""`, modelled `none`, on every
non-skipped iteration). -/
def advInner (t1 nu1 : String) (processed : List Nat) :
    List (Nat × Nat × CsvRow) → List (Nat × Nat × CsvRow) × Option MatchReason →
    List (Nat × Nat × CsvRow) × Option MatchReason
  | [], acc => acc
  | (j, rn, row) :: rest, acc =>
    if j ∈ processed then advInner t1 nu1 processed rest acc
    else
      match advDecide t1 nu1 row with
      | some r => advInner t1 nu1 processed rest (acc.1 ++ [(j, rn, row)], some r)
      | none => advInner t1 nu1 processed rest (acc.1, none)

/-- Outer loop of the advanced matcher (first-seen-wins clustering with a
processed-indices set; only groups of size ≥ 2 are recorded and mark their
members processed). -/
def advOuter : List (Nat × Nat × CsvRow) → List Nat → List AdvGroup → List AdvGroup
  | [], _, acc => acc
  | (i, rn, row) :: rest, processed, acc =>
    if i ∈ processed then advOuter rest processed acc
    else
      let t1 := pyStrip row.title
      let u1 := pyStrip row.source_url
      let nu1 := if u1 ≠ "" then normalize_url_advanced u1 else ""
      let inner := advInner t1 nu1 processed rest ([], none)
      let group := (i, rn, row) :: inner.1
      if group.length > 1 then
        advOuter rest (processed ++ group.map (fun p => p.1))
          (acc ++ [⟨nu1, group.map (fun p => (p.2.1, p.2.2)), inner.2⟩])
      else advOuter rest processed acc

structure AdvAnalysis where
  total_documents : Nat
  duplicate_groups : Nat
  total_duplicates : Nat
  groups : List AdvGroup
deriving Repr, DecidableEq

/-- `DocumentDeduplicator.find_csv_duplicates_advanced` on parsed rows. -/
def find_csv_duplicates_advanced (rows : List CsvRow) : AdvAnalysis :=
  let numbered := rows.enum.map (fun p => (p.1, p.1 + 1, p.2))
  let gs := advOuter numbered [] []
  ⟨rows.length, gs.length, (gs.map (fun g => g.rows.length - 1)).sum, gs⟩

/-! The pure title-similarity clustering described by claim C9 (the
refinement target): identical clustering, but the pair decision is just
"title similarity > 0.5". -/

def titleOnlyDecide (t1 : String) (r2 : CsvRow) : Prop :=
  let t2 := pyStrip r2.title
  (if t1 ≠ "" ∧ t2 ≠ "" then calculate_title_similarity t1 t2 else 0) > halfQ

instance (t1 : String) (r2 : CsvRow) : Decidable (titleOnlyDecide t1 r2) := by
  unfold titleOnlyDecide; infer_instance

def titleOnlyInner (t1 : String) (processed : List Nat) :
    List (Nat × Nat × CsvRow) → List (Nat × Nat × CsvRow) → List (Nat × Nat × CsvRow)
  | [], acc => acc
  | (j, rn, row) :: rest, acc =>
    if j ∈ processed then titleOnlyInner t1 processed rest acc
    else if titleOnlyDecide t1 row then
      titleOnlyInner t1 processed rest (acc ++ [(j, rn, row)])
    else titleOnlyInner t1 processed rest acc

def titleOnlyOuter : List (Nat × Nat × CsvRow) → List Nat →
    List (List (Nat × CsvRow)) → List (List (Nat × CsvRow))
  | [], _, acc => acc
  | (i, rn, row) :: rest, processed, acc =>
    if i ∈ processed then titleOnlyOuter rest processed acc
    else
      let t1 := pyStrip row.title
      let inner := titleOnlyInner t1 processed rest []
      let group := (i, rn, row) :: inner
      if group.length > 1 then
        titleOnlyOuter rest (processed ++ group.map (fun p => p.1))
          (acc ++ [group.map (fun p => (p.2.1, p.2.2))])
      else titleOnlyOuter rest processed acc

/-- Pure title-similarity clustering of CSV rows (claim C9's description). -/
def titleClusterGroups (rows : List CsvRow) : List (List (Nat × CsvRow)) :=
  titleOnlyOuter (rows.enum.map (fun p => (p.1, p.1 + 1, p.2))) [] []

/-! ## Deletion planner (`_select_best_document_to_keep`,
`analyze_deletion_plan`, `export_deletion_plan`) -/

/-- Notes-priority step: if some but not all documents have non-empty
notes, restrict to those with notes (returning the single one at once). -/
def notesStep (docs : List CsvRow) : Option CsvRow ⊕ List CsvRow :=
  let w := docs.filter (fun d => pyStrip d.notes ≠ "")
  let wo := docs.filter (fun d => pyStrip d.notes = "")
  if w ≠ [] ∧ wo ≠ [] then
    if w.length = 1 then .inl w.head? else .inr w
  else .inr docs

/-- Tags-priority step, analogous. -/
def tagsStep (docs : List CsvRow) : Option CsvRow ⊕ List CsvRow :=
  let w := docs.filter (fun d => pyStrip d.tags ≠ "")
  let wo := docs.filter (fun d => pyStrip d.tags = "")
  if w ≠ [] ∧ wo ≠ [] then
    if w.length = 1 then .inl w.head? else .inr w
  else .inr docs

/-- The date parse of priority 3: ISO form when the (stripped) value
contains `'T'`, else `strptime "%Y-%m-%d %H:%M:%S"`; parse failures are
treated as "no date". -/
def parsedCreatedAt (d : CsvRow) : Option (Int × Option Int) :=
  let ca := pyStrip d.created_at
  if ca ≠ "" then
    if ca.data.contains 'T' then pyFromIso (pyReplaceZ ca)
    else (pyStrptime ca).map (fun t => (t, none))
  else none

/-- Sort key of a parsed datetime: UTC microseconds for aware values, naive
microseconds otherwise (only compared within a uniform-awareness list). -/
def dateKey (p : Int × Option Int) : Int := p.1 - (p.2.getD 0) * 1000000

/-- The notes-then-tags priority cascade: either an early single-candidate
return, or the (possibly restricted) candidate set for the date step. -/
def fieldCandidates (rows : List CsvRow) : Option CsvRow ⊕ List CsvRow :=
  match notesStep rows with
  | .inl r => .inl r
  | .inr docs1 => tagsStep docs1

/-- The dated candidates of the date step. -/
def datedList (docs2 : List CsvRow) : List (CsvRow × Int × Option Int) :=
  docs2.filterMap (fun d => (parsedCreatedAt d).map (fun p => (d, p)))

/-- The stable sort of the date step (`reverse=prefer_newer`). -/
def sortDated (preferNewer : Bool) (dated : List (CsvRow × Int × Option Int)) :
    List (CsvRow × Int × Option Int) :=
  if preferNewer then stableSortDescBy (fun p => dateKey p.2) dated
  else stableSortAscBy (fun p => dateKey p.2) dated

/-- Priority 3 of the selector: sort the dated candidates (ascending by
default, descending under `prefer_newer`) and take the first; fall back to
the first candidate when no date parses.  `none` models the `TypeError`
Python's `list.sort` raises when the parsed dates mix offset-aware and
offset-naive values (and the `IndexError` of `documents[0]` on `[]`). -/
def dateStep (preferNewer : Bool) (docs2 : List CsvRow) : Option CsvRow :=
  if datedList docs2 ≠ [] then
    if (datedList docs2).any (fun p => p.2.2.isSome) ∧
        (datedList docs2).any (fun p => p.2.2.isNone) then
      none
    else ((sortDated preferNewer (datedList docs2)).head?).map (fun p => p.1)
  else docs2.head?

/-- `DocumentDeduplicator._select_best_document_to_keep`. -/
def _select_best_document_to_keep (rows : List CsvRow) (preferNewer : Bool) :
    Option CsvRow :=
  match fieldCandidates rows with
  | .inl r => r
  | .inr docs2 => dateStep preferNewer docs2

structure PlanGroup where
  group_id : String
  normalized_url : String
  total_documents : Nat
  keep_document : CsvRow
  delete_documents : List CsvRow
  deletion_count : Nat
deriving Repr, DecidableEq

structure PlanAnalysis where
  total_documents : Nat
  duplicate_groups : Nat
  total_to_delete : Nat
  groups : List PlanGroup
deriving Repr, DecidableEq

def buildPlanGroups (rows : List CsvRow) : List (String × List CsvRow) :=
  rows.foldl (fun m r => if r.group_id ≠ "" then alInsert r.group_id r m else m) []

/-- Per-group planning loop: skip single-document groups; otherwise the
selector's keeper is kept and every document whose `id` differs from the
keeper's is planned for deletion. -/
def planLoop (preferNewer : Bool) : List (String × List CsvRow) → Option (List PlanGroup)
  | [] => some []
  | (gid, docs) :: rest =>
    if docs.length ≤ 1 then planLoop preferNewer rest
    else
      match _select_best_document_to_keep docs preferNewer with
      | none => none
      | some best =>
        let dels := docs.filter (fun d => d.id ≠ best.id)
        match planLoop preferNewer rest with
        | none => none
        | some gs =>
          some (⟨gid, ((docs.head?.map (fun d => d.normalized_url)).getD ""),
                 docs.length, best, dels, dels.length⟩ :: gs)

/-- `DocumentDeduplicator.analyze_deletion_plan` on parsed rows (`none`
models a raised exception from the selector). -/
def analyze_deletion_plan (rows : List CsvRow) (preferNewer : Bool) :
    Option PlanAnalysis :=
  match planLoop preferNewer (buildPlanGroups rows) with
  | none => none
  | some gs =>
    some ⟨rows.length, gs.length, (gs.map (fun g => g.deletion_count)).sum, gs⟩

/-- `DocumentDeduplicator._get_keep_reason`. -/
def _get_keep_reason (keep : CsvRow) (dels : List CsvRow) : String :=
  let hasNotes := pyStrip keep.notes ≠ ""
  let hasTags := pyStrip keep.tags ≠ ""
  let delNotes := dels.any (fun d => pyStrip d.notes ≠ "")
  let delTags := dels.any (fun d => pyStrip d.tags ≠ "")
  if hasNotes ∧ ¬ delNotes then "Has notes"
  else if hasTags ∧ ¬ delTags then "Has tags"
  else if hasNotes ∧ delNotes then "Has notes (preferred among notes)"
  else if hasTags ∧ delTags then "Has tags (preferred among tags)"
  else "Oldest creation date"

/-- A row of a deletion-plan CSV (`export_deletion_plan` column set). -/
structure PlanCsvRow where
  group_id : String := ""
  action : String := ""
  document_id : String := ""
  title : String := ""
  source_url : String := ""
  author : String := ""
  notes : String := ""
  tags : String := ""
  created_at : String := ""
  reason : String := ""
deriving Repr, DecidableEq

def keepStr : String := "KEEP"

def deleteStr : String := "DELETE"

def dupReason : String := "Duplicate document"

/-- `DocumentDeduplicator.export_deletion_plan`: one KEEP row per group
followed by its DELETE rows. -/
def export_deletion_plan (gs : List PlanGroup) : List PlanCsvRow :=
  gs.flatMap (fun g =>
    { group_id := g.group_id, action := keepStr, document_id := g.keep_document.id,
      title := g.keep_document.title, source_url := g.keep_document.source_url,
      author := g.keep_document.author, notes := g.keep_document.notes,
      tags := g.keep_document.tags, created_at := g.keep_document.created_at,
      reason := _get_keep_reason g.keep_document g.delete_documents } ::
    g.delete_documents.map (fun d =>
      { group_id := g.group_id, action := deleteStr, document_id := d.id,
        title := d.title, source_url := d.source_url, author := d.author,
        notes := d.notes, tags := d.tags, created_at := d.created_at,
        reason := dupReason }))

/-! ## Plan executor (`execute_deletion_plan`, `_extract_retry_after`,
`_update_deletion_plan`)

The executor is modelled for uninterrupted runs (the interrupt flag is
never set; claims C2–C4 concern the retry/recording/rewrite logic).  The
store is a trace: the n-th delete call receives the n-th `DelOutcome`.
Batching only inserts pacing sleeps and log lines between calls, so the
candidate order is the flat DELETE-row order.  `none` results model a run
whose supplied trace ends while a candidate is still being retried (the
unbounded 429 loop). -/

def str429 : String := "429"

def str404 : String := "404"

def strColon : String := ":"

def errPrefix : String := "Document "

def errSep : String := ": "

def apiFailMsg : String := "API returned failure status"

/-- `DocumentDeduplicator._extract_retry_after`: the `Retry-After` header
parsed as an integer, `none` if absent or unparseable. -/
def _extract_retry_after (retryAfterHeader : Option String) : Option Int :=
  match retryAfterHeader with
  | none => none
  | some v => pyInt? v

/-- The sleep chosen for a 429 retry: the parsed `Retry-After` header if it
is truthy (a nonzero integer), else the 60-second default. -/
def sleepFor (retryAfterHeader : Option String) : Int :=
  match _extract_retry_after retryAfterHeader with
  | some v => if v ≠ 0 then v else 60
  | none => 60

structure ExecAcc where
  succ : Nat := 0
  fail : Nat := 0
  errors : List String := []
  succIds : List String := []
  calls : List String := []
  retrySleeps : List Int := []
deriving Repr, DecidableEq

/-- Accumulator update for a successful deletion. -/
def recordSuccess (acc : ExecAcc) (docId : String) : ExecAcc :=
  { acc with succ := acc.succ + 1, succIds := acc.succIds ++ [docId], calls := acc.calls ++ [docId] }

/-- Accumulator update for an immediate failure with message `msg`
(recorded as `"Document <id>: <msg>"`). -/
def recordFailure (acc : ExecAcc) (docId msg : String) : ExecAcc :=
  { acc with fail := acc.fail + 1, errors := acc.errors ++ [errPrefix ++ docId ++ errSep ++ msg], calls := acc.calls ++ [docId] }

/-- Accumulator update for one 429 retry (a call plus a sleep). -/
def recordRetry (acc : ExecAcc) (docId : String) (ra : Option String) : ExecAcc :=
  { acc with calls := acc.calls ++ [docId], retrySleeps := acc.retrySleeps ++ [sleepFor ra] }

/-- Accumulator update for `n` consecutive 429 retries. -/
def recordRetryN (acc : ExecAcc) (docId : String) (ra : Option String) (n : Nat) : ExecAcc :=
  { acc with calls := acc.calls ++ List.replicate n docId, retrySleeps := acc.retrySleeps ++ List.replicate n (sleepFor ra) }

/-- The per-candidate retry loop of `execute_deletion_plan`: a truthy
result is a success; a falsy result fails immediately (with the message
"API returned failure status"); an exception whose message contains "429"
sleeps (`Retry-After` if it parses to a nonzero integer, else 60 seconds)
and retries; any other exception fails immediately. -/
def processCandidate (docId : String) :
    List DelOutcome → ExecAcc → Option (ExecAcc × List DelOutcome)
  | [], _ => none
  | o :: rest, acc =>
    match o with
    | .ok true => some (recordSuccess acc docId, rest)
    | .ok false => some (recordFailure acc docId apiFailMsg, rest)
    | .exc msg ra =>
      if pyIn str429 msg then processCandidate docId rest (recordRetry acc docId ra)
      else some (recordFailure acc docId msg, rest)

/-- Process all DELETE candidates in order. -/
def execCandidates : List String → List DelOutcome → ExecAcc →
    Option (ExecAcc × List DelOutcome)
  | [], trace, acc => some (acc, trace)
  | d :: rest, trace, acc =>
    match processCandidate d trace acc with
    | none => none
    | some (acc', trace') => execCandidates rest trace' acc'

/-- Split on a (nonempty) multi-character separator, non-overlapping,
left to right (Python `str.split(sep)`); fuel-indexed. -/
def splitOnListF (sep : List Char) : Nat → List Char → List Char → List (List Char)
  | _, [], acc => [acc.reverse]
  | 0, l, acc => [acc.reverse ++ l]
  | fuel + 1, c :: rest, acc =>
    if (c :: rest).take sep.length = sep ∧ sep ≠ [] then
      acc.reverse :: splitOnListF sep fuel (rest.drop (sep.length - 1)) []
    else splitOnListF sep fuel rest (c :: acc)

def pySplitOn (s sep : String) : List String :=
  (splitOnListF sep.data (s.data.length + 1) s.data []).map (fun l => ⟨l⟩)

/-- The 404-id extraction of `_update_deletion_plan`: from every error
string containing "404", take the text between the first "Document " and
the following ":", stripped. -/
def extract404Ids (errors : List String) : List String :=
  errors.foldl (fun acc e =>
    if pyIn str404 e then
      if pyIn errPrefix e ∧ pyIn strColon e then
        match (pySplitOn e errPrefix).drop 1 with
        | [] => acc
        | seg :: _ => acc ++ [pyStrip ((pySplitOn seg strColon).headD "")]
      else acc
    else acc) []

/-- POSIX `os.path.basename`. -/
def pyBasename (p : String) : String :=
  ⟨(p.data.reverse.takeWhile (fun c => c ≠ '/')).reverse⟩

/-- The stem part of `os.path.splitext`: split at the last dot unless every
character before it is a dot. -/
def pySplitextStem (name : String) : String :=
  let l := name.data
  let revPre := l.reverse.takeWhile (fun c => c ≠ '.')
  if revPre.length = l.length then name
  else
    let stemLen := l.length - revPre.length - 1
    if (l.take stemLen).all (fun c => c = '.') then name else ⟨l.take stemLen⟩

def updatedInfix : String := "_updated_"

def csvExt : String := ".csv"

/-- The new plan filename: `<stem>_updated_<timestamp>.csv`. -/
def newPlanName (origPath ts : String) : String :=
  pySplitextStem (pyBasename origPath) ++ updatedInfix ++ ts ++ csvExt

/-- `DocumentDeduplicator._update_deletion_plan`: remove successfully
deleted and 404 DELETE rows; keep all KEEP rows; write nothing when no
document was processed or when no DELETE row remains. -/
def _update_deletion_plan (origPath ts : String) (planRows : List PlanCsvRow)
    (succIds : List String) (errors : List String) :
    Option (String × List PlanCsvRow) :=
  let processed := succIds ++ extract404Ids errors
  if processed = [] then none
  else
    let remaining := planRows.filter (fun r =>
      pyUpper r.action = keepStr ∨
        (pyUpper r.action = deleteStr ∧ pyStrip r.document_id ∉ processed))
    let remDel := (remaining.filter (fun r => pyUpper r.action = deleteStr)).length
    if remDel = 0 then none
    else some (newPlanName origPath ts, remaining)

structure ExecResult where
  dryRun : Bool
  totalCandidates : Nat
  previewShown : Nat
  successfulDeletions : Nat
  failedDeletions : Nat
  errors : List String
  successIds : List String
  deleteCalls : List String
  retrySleeps : List Int
  updatedPlan : Option (String × List PlanCsvRow)
  reportWritten : Bool
deriving Repr, DecidableEq

/-- `DocumentDeduplicator.execute_deletion_plan` on parsed plan rows.
`origPath` is the plan file's path, `ts` the wall-clock timestamp used for
the rewritten plan's filename. -/
def execute_deletion_plan (origPath ts : String) (planRows : List PlanCsvRow)
    (dryRun : Bool) (trace : List DelOutcome) : Option ExecResult :=
  let cands := planRows.filter (fun r => pyUpper r.action = deleteStr)
  let ids := cands.map (fun r => r.document_id)
  if ids = [] then
    some { dryRun := dryRun, totalCandidates := 0, previewShown := 0,
           successfulDeletions := 0, failedDeletions := 0, errors := [],
           successIds := [], deleteCalls := [], retrySleeps := [],
           updatedPlan := none, reportWritten := false }
  else if dryRun then
    some { dryRun := true, totalCandidates := ids.length,
           previewShown := min 10 ids.length,
           successfulDeletions := 0, failedDeletions := 0, errors := [],
           successIds := [], deleteCalls := [], retrySleeps := [],
           updatedPlan := none, reportWritten := false }
  else
    match execCandidates ids trace {} with
    | none => none
    | some (acc, _) =>
      let upd :=
        if acc.succIds ≠ [] ∨ acc.errors ≠ [] then
          _update_deletion_plan origPath ts planRows acc.succIds acc.errors
        else none
      some { dryRun := false, totalCandidates := ids.length, previewShown := 0,
             successfulDeletions := acc.succ, failedDeletions := acc.fail,
             errors := acc.errors, successIds := acc.succIds,
             deleteCalls := acc.calls, retrySleeps := acc.retrySleeps,
             updatedPlan := upd, reportWritten := true }

/-! ## Concrete scenario inputs used by the claims -/

def c7Now : Int := daysFromCivil 2025 10 12 * 86400000000

/-- A document with a 15-character title, author "Jane", a 120-character
summary, 3 tags, a non-shortener URL, an `updated_at` 5 days before
`c7Now`, and (as the spec's score sum `25+15+20+10+10+10+10` presupposes) a
creation date. -/
def c7Doc : LiveDoc :=
  { id := "d1", title := "Fifteen chars!!", author := "Jane",
    summary := ⟨List.replicate 120 's'⟩, tags := [ "t1", "t2", "t3" ],
    source_url := "https://example.org/article",
    created_at := "2025-01-01T00:00:00Z", updated_at := "2025-10-07T00:00:00Z" }

def c7Empty : LiveDoc := {}

def c7TieA : LiveDoc := { id := "a", title := "Alpha" }

def c7TieB : LiveDoc := { id := "b", title := "Betaa" }

def c1DupA : CsvRow := { id := "x", group_id := "1", title := "first copy" }

def c1DupB : CsvRow := { id := "x", group_id := "1", title := "second copy" }

def c1WitA : CsvRow := { id := "a", group_id := "1" }

def c1WitB : CsvRow := { id := "b", group_id := "1", notes := "keep me" }

def c10Aware : CsvRow := { id := "a", created_at := "2023-07-27T10:30:00Z" }

def c10Naive : CsvRow := { id := "b", created_at := "2023-07-27 10:30:00" }

def c2Id : String := "doc1"

def c2Msg429 : String := "429 Too Many Requests"

def c2MsgBoom : String := "500 Server Error"

def c2Zero : String := "0"

def c4Path : String := "plan.csv"

def c4Ts : String := "20251012_120000"

def c4Keep : PlanCsvRow := { group_id := "1", action := "KEEP", document_id := "k1" }

def c4Del1 : PlanCsvRow := { group_id := "1", action := "DELETE", document_id := "d1" }

def c4Del2 : PlanCsvRow := { group_id := "1", action := "DELETE", document_id := "d2" }

def c5In : String := "a"

def c5Mid : String := "://a"

def c5Wit : String := "https://ex.com/a?utm_source=x&b=2"

def c5Bad : String := "http://[a"

def c5WQ : String := "utm_source=x&b=2"

def c5WK : String := "b"

def c5WV : String := "2"

def c5WitP : UrlParts := ⟨"https".data, "ex.com".data, "/a".data, "utm_source=x&b=2".data⟩

def c6A : String := "aba"

def c6B : String := "babba"

def c8Url1 : String := "https://ex.com/a?utm_source=x"

def c8Url2 : String := "http://ex.com/a"

def c8Title : String := "Example Article Title"

/-- The two scenario rows of C8 with similar (identical) titles. -/
def c8RowA : CsvRow := { id := "r1", title := c8Title, source_url := c8Url1 }

def c8RowB : CsvRow := { id := "r2", title := c8Title, source_url := c8Url2 }

/-- The two scenario rows of C8 with empty titles. -/
def c8RowA0 : CsvRow := { id := "r1", source_url := c8Url1 }

def c8RowB0 : CsvRow := { id := "r2", source_url := c8Url2 }

def c9Title1 : String := "same nice title"

def c9Title3 : String := "zzzz qqqq wwww"

def c9R1 : CsvRow := { id := "r1", title := c9Title1 }

def c9R2 : CsvRow := { id := "r2", title := c9Title1 }

def c9R3 : CsvRow := { id := "r3", title := c9Title3 }

/-- The group the advanced matcher records for the three C9 witness rows
(rows 1 and 2 share a title, the reset `match_reason` is empty). -/
def c9WitGroup : AdvGroup :=
  { normalized_url := "", rows := [ (1, c9R1), (2, c9R2) ], match_reason := none }

def noInput : String := ""

def gid1 : String := "1"

/-- The plan produced for the C1 witness rows (keeper `c1WitB`, which has
notes). -/
def c1WitPlan : PlanAnalysis :=
  { total_documents := 2, duplicate_groups := 1, total_to_delete := 1,
    groups := [ { group_id := gid1, normalized_url := "", total_documents := 2,
                  keep_document := c1WitB, delete_documents := [ c1WitA ],
                  deletion_count := 1 } ] }

def c10WitA : CsvRow := { id := "u1", created_at := "not a date" }

def c10WitB : CsvRow := { id := "u2" }

/-- The dry-run executor result on the three-row witness plan. -/
def c3WitRes : ExecResult :=
  { dryRun := true, totalCandidates := 2, previewShown := 2,
    successfulDeletions := 0, failedDeletions := 0, errors := [],
    successIds := [], deleteCalls := [], retrySleeps := [],
    updatedPlan := none, reportWritten := false }

/-- The executor result on the C4 witness run (`d1` deleted, `d2` fails). -/
def c4WitRes : ExecResult :=
  { dryRun := false, totalCandidates := 2, previewShown := 0,
    successfulDeletions := 1, failedDeletions := 1,
    errors := [ "Document d2: API returned failure status" ],
    successIds := [ "d1" ], deleteCalls := [ "d1", "d2" ], retrySleeps := [],
    updatedPlan := some ("plan_updated_20251012_120000.csv", [ c4Keep, c4Del2 ]),
    reportWritten := true }

end Dedup

namespace Dedup

/-! ## Claim theorems -/

/-! ### `SequenceMatcher` infrastructure lemmas (for C6) -/

theorem b2jGet_nil (c : Char) : b2jGet [] c = [] := rfl

theorem b2jGet_cons (c0 : Char) (js : List Nat) (rest : List (Char × List Nat)) (c' : Char) :
    b2jGet ((c0, js) :: rest) c' = if c0 = c' then js else b2jGet rest c' := by
  unfold b2jGet
  simp only [List.find?]
  by_cases h : c0 = c'
  · simp [h]
  · simp [h]

theorem b2jGet_not_mem (m : List (Char × List Nat)) (c : Char)
    (h : c ∉ m.map Prod.fst) : b2jGet m c = [] := by
  unfold b2jGet
  rw [List.find?_eq_none.mpr]
  intro p hp
  simp only [decide_eq_true_eq]
  intro hpc
  exact h (List.mem_map.mpr ⟨p, hp, hpc⟩)

theorem b2jGet_b2jInsert (j : Nat) (c : Char) (m : List (Char × List Nat)) (c' : Char) :
    b2jGet (b2jInsert j c m) c' =
      if c' = c then b2jGet m c' ++ [j] else b2jGet m c' := by
  induction m with
  | nil =>
    show b2jGet [(c, [j])] c' = _
    rw [b2jGet_cons, b2jGet_nil]
    by_cases h : c' = c
    · simp [h]
    · simp [h, Ne.symm h]
  | cons p rest ih =>
    obtain ⟨c0, js0⟩ := p
    simp only [b2jInsert]
    by_cases h0 : c0 = c
    · subst h0
      rw [if_pos rfl, b2jGet_cons, b2jGet_cons]
      by_cases h1 : c0 = c'
      · simp [h1]
      · rw [if_neg h1, if_neg (fun hh => h1 (Eq.symm hh)), if_neg h1]
    · rw [if_neg h0, b2jGet_cons, b2jGet_cons, ih]
      by_cases h1 : c0 = c'
      · have h2 : ¬ c' = c := fun hh => h0 (h1.trans hh)
        simp [h1, h2]
      · by_cases h2 : c' = c <;> simp [h0, h1, h2]

theorem b2jGet_foldl (l : List (Nat × Char)) :
    ∀ (m : List (Char × List Nat)) (c : Char),
      b2jGet (l.foldl (fun m p => b2jInsert p.1 p.2 m) m) c =
        b2jGet m c ++ (l.filter (fun p => p.2 = c)).map Prod.fst := by
  induction l with
  | nil => intro m c; simp
  | cons p rest ih =>
    intro m c
    obtain ⟨j0, c0⟩ := p
    rw [List.foldl_cons, ih, b2jGet_b2jInsert]
    by_cases h : c = c0
    · subst h; simp [List.filter_cons]
    · rw [List.filter_cons]
      simp only [decide_eq_true_eq]
      rw [if_neg (fun hh => h (Eq.symm hh))]
      simp [h]

theorem b2jGet_b2jFull (b : List Char) (c : Char) :
    b2jGet (b2jFull b) c = (b.enum.filter (fun p => p.2 = c)).map Prod.fst := by
  unfold b2jFull
  rw [b2jGet_foldl, b2jGet_nil, List.nil_append]

theorem mem_b2jGet_b2jFull (b : List Char) (c : Char) (j : Nat) :
    j ∈ b2jGet (b2jFull b) c ↔ j < b.length ∧ b.getD j ' ' = c := by
  rw [b2jGet_b2jFull]
  simp only [List.mem_map, List.mem_filter, decide_eq_true_eq]
  constructor
  · rintro ⟨⟨j', c'⟩, ⟨hmem, hc⟩, rfl⟩
    rw [List.mk_mem_enum_iff_getElem?] at hmem
    have hlt : j' < b.length := by
      by_contra hge
      rw [List.getElem?_eq_none (by omega)] at hmem
      cases hmem
    refine ⟨hlt, ?_⟩
    rw [List.getD_eq_getElem?_getD, hmem]
    exact hc
  · rintro ⟨hlt, hc⟩
    refine ⟨(j, c), ⟨?_, rfl⟩, rfl⟩
    rw [List.mk_mem_enum_iff_getElem?]
    rw [List.getD_eq_getElem?_getD, List.getElem?_eq_getElem hlt] at hc
    rw [List.getElem?_eq_getElem hlt]
    exact congrArg some hc

theorem pairwise_b2jGet_b2jFull (b : List Char) (c : Char) :
    List.Pairwise (· < ·) (b2jGet (b2jFull b) c) := by
  rw [b2jGet_b2jFull]
  have hsub : ((b.enum.filter (fun p => p.2 = c)).map Prod.fst).Sublist
      (b.enum.map Prod.fst) :=
    (@List.filter_sublist _ (fun p => p.2 = c) b.enum).map Prod.fst
  rw [List.enum_map_fst] at hsub
  exact (List.pairwise_lt_range b.length).sublist hsub

theorem b2jInsert_keys (j : Nat) (c : Char) (m : List (Char × List Nat)) :
    (b2jInsert j c m).map Prod.fst =
      if c ∈ m.map Prod.fst then m.map Prod.fst else m.map Prod.fst ++ [c] := by
  induction m with
  | nil => simp [b2jInsert]
  | cons p rest ih =>
    obtain ⟨c0, js0⟩ := p
    by_cases h : c0 = c
    · subst h; simp [b2jInsert]
    · simp only [b2jInsert, if_neg h, List.map_cons, ih]
      by_cases h2 : c ∈ rest.map Prod.fst
      · rw [if_pos h2, if_pos (List.mem_cons_of_mem c0 h2)]
      · rw [if_neg h2, if_neg ?side, List.cons_append]
        case side =>
          intro hmem
          rcases List.mem_cons.mp hmem with hh | hh
          · exact h hh.symm
          · exact h2 hh

theorem nodup_keys_b2jFull (b : List Char) : ((b2jFull b).map Prod.fst).Nodup := by
  unfold b2jFull
  suffices h : ∀ (l : List (Nat × Char)) (m : List (Char × List Nat)),
      (m.map Prod.fst).Nodup →
      ((l.foldl (fun m p => b2jInsert p.1 p.2 m) m).map Prod.fst).Nodup by
    exact h b.enum [] List.nodup_nil
  intro l
  induction l with
  | nil => intro m hm; exact hm
  | cons p rest ih =>
    intro m hm
    rw [List.foldl_cons]
    apply ih
    rw [b2jInsert_keys]
    by_cases h : p.2 ∈ m.map Prod.fst
    · rw [if_pos h]; exact hm
    · rw [if_neg h]
      exact List.Nodup.append hm (List.nodup_singleton _) (fun x hx hx2 => by
        rw [List.mem_singleton] at hx2
        subst hx2
        exact h hx)

theorem b2jGet_filter (m : List (Char × List Nat)) (q : Char × List Nat → Bool)
    (hnd : (m.map Prod.fst).Nodup) (c : Char) :
    b2jGet (m.filter q) c = b2jGet m c ∨ b2jGet (m.filter q) c = [] := by
  induction m with
  | nil => exact Or.inr rfl
  | cons p rest ih =>
    obtain ⟨c0, js0⟩ := p
    simp only [List.map_cons, List.nodup_cons] at hnd
    by_cases h : c0 = c
    · subst h
      rw [List.filter_cons]
      by_cases hq : q (c0, js0) = true
      · rw [if_pos hq, b2jGet_cons, if_pos rfl, b2jGet_cons, if_pos rfl]
        exact Or.inl rfl
      · rw [if_neg hq]
        refine Or.inr (b2jGet_not_mem _ _ ?_)
        intro hc
        obtain ⟨p, hp, hfst⟩ := List.mem_map.mp hc
        exact hnd.1 (List.mem_map.mpr ⟨p, List.mem_of_mem_filter hp, hfst⟩)
    · rw [List.filter_cons]
      by_cases hq : q (c0, js0) = true
      · rw [if_pos hq, b2jGet_cons, if_neg h, b2jGet_cons, if_neg h]
        exact ih hnd.2
      · rw [if_neg hq, b2jGet_cons, if_neg h]
        exact ih hnd.2

theorem b2jGet_b2jOf (b : List Char) (c : Char) :
    b2jGet (b2jOf b) c = b2jGet (b2jFull b) c ∨ b2jGet (b2jOf b) c = [] := by
  unfold b2jOf
  by_cases h : b.length ≥ 200
  · rw [if_pos h]
    exact b2jGet_filter _ _ (nodup_keys_b2jFull b) c
  · rw [if_neg h]
    exact Or.inl rfl

theorem pairwise_b2jGet_b2jOf (b : List Char) (c : Char) :
    List.Pairwise (· < ·) (b2jGet (b2jOf b) c) := by
  rcases b2jGet_b2jOf b c with h | h
  · rw [h]; exact pairwise_b2jGet_b2jFull b c
  · rw [h]; exact List.Pairwise.nil

theorem mem_b2jGet_b2jOf (b : List Char) (c : Char) (j : Nat)
    (h : j ∈ b2jGet (b2jOf b) c) : j < b.length ∧ b.getD j ' ' = c := by
  rcases b2jGet_b2jOf b c with he | he
  · rw [he] at h; exact (mem_b2jGet_b2jFull b c j).mp h
  · rw [he] at h; cases h

theorem njGet_njSet (j k : Nat) (m : List (Nat × Nat)) (j' : Nat) :
    njGet (njSet j k m) j' = if j' = j then k else njGet m j' := by
  induction m with
  | nil =>
    show njGet [(j, k)] j' = _
    unfold njGet
    simp only [List.find?]
    by_cases h : j' = j
    · simp [h]
    · simp [h, Ne.symm h]
  | cons p rest ih =>
    obtain ⟨j0, k0⟩ := p
    simp only [njSet]
    by_cases h0 : j0 = j
    · subst h0
      rw [if_pos rfl]
      unfold njGet
      simp only [List.find?]
      by_cases h1 : j' = j0
      · simp [h1]
      · simp [Ne.symm h1, h1]
    · rw [if_neg h0]
      unfold njGet
      simp only [List.find?]
      by_cases h1 : j0 = j'
      · have h2 : ¬ j' = j := fun hh => h0 (h1.trans hh)
        simp [h1, h2]
      · simp only [decide_eq_false h1, Bool.false_eq_true]
        have := ih
        unfold njGet at this
        exact this

theorem mem_njSet (j k : Nat) (m : List (Nat × Nat)) (p : Nat × Nat)
    (h : p ∈ njSet j k m) : p = (j, k) ∨ p ∈ m := by
  induction m with
  | nil =>
    simp only [njSet, List.mem_singleton] at h
    exact Or.inl h
  | cons q rest ih =>
    obtain ⟨j0, k0⟩ := q
    simp only [njSet] at h
    by_cases h0 : j0 = j
    · rw [if_pos h0] at h
      rcases List.mem_cons.mp h with hh | hh
      · exact Or.inl hh
      · exact Or.inr (List.mem_cons_of_mem _ hh)
    · rw [if_neg h0] at h
      rcases List.mem_cons.mp h with hh | hh
      · exact Or.inr (hh ▸ List.mem_cons_self _ _)
      · rcases ih hh with hh2 | hh2
        · exact Or.inl hh2
        · exact Or.inr (List.mem_cons_of_mem _ hh2)

theorem njGet_bound (m : List (Nat × Nat)) (f : Nat → Nat) (h : ∀ p ∈ m, p.2 ≤ f p.1)
    (x : Nat) : njGet m x ≤ f x := by
  unfold njGet
  cases hf : m.find? (fun p => p.1 = x) with
  | none => exact Nat.zero_le _
  | some p =>
    have hmem := List.mem_of_find?_eq_some hf
    have hx := List.find?_some hf
    simp only [decide_eq_true_eq] at hx
    subst hx
    exact h p hmem

theorem flmRow_valid (i blo bhi alo ahi : Nat) (hia : alo ≤ i) (hi : i < ahi)
    (j2len : List (Nat × Nat))
    (hj : ∀ p ∈ j2len, blo ≤ p.1 ∧ p.2 + blo ≤ p.1 + 1 ∧ p.2 + alo ≤ i) :
    ∀ (js : List Nat) (acc : List (Nat × Nat)) (best : Nat × Nat × Nat),
      (∀ p ∈ acc, blo ≤ p.1 ∧ p.2 + blo ≤ p.1 + 1 ∧ p.2 + alo ≤ i + 1) →
      bestValid alo ahi blo bhi best →
      (∀ p ∈ (flmRow i blo bhi j2len js acc best).1,
          blo ≤ p.1 ∧ p.2 + blo ≤ p.1 + 1 ∧ p.2 + alo ≤ i + 1) ∧
        bestValid alo ahi blo bhi (flmRow i blo bhi j2len js acc best).2 := by
  intro js
  induction js with
  | nil => intro acc best ha hb; exact ⟨ha, hb⟩
  | cons j js ih =>
    intro acc best ha hb
    simp only [flmRow]
    by_cases h1 : j < blo
    · rw [if_pos h1]
      exact ih acc best ha hb
    · rw [if_neg h1]
      by_cases h2 : bhi ≤ j
      · rw [if_pos h2]
        exact ⟨ha, hb⟩
      · rw [if_neg h2]
        have hk1 : (if j = 0 then 0 else njGet j2len (j - 1)) + 1 + blo ≤ j + 1 := by
          by_cases hj0 : j = 0
          · rw [if_pos hj0]
            omega
          · rw [if_neg hj0]
            have hnb : njGet j2len (j - 1) ≤ (j - 1) + 1 - blo :=
              njGet_bound j2len (fun x => x + 1 - blo)
                (fun p hp => by
                  have h3 := hj p hp
                  show p.2 ≤ p.1 + 1 - blo
                  omega) (j - 1)
            omega
        have hk2 : (if j = 0 then 0 else njGet j2len (j - 1)) + 1 + alo ≤ i + 1 := by
          by_cases hj0 : j = 0
          · rw [if_pos hj0]
            omega
          · rw [if_neg hj0]
            have hnb : njGet j2len (j - 1) ≤ i - alo :=
              njGet_bound j2len (fun x => i - alo)
                (fun p hp => by
                  have h3 := hj p hp
                  show p.2 ≤ i - alo
                  omega) (j - 1)
            omega
        apply ih
        · intro p hp
          rcases mem_njSet _ _ _ _ hp with hh | hh
          · subst hh
            refine ⟨by omega, by omega, by omega⟩
          · exact ha p hh
        · by_cases hbest : (if j = 0 then 0 else njGet j2len (j - 1)) + 1 > best.2.2
          · rw [if_pos hbest]
            obtain ⟨hb1, hb2, hb3, hb4⟩ := hb
            unfold bestValid
            dsimp only
            exact ⟨by omega, by omega, by omega, by omega⟩
          · rw [if_neg hbest]
            exact hb

theorem foldlRange_inv {β : Type} (P : Nat → β → Prop) (f : β → Nat → β) :
    ∀ (n a : Nat) (init : β), P a init →
      (∀ i b, a ≤ i → i < a + n → P i b → P (i + 1) (f b i)) →
      P (a + n) ((List.range' a n).foldl f init) := by
  intro n
  induction n with
  | zero => intro a init h0 _; exact h0
  | succ n ih =>
    intro a init h0 hstep
    rw [List.range'_succ, List.foldl_cons]
    have h1 : P (a + 1) (f init a) := hstep a init le_rfl (by omega) h0
    have h2 := ih (a + 1) (f init a) h1
      (fun i b hi1 hi2 hb => hstep i b (by omega) (by omega) hb)
    have heq : a + (n + 1) = (a + 1) + n := by omega
    rw [heq]
    exact h2

theorem flmDP_valid (a : List Char) (b2j : List (Char × List Nat))
    (alo ahi blo bhi : Nat) (h1 : alo ≤ ahi) (h2 : blo ≤ bhi) :
    bestValid alo ahi blo bhi (flmDP a b2j alo ahi blo bhi) := by
  unfold flmDP
  have hfold := foldlRange_inv
    (fun i st => (∀ p ∈ st.1, blo ≤ p.1 ∧ p.2 + blo ≤ p.1 + 1 ∧ p.2 + alo ≤ i) ∧
      bestValid alo ahi blo bhi st.2)
    (fun st i => flmRow i blo bhi st.1 (b2jGet b2j (a.getD i ' ')) [] st.2)
    (ahi - alo) alo ([], (alo, blo, 0))
    ⟨(by intro p hp; cases hp), (by unfold bestValid; dsimp only; omega)⟩
    (fun i st hi1 hi2 hst =>
      flmRow_valid i blo bhi alo ahi hi1 (by omega) st.1 hst.1
        (b2jGet b2j (a.getD i ' ')) [] st.2 (by intro p hp; cases hp) hst.2)
  have heq : alo + (ahi - alo) = ahi := by omega
  rw [heq] at hfold
  exact hfold.2

theorem extLow_valid (a b : List Char) (alo blo ahi bhi : Nat) :
    ∀ (fuel : Nat) (st : Nat × Nat × Nat), bestValid alo ahi blo bhi st →
      bestValid alo ahi blo bhi (extLow a b alo blo fuel st) := by
  intro fuel
  induction fuel with
  | zero => intro st h; exact h
  | succ fuel ih =>
    intro st h
    obtain ⟨bi, bj, bs⟩ := st
    simp only [extLow]
    split
    · apply ih
      obtain ⟨h1, h2, h3, h4⟩ := h
      rename_i hcond
      unfold bestValid
      dsimp only at h1 h2 h3 h4 ⊢
      exact ⟨by omega, by omega, by omega, by omega⟩
    · exact h

theorem extHigh_valid (a b : List Char) (alo blo ahi bhi : Nat) :
    ∀ (fuel : Nat) (st : Nat × Nat × Nat), bestValid alo ahi blo bhi st →
      bestValid alo ahi blo bhi (extHigh a b ahi bhi fuel st) := by
  intro fuel
  induction fuel with
  | zero => intro st h; exact h
  | succ fuel ih =>
    intro st h
    obtain ⟨bi, bj, bs⟩ := st
    simp only [extHigh]
    split
    · apply ih
      obtain ⟨h1, h2, h3, h4⟩ := h
      rename_i hcond
      unfold bestValid
      dsimp only at h1 h2 h3 h4 ⊢
      exact ⟨by omega, by omega, by omega, by omega⟩
    · exact h

theorem findLongestMatch_valid (a b : List Char) (b2j : List (Char × List Nat))
    (alo ahi blo bhi : Nat) (h1 : alo ≤ ahi) (h2 : blo ≤ bhi) :
    bestValid alo ahi blo bhi (findLongestMatch a b b2j alo ahi blo bhi) := by
  unfold findLongestMatch
  exact extHigh_valid a b alo blo ahi bhi _ _
    (extLow_valid a b alo blo ahi bhi _ _ (flmDP_valid a b2j alo ahi blo bhi h1 h2))

theorem msum_le (a b : List Char) (b2j : List (Char × List Nat)) :
    ∀ (fuel alo ahi blo bhi : Nat), alo ≤ ahi → blo ≤ bhi →
      msum a b b2j fuel alo ahi blo bhi + alo ≤ ahi ∧
        msum a b b2j fuel alo ahi blo bhi + blo ≤ bhi := by
  intro fuel
  induction fuel with
  | zero =>
    intro alo ahi blo bhi h1 h2
    simp only [msum]
    omega
  | succ fuel ih =>
    intro alo ahi blo bhi h1 h2
    simp only [msum]
    by_cases hc : alo < ahi ∧ blo < bhi
    · rw [if_pos hc]
      have hv := findLongestMatch_valid a b b2j alo ahi blo bhi h1 h2
      obtain ⟨hv1, hv2, hv3, hv4⟩ := hv
      by_cases hz : (findLongestMatch a b b2j alo ahi blo bhi).2.2 = 0
      · rw [if_pos hz]
        omega
      · rw [if_neg hz]
        have hl := ih alo (findLongestMatch a b b2j alo ahi blo bhi).1 blo
          (findLongestMatch a b b2j alo ahi blo bhi).2.1 hv1 hv3
        have hr := ih ((findLongestMatch a b b2j alo ahi blo bhi).1 +
            (findLongestMatch a b b2j alo ahi blo bhi).2.2) ahi
          ((findLongestMatch a b b2j alo ahi blo bhi).2.1 +
            (findLongestMatch a b b2j alo ahi blo bhi).2.2) bhi hv2 hv4
        omega
    · rw [if_neg hc]
      omega

theorem ratioOf_nonneg (a b : List Char) : 0 ≤ ratioOf a b := by
  unfold ratioOf
  rw [Rat.mkRat_eq_div]
  apply div_nonneg
  · positivity
  · positivity

theorem ratioOf_le_one (a b : List Char) : ratioOf a b ≤ 1 := by
  unfold ratioOf
  rw [Rat.mkRat_eq_div]
  by_cases h : a.length + b.length = 0
  · rw [h]
    simp
  · rw [div_le_one (by positivity)]
    have h2 := msum_le a b (b2jOf b) (a.length + b.length + 1) 0 a.length 0 b.length
      (Nat.zero_le _) (Nat.zero_le _)
    have h3 : 2 * msum a b (b2jOf b) (a.length + b.length + 1) 0 a.length 0 b.length ≤
        a.length + b.length := by omega
    exact_mod_cast h3

theorem wchain_pos_eq (a : List Char) (alo ahi j : Nat)
    (h : alo ≤ j ∧ j < ahi ∧ flmLive a j) :
    wchain a alo ahi j = (if j = 0 then 0 else wchain a alo ahi (j - 1)) + 1 := by
  cases j with
  | zero =>
    simp only [wchain]
    rw [if_pos ⟨Nat.le_zero.mp h.1, h.2.1, h.2.2⟩]
    simp
  | succ j =>
    simp only [wchain]
    rw [if_pos h, if_neg (Nat.succ_ne_zero j)]
    rfl

theorem wchain_neg_eq (a : List Char) (alo ahi j : Nat)
    (h : ¬ (alo ≤ j ∧ j < ahi ∧ flmLive a j)) :
    wchain a alo ahi j = 0 := by
  cases j with
  | zero =>
    simp only [wchain]
    rw [if_neg (fun hh => h ⟨Nat.le_of_eq hh.1, hh.2⟩)]
  | succ j =>
    simp only [wchain]
    rw [if_neg h]

theorem wchain_le_window (a : List Char) (alo ahi : Nat) :
    ∀ j, wchain a alo ahi j ≤ j + 1 - alo := by
  intro j
  induction j with
  | zero =>
    simp only [wchain]
    by_cases h : alo = 0 ∧ 0 < ahi ∧ flmLive a 0
    · rw [if_pos h]
      obtain ⟨h0, -, -⟩ := h
      omega
    · rw [if_neg h]; omega
  | succ j ih =>
    simp only [wchain]
    by_cases h : alo ≤ j + 1 ∧ j + 1 < ahi ∧ flmLive a (j + 1)
    · rw [if_pos h]
      obtain ⟨h0, -, -⟩ := h
      omega
    · rw [if_neg h]; omega

theorem wchain_le_wmax (a : List Char) (alo ahi : Nat) :
    ∀ n j, alo ≤ j → j < alo + n → wchain a alo ahi j ≤ wmax a alo ahi n := by
  intro n
  induction n with
  | zero => intro j h1 h2; omega
  | succ n ih =>
    intro j h1 h2
    show wchain a alo ahi j ≤ max (wmax a alo ahi n) (wchain a alo ahi (alo + n))
    by_cases h : j < alo + n
    · exact le_trans (ih j h1 h) (le_max_left _ _)
    · have hj : j = alo + n := by omega
      subst hj
      exact le_max_right _ _

theorem flmLive_of_mem (a : List Char) (c : Char) (j : Nat)
    (h : j ∈ b2jGet (b2jOf a) c) : flmLive a j := by
  have hc := mem_b2jGet_b2jOf a c j h
  unfold flmLive
  rw [hc.2]
  exact h

theorem bucket_nil_of_not_live (a : List Char) (i : Nat) (hi : i < a.length)
    (h : ¬ flmLive a i) : b2jGet (b2jOf a) (a.getD i ' ') = [] := by
  rcases b2jGet_b2jOf a (a.getD i ' ') with he | he
  · exfalso
    apply h
    unfold flmLive
    rw [he]
    exact (mem_b2jGet_b2jFull a (a.getD i ' ') i).mpr ⟨hi, rfl⟩
  · exact he

theorem sorted_split (l : List Nat) (i : Nat) (hp : List.Pairwise (· < ·) l) (hm : i ∈ l) :
    ∃ l1 l2, l = l1 ++ i :: l2 ∧ (∀ x ∈ l1, x < i) ∧ (∀ x ∈ l2, i < x) := by
  obtain ⟨l1, l2, rfl⟩ := List.append_of_mem hm
  rw [List.pairwise_append] at hp
  refine ⟨l1, l2, rfl, ?_, ?_⟩
  · intro x hx
    exact hp.2.2 x hx i (List.mem_cons_self i l2)
  · intro x hx
    exact (List.pairwise_cons.mp hp.2.1).1 x hx

theorem njGet_eq_zero_of_lt (m : List (Nat × Nat)) (x alo : Nat)
    (hk : ∀ p ∈ m, alo ≤ p.1) (hx : x < alo) : njGet m x = 0 := by
  unfold njGet
  cases hf : m.find? (fun p => p.1 = x) with
  | none => rfl
  | some p =>
    have hmem := List.mem_of_find?_eq_some hf
    have h2 := List.find?_some hf
    simp only [decide_eq_true_eq] at h2
    have := hk p hmem
    omega

theorem flmRowSelf_low (a : List Char) (alo ahi : Nat)
    (i : Nat) (hia : alo ≤ i) (hi : i < ahi) (hlive : flmLive a i)
    (j2len : List (Nat × Nat))
    (hj1 : ∀ p ∈ j2len, alo ≤ p.1 ∧ p.1 < ahi ∧ p.2 ≤ wchain a alo ahi p.1 ∧
      p.2 ≤ wchain a alo ahi (i - 1) ∧ p.2 + alo ≤ i) :
    ∀ (l1 rest : List Nat) (acc : List (Nat × Nat)) (best : Nat × Nat × Nat),
      (∀ x ∈ l1, x < i ∧ flmLive a x) →
      (∀ p ∈ acc, alo ≤ p.1 ∧ p.1 < ahi ∧ p.2 ≤ wchain a alo ahi p.1 ∧
        p.2 ≤ wchain a alo ahi i ∧ p.2 + alo ≤ i + 1) →
      wmax a alo ahi (i - alo) ≤ best.2.2 →
      ∃ acc2,
        (∀ p ∈ acc2, alo ≤ p.1 ∧ p.1 < ahi ∧ p.2 ≤ wchain a alo ahi p.1 ∧
          p.2 ≤ wchain a alo ahi i ∧ p.2 + alo ≤ i + 1) ∧
        flmRow i alo ahi j2len (l1 ++ rest) acc best =
          flmRow i alo ahi j2len rest acc2 best := by
  intro l1
  induction l1 with
  | nil => intro rest acc best _ ha _; exact ⟨acc, ha, rfl⟩
  | cons j l1 ih =>
    intro rest acc best hl ha hb
    have hji : j < i := (hl j (List.mem_cons_self _ _)).1
    have hjlive : flmLive a j := (hl j (List.mem_cons_self _ _)).2
    by_cases h1 : j < alo
    · have hstep : flmRow i alo ahi j2len ((j :: l1) ++ rest) acc best =
          flmRow i alo ahi j2len (l1 ++ rest) acc best := by
        rw [List.cons_append]
        simp only [flmRow]
        rw [if_pos h1]
      rw [hstep]
      exact ih rest acc best (fun x hx => hl x (List.mem_cons_of_mem _ hx)) ha hb
    · have hkw : (if j = 0 then 0 else njGet j2len (j - 1)) + 1 ≤ wchain a alo ahi j := by
        by_cases hj0 : j = 0
        · rw [if_pos hj0]
          rw [wchain_pos_eq a alo ahi j ⟨by omega, by omega, hjlive⟩, if_pos hj0]
        · rw [if_neg hj0]
          have hnb : njGet j2len (j - 1) ≤ wchain a alo ahi (j - 1) :=
            njGet_bound j2len (fun x => wchain a alo ahi x)
              (fun p hp => (hj1 p hp).2.2.1) (j - 1)
          rw [wchain_pos_eq a alo ahi j ⟨by omega, by omega, hjlive⟩, if_neg hj0]
          omega
      have hki : (if j = 0 then 0 else njGet j2len (j - 1)) + 1 ≤ wchain a alo ahi i := by
        have hnb : (if j = 0 then 0 else njGet j2len (j - 1)) ≤ wchain a alo ahi (i - 1) := by
          by_cases hj0 : j = 0
          · rw [if_pos hj0]; exact Nat.zero_le _
          · rw [if_neg hj0]
            exact njGet_bound j2len (fun x => wchain a alo ahi (i - 1))
              (fun p hp => (hj1 p hp).2.2.2.1) (j - 1)
        rw [wchain_pos_eq a alo ahi i ⟨hia, hi, hlive⟩]
        by_cases hi0 : i = 0
        · omega
        · rw [if_neg hi0]
          omega
      have hkr : (if j = 0 then 0 else njGet j2len (j - 1)) + 1 + alo ≤ i + 1 := by
        by_cases hj0 : j = 0
        · rw [if_pos hj0]; omega
        · rw [if_neg hj0]
          have hnb : njGet j2len (j - 1) ≤ i - alo :=
            njGet_bound j2len (fun x => i - alo)
              (fun p hp => by
                have h5 := (hj1 p hp).2.2.2.2
                show p.2 ≤ i - alo
                omega) (j - 1)
          omega
      have hnup : ¬ ((if j = 0 then 0 else njGet j2len (j - 1)) + 1 > best.2.2) := by
        have h2 : wchain a alo ahi j ≤ wmax a alo ahi (i - alo) :=
          wchain_le_wmax a alo ahi (i - alo) j (by omega) (by omega)
        omega
      have hstep : flmRow i alo ahi j2len ((j :: l1) ++ rest) acc best =
          flmRow i alo ahi j2len (l1 ++ rest)
            (njSet j ((if j = 0 then 0 else njGet j2len (j - 1)) + 1) acc) best := by
        rw [List.cons_append]
        simp only [flmRow]
        rw [if_neg h1, if_neg (by omega : ¬ ahi ≤ j), if_neg hnup]
      rw [hstep]
      refine ih rest (njSet j ((if j = 0 then 0 else njGet j2len (j - 1)) + 1) acc) best
        (fun x hx => hl x (List.mem_cons_of_mem _ hx)) ?_ hb
      intro p hp
      rcases mem_njSet _ _ _ _ hp with hh | hh
      · subst hh
        refine ⟨by omega, by omega, hkw, hki, by omega⟩
      · exact ha p hh

theorem flmRowSelf_high (a : List Char) (alo ahi : Nat)
    (i : Nat) (hia : alo ≤ i) (hi : i < ahi) (hlive : flmLive a i)
    (j2len : List (Nat × Nat))
    (hj1 : ∀ p ∈ j2len, alo ≤ p.1 ∧ p.1 < ahi ∧ p.2 ≤ wchain a alo ahi p.1 ∧
      p.2 ≤ wchain a alo ahi (i - 1) ∧ p.2 + alo ≤ i) :
    ∀ (l2 : List Nat) (acc : List (Nat × Nat)) (best : Nat × Nat × Nat),
      (∀ x ∈ l2, i < x ∧ flmLive a x) →
      (∀ p ∈ acc, alo ≤ p.1 ∧ p.1 < ahi ∧ p.2 ≤ wchain a alo ahi p.1 ∧
        p.2 ≤ wchain a alo ahi i ∧ p.2 + alo ≤ i + 1) →
      wchain a alo ahi i ≤ best.2.2 →
      (∀ p ∈ (flmRow i alo ahi j2len l2 acc best).1,
          alo ≤ p.1 ∧ p.1 < ahi ∧ p.2 ≤ wchain a alo ahi p.1 ∧
          p.2 ≤ wchain a alo ahi i ∧ p.2 + alo ≤ i + 1) ∧
        njGet (flmRow i alo ahi j2len l2 acc best).1 i = njGet acc i ∧
        (flmRow i alo ahi j2len l2 acc best).2 = best := by
  intro l2
  induction l2 with
  | nil => intro acc best _ ha _; exact ⟨ha, rfl, rfl⟩
  | cons j l2 ih =>
    intro acc best hl ha hb
    have hji : i < j := (hl j (List.mem_cons_self _ _)).1
    have hjlive : flmLive a j := (hl j (List.mem_cons_self _ _)).2
    by_cases h2 : ahi ≤ j
    · have hstep : flmRow i alo ahi j2len (j :: l2) acc best = (acc, best) := by
        simp only [flmRow]
        rw [if_neg (by omega : ¬ j < alo), if_pos h2]
      rw [hstep]
      exact ⟨ha, rfl, rfl⟩
    · have hkw : (if j = 0 then 0 else njGet j2len (j - 1)) + 1 ≤ wchain a alo ahi j := by
        rw [if_neg (by omega : ¬ j = 0)]
        have hnb : njGet j2len (j - 1) ≤ wchain a alo ahi (j - 1) :=
          njGet_bound j2len (fun x => wchain a alo ahi x)
            (fun p hp => (hj1 p hp).2.2.1) (j - 1)
        rw [wchain_pos_eq a alo ahi j ⟨by omega, by omega, hjlive⟩,
          if_neg (by omega : ¬ j = 0)]
        omega
      have hki : (if j = 0 then 0 else njGet j2len (j - 1)) + 1 ≤ wchain a alo ahi i := by
        rw [if_neg (by omega : ¬ j = 0)]
        rw [wchain_pos_eq a alo ahi i ⟨hia, hi, hlive⟩]
        by_cases hi0 : i = 0
        · have hnb : njGet j2len (j - 1) ≤ i - alo :=
            njGet_bound j2len (fun x => i - alo)
              (fun p hp => by
                have h5 := (hj1 p hp).2.2.2.2
                show p.2 ≤ i - alo
                omega) (j - 1)
          rw [if_pos hi0]
          omega
        · rw [if_neg hi0]
          have hnb : njGet j2len (j - 1) ≤ wchain a alo ahi (i - 1) :=
            njGet_bound j2len (fun x => wchain a alo ahi (i - 1))
              (fun p hp => (hj1 p hp).2.2.2.1) (j - 1)
          omega
      have hkr : (if j = 0 then 0 else njGet j2len (j - 1)) + 1 + alo ≤ i + 1 := by
        rw [if_neg (by omega : ¬ j = 0)]
        have hnb : njGet j2len (j - 1) ≤ i - alo :=
          njGet_bound j2len (fun x => i - alo)
            (fun p hp => by
              have h5 := (hj1 p hp).2.2.2.2
              show p.2 ≤ i - alo
              omega) (j - 1)
        omega
      have hnup : ¬ ((if j = 0 then 0 else njGet j2len (j - 1)) + 1 > best.2.2) := by
        omega
      have hstep : flmRow i alo ahi j2len (j :: l2) acc best =
          flmRow i alo ahi j2len l2
            (njSet j ((if j = 0 then 0 else njGet j2len (j - 1)) + 1) acc) best := by
        simp only [flmRow]
        rw [if_neg (by omega : ¬ j < alo), if_neg h2, if_neg hnup]
      rw [hstep]
      have haccp : ∀ p ∈ njSet j ((if j = 0 then 0 else njGet j2len (j - 1)) + 1) acc,
          alo ≤ p.1 ∧ p.1 < ahi ∧ p.2 ≤ wchain a alo ahi p.1 ∧
          p.2 ≤ wchain a alo ahi i ∧ p.2 + alo ≤ i + 1 := by
        intro p hp
        rcases mem_njSet _ _ _ _ hp with hh | hh
        · subst hh
          refine ⟨by omega, by omega, hkw, hki, hkr⟩
        · exact ha p hh
      have hout := ih (njSet j ((if j = 0 then 0 else njGet j2len (j - 1)) + 1) acc) best
        (fun x hx => hl x (List.mem_cons_of_mem _ hx)) haccp hb
      refine ⟨hout.1, ?_, hout.2.2⟩
      rw [hout.2.1, njGet_njSet, if_neg (by omega : ¬ i = j)]

theorem flmRowSelf (a : List Char) (alo ahi : Nat) (hahi : ahi ≤ a.length)
    (i : Nat) (hia : alo ≤ i) (hi : i < ahi)
    (j2len : List (Nat × Nat))
    (hj1 : ∀ p ∈ j2len, alo ≤ p.1 ∧ p.1 < ahi ∧ p.2 ≤ wchain a alo ahi p.1 ∧
      p.2 ≤ wchain a alo ahi (i - 1) ∧ p.2 + alo ≤ i)
    (hj2 : alo < i → njGet j2len (i - 1) = wchain a alo ahi (i - 1))
    (best : Nat × Nat × Nat)
    (hbd : best.1 = best.2.1)
    (hbv : alo ≤ best.1 ∧ best.1 + best.2.2 ≤ i)
    (hbm : best.2.2 = wmax a alo ahi (i - alo)) :
    (∀ p ∈ (flmRow i alo ahi j2len (b2jGet (b2jOf a) (a.getD i ' ')) [] best).1,
        alo ≤ p.1 ∧ p.1 < ahi ∧ p.2 ≤ wchain a alo ahi p.1 ∧
        p.2 ≤ wchain a alo ahi i ∧ p.2 + alo ≤ i + 1) ∧
      njGet (flmRow i alo ahi j2len (b2jGet (b2jOf a) (a.getD i ' ')) [] best).1 i =
        wchain a alo ahi i ∧
      (flmRow i alo ahi j2len (b2jGet (b2jOf a) (a.getD i ' ')) [] best).2.1 =
        (flmRow i alo ahi j2len (b2jGet (b2jOf a) (a.getD i ' ')) [] best).2.2.1 ∧
      (alo ≤ (flmRow i alo ahi j2len (b2jGet (b2jOf a) (a.getD i ' ')) [] best).2.1 ∧
        (flmRow i alo ahi j2len (b2jGet (b2jOf a) (a.getD i ' ')) [] best).2.1 +
          (flmRow i alo ahi j2len (b2jGet (b2jOf a) (a.getD i ' ')) [] best).2.2.2 ≤ i + 1) ∧
      (flmRow i alo ahi j2len (b2jGet (b2jOf a) (a.getD i ' ')) [] best).2.2.2 =
        wmax a alo ahi (i + 1 - alo) := by
  have hwm : wmax a alo ahi (i + 1 - alo) =
      max (wmax a alo ahi (i - alo)) (wchain a alo ahi i) := by
    have h1 : i + 1 - alo = (i - alo) + 1 := by omega
    rw [h1]
    show max (wmax a alo ahi (i - alo)) (wchain a alo ahi (alo + (i - alo))) = _
    rw [show alo + (i - alo) = i from by omega]
  have hwin : wchain a alo ahi i ≤ i + 1 - alo := wchain_le_window a alo ahi i
  by_cases hlive : flmLive a i
  · have hmem : i ∈ b2jGet (b2jOf a) (a.getD i ' ') := hlive
    obtain ⟨l1, l2, hsplit, hl1, hl2⟩ := sorted_split _ i (pairwise_b2jGet_b2jOf a _) hmem
    have hlall : ∀ x ∈ b2jGet (b2jOf a) (a.getD i ' '), flmLive a x :=
      fun x hx => flmLive_of_mem a _ x hx
    rw [hsplit]
    obtain ⟨acc2, hacc2, heq⟩ := flmRowSelf_low a alo ahi i hia hi hlive j2len hj1
      l1 (i :: l2) [] best
      (fun x hx => ⟨hl1 x hx, hlall x (hsplit.symm ▸ List.mem_append.mpr (Or.inl hx))⟩)
      (fun p hp => absurd hp (List.not_mem_nil p))
      (le_of_eq hbm.symm)
    rw [heq]
    have hki : (if i = 0 then 0 else njGet j2len (i - 1)) + 1 = wchain a alo ahi i := by
      rw [wchain_pos_eq a alo ahi i ⟨hia, hi, hlive⟩]
      by_cases hi0 : i = 0
      · rw [if_pos hi0, if_pos hi0]
      · rw [if_neg hi0, if_neg hi0]
        by_cases hai : alo < i
        · rw [hj2 hai]
        · have hzero : njGet j2len (i - 1) = 0 :=
            njGet_eq_zero_of_lt j2len (i - 1) alo (fun p hp => (hj1 p hp).1) (by omega)
          have hz2 : wchain a alo ahi (i - 1) = 0 :=
            wchain_neg_eq a alo ahi (i - 1) (fun hh => absurd hh.1 (by omega))
          rw [hzero, hz2]
    have hstep : flmRow i alo ahi j2len (i :: l2) acc2 best =
        flmRow i alo ahi j2len l2
          (njSet i ((if i = 0 then 0 else njGet j2len (i - 1)) + 1) acc2)
          (if (if i = 0 then 0 else njGet j2len (i - 1)) + 1 > best.2.2
            then (i + 1 - ((if i = 0 then 0 else njGet j2len (i - 1)) + 1),
                  i + 1 - ((if i = 0 then 0 else njGet j2len (i - 1)) + 1),
                  (if i = 0 then 0 else njGet j2len (i - 1)) + 1)
            else best) := by
      simp only [flmRow]
      rw [if_neg (by omega : ¬ i < alo), if_neg (by omega : ¬ ahi ≤ i)]
    rw [hki] at hstep
    rw [hstep]
    have hl2live : ∀ x ∈ l2, i < x ∧ flmLive a x :=
      fun x hx => ⟨hl2 x hx,
        hlall x (hsplit.symm ▸ List.mem_append.mpr
          (Or.inr (List.mem_cons_of_mem i hx)))⟩
    have hacc3 : ∀ p ∈ njSet i (wchain a alo ahi i) acc2,
        alo ≤ p.1 ∧ p.1 < ahi ∧ p.2 ≤ wchain a alo ahi p.1 ∧
        p.2 ≤ wchain a alo ahi i ∧ p.2 + alo ≤ i + 1 := by
      intro p hp
      rcases mem_njSet _ _ _ _ hp with hh | hh
      · subst hh
        exact ⟨hia, hi, le_rfl, le_rfl, by omega⟩
      · exact hacc2 p hh
    have hget3 : njGet (njSet i (wchain a alo ahi i) acc2) i = wchain a alo ahi i := by
      rw [njGet_njSet, if_pos rfl]
    by_cases hup : wchain a alo ahi i > best.2.2
    · rw [if_pos hup] at hstep ⊢
      have hout := flmRowSelf_high a alo ahi i hia hi hlive j2len hj1 l2
        (njSet i (wchain a alo ahi i) acc2)
        (i + 1 - wchain a alo ahi i, i + 1 - wchain a alo ahi i, wchain a alo ahi i)
        hl2live hacc3 (by dsimp only; exact le_rfl)
      refine ⟨hout.1, ?_, ?_, ?_, ?_⟩
      · rw [hout.2.1, hget3]
      · rw [hout.2.2]
      · rw [hout.2.2]
        dsimp only
        omega
      · rw [hout.2.2]
        dsimp only
        rw [hwm, Nat.max_eq_right (by omega)]
    · rw [if_neg hup] at hstep ⊢
      have hout := flmRowSelf_high a alo ahi i hia hi hlive j2len hj1 l2
        (njSet i (wchain a alo ahi i) acc2) best hl2live hacc3 (by omega)
      refine ⟨hout.1, ?_, ?_, ?_, ?_⟩
      · rw [hout.2.1, hget3]
      · rw [hout.2.2]
        exact hbd
      · rw [hout.2.2]
        exact ⟨hbv.1, by omega⟩
      · rw [hout.2.2]
        rw [hwm, Nat.max_eq_left (by omega)]
        exact hbm
  · have hjs : b2jGet (b2jOf a) (a.getD i ' ') = [] :=
      bucket_nil_of_not_live a i (by omega) hlive
    rw [hjs]
    simp only [flmRow]
    have hw0 : wchain a alo ahi i = 0 := wchain_neg_eq a alo ahi i (fun hh => hlive hh.2.2)
    refine ⟨fun p hp => absurd hp (List.not_mem_nil p), ?_, hbd, ⟨hbv.1, by omega⟩, ?_⟩
    · rw [hw0]
      rfl
    · rw [hwm, hw0, ← hbm]
      omega

theorem flmDPSelf (a : List Char) (alo ahi : Nat) (h1 : alo ≤ ahi) (hahi : ahi ≤ a.length) :
    (flmDP a (b2jOf a) alo ahi alo ahi).1 = (flmDP a (b2jOf a) alo ahi alo ahi).2.1 ∧
    alo ≤ (flmDP a (b2jOf a) alo ahi alo ahi).1 ∧
    (flmDP a (b2jOf a) alo ahi alo ahi).1 + (flmDP a (b2jOf a) alo ahi alo ahi).2.2 ≤ ahi := by
  unfold flmDP
  have hfold := foldlRange_inv
    (fun i st =>
      (∀ p ∈ st.1, alo ≤ p.1 ∧ p.1 < ahi ∧ p.2 ≤ wchain a alo ahi p.1 ∧
        p.2 ≤ wchain a alo ahi (i - 1) ∧ p.2 + alo ≤ i) ∧
      (alo < i → njGet st.1 (i - 1) = wchain a alo ahi (i - 1)) ∧
      st.2.1 = st.2.2.1 ∧ (alo ≤ st.2.1 ∧ st.2.1 + st.2.2.2 ≤ i) ∧
      st.2.2.2 = wmax a alo ahi (i - alo))
    (fun st i => flmRow i alo ahi st.1 (b2jGet (b2jOf a) (a.getD i ' ')) [] st.2)
    (ahi - alo) alo ([], (alo, alo, 0))
    ⟨fun p hp => absurd hp (List.not_mem_nil p), fun h => absurd h (lt_irrefl alo),
      rfl, ⟨le_rfl, by dsimp only; omega⟩, by rw [Nat.sub_self]; rfl⟩
    (fun i st hi1 hi2 hst => by
      have hrow := flmRowSelf a alo ahi hahi i hi1 (by omega) st.1 hst.1 hst.2.1 st.2
        hst.2.2.1 hst.2.2.2.1 hst.2.2.2.2
      exact ⟨hrow.1, fun _ => hrow.2.1, hrow.2.2.1, hrow.2.2.2.1, hrow.2.2.2.2⟩)
  have heq : alo + (ahi - alo) = ahi := by omega
  rw [heq] at hfold
  exact ⟨hfold.2.2.1, hfold.2.2.2.1.1, hfold.2.2.2.1.2⟩

theorem extLow_self (a : List Char) (alo : Nat) :
    ∀ (fuel bi bs : Nat), alo ≤ bi → bi - alo ≤ fuel →
      extLow a a alo alo fuel (bi, bi, bs) = (alo, alo, bs + (bi - alo)) := by
  intro fuel
  induction fuel with
  | zero =>
    intro bi bs h1 h2
    have hbi : bi = alo := by omega
    subst hbi
    simp [extLow]
  | succ fuel ih =>
    intro bi bs h1 h2
    simp only [extLow]
    by_cases h : alo < bi
    · rw [if_pos ⟨h, h, trivial⟩]
      rw [ih (bi - 1) (bs + 1) (by omega) (by omega)]
      have h3 : bs + 1 + (bi - 1 - alo) = bs + (bi - alo) := by omega
      rw [h3]
    · have hbi : bi = alo := by omega
      subst hbi
      rw [if_neg (fun hh => h hh.1)]
      simp

theorem extHigh_self (a : List Char) (ahi : Nat) :
    ∀ (fuel alo bs : Nat), alo + bs ≤ ahi → ahi - alo - bs ≤ fuel →
      extHigh a a ahi ahi fuel (alo, alo, bs) = (alo, alo, ahi - alo) := by
  intro fuel
  induction fuel with
  | zero =>
    intro alo bs h1 h2
    have hbs : bs = ahi - alo := by omega
    subst hbs
    simp [extHigh]
  | succ fuel ih =>
    intro alo bs h1 h2
    simp only [extHigh]
    by_cases h : alo + bs < ahi
    · rw [if_pos ⟨h, h, trivial⟩]
      exact ih alo (bs + 1) (by omega) (by omega)
    · rw [if_neg (fun hh => h hh.1)]
      have hbs : bs = ahi - alo := by omega
      rw [hbs]

theorem flm_self (a : List Char) (alo ahi : Nat) (h1 : alo ≤ ahi) (hahi : ahi ≤ a.length) :
    findLongestMatch a a (b2jOf a) alo ahi alo ahi = (alo, alo, ahi - alo) := by
  obtain ⟨hd, hb1, hb2⟩ := flmDPSelf a alo ahi h1 hahi
  unfold findLongestMatch
  rcases hdp : flmDP a (b2jOf a) alo ahi alo ahi with ⟨bi, bj, bs⟩
  rw [hdp] at hd hb1 hb2
  dsimp only at hd hb1 hb2
  subst hd
  dsimp only
  rw [extLow_self a alo (a.length + a.length) bi bs hb1 (by omega)]
  rw [extHigh_self a ahi (a.length + a.length) alo (bs + (bi - alo)) (by omega) (by omega)]

theorem msum_zero_window (a b : List Char) (b2j : List (Char × List Nat))
    (fuel alo ahi blo bhi : Nat) (h : ¬ (alo < ahi ∧ blo < bhi)) :
    msum a b b2j fuel alo ahi blo bhi = 0 := by
  cases fuel with
  | zero => rfl
  | succ fuel =>
    simp only [msum]
    rw [if_neg h]

theorem msum_self (a : List Char) (alo ahi : Nat) (h1 : alo ≤ ahi) (hahi : ahi ≤ a.length)
    (fuel : Nat) : msum a a (b2jOf a) (fuel + 1) alo ahi alo ahi = ahi - alo := by
  simp only [msum]
  by_cases hc : alo < ahi ∧ alo < ahi
  · rw [if_pos hc, flm_self a alo ahi h1 hahi]
    dsimp only
    rw [if_neg (by omega : ¬ ahi - alo = 0)]
    rw [msum_zero_window a a (b2jOf a) fuel alo alo alo alo (by omega)]
    rw [msum_zero_window a a (b2jOf a) fuel (alo + (ahi - alo)) ahi (alo + (ahi - alo)) ahi
      (by omega)]
    omega
  · rw [if_neg hc]
    omega

theorem ratioOf_self (l : List Char) (h : l ≠ []) : ratioOf l l = 1 := by
  unfold ratioOf
  rw [msum_self l 0 l.length (Nat.zero_le _) le_rfl]
  have hl : 0 < l.length := List.length_pos.mpr h
  rw [Rat.mkRat_eq_div]
  rw [div_eq_one_iff_eq (by
    have h2 : (0 : ℚ) < ((l.length + l.length : Nat) : ℚ) := by
      exact_mod_cast Nat.lt_of_lt_of_le hl (by omega)
    exact ne_of_gt h2)]
  push_cast [Nat.sub_zero]
  ring

theorem calculate_title_similarity_self (t : String) (hn : normalize_title t ≠ "") :
    calculate_title_similarity t t = 1 := by
  have ht : ¬ (t = "" ∨ t = "") := by
    intro hor
    rcases hor with he | he <;> · subst he; exact hn rfl
  unfold calculate_title_similarity
  rw [if_neg ht]
  dsimp only
  rw [if_neg (by intro hor; rcases hor with he | he <;> exact hn he)]
  apply ratioOf_self
  intro hd
  apply hn
  have h3 : normalize_title t = String.mk (normalize_title t).data := rfl
  rw [h3, hd]

theorem calculate_title_similarity_bounds (t1 t2 : String) :
    0 ≤ calculate_title_similarity t1 t2 ∧ calculate_title_similarity t1 t2 ≤ 1 := by
  unfold calculate_title_similarity
  by_cases h1 : t1 = "" ∨ t2 = ""
  · rw [if_pos h1]
    norm_num
  · rw [if_neg h1]
    dsimp only
    by_cases h2 : normalize_title t1 = "" ∨ normalize_title t2 = ""
    · rw [if_pos h2]
      norm_num
    · rw [if_neg h2]
      exact ⟨ratioOf_nonneg _ _, ratioOf_le_one _ _⟩

/-- C3: for every input, dry-run `remove_duplicates` and dry-run
`execute_deletion_plan` issue zero delete calls to the document store,
regardless of the number of duplicate groups or DELETE candidates; the
dry-run executor previews at most the first 10 candidates and writes no
updated plan file (and no report file). -/
theorem claim_C3 :
    (∀ (nowMicro : Int) (docs : List LiveDoc) (auto : Bool) (ci : String)
        (out : Nat → DelOutcome),
        (remove_duplicates nowMicro docs true auto ci out).deleteCalls = []) ∧
    (∀ (p ts : String) (rows : List PlanCsvRow) (trace : List DelOutcome)
        (r : ExecResult),
        execute_deletion_plan p ts rows true trace = some r →
        r.deleteCalls = [] ∧ r.updatedPlan = none ∧ r.reportWritten = false ∧
          r.previewShown = min 10 r.totalCandidates) := by
  constructor
  · intro nowMicro docs auto ci out
    unfold remove_duplicates
    cases h : analyze_duplicates nowMicro docs with
    | none => rfl
    | some a =>
      by_cases hg : a.duplicate_groups = 0 <;> simp [hg]
  · intro p ts rows trace r h
    unfold execute_deletion_plan at h
    by_cases hids :
        ((rows.filter (fun r => pyUpper r.action = deleteStr)).map
          (fun r => r.document_id)) = [] <;>
      simp only [hids, if_pos, if_neg, if_true, if_false] at h <;>
      simp only [Option.some.injEq] at h <;> subst h <;> simp

set_option maxRecDepth 8000 in
/-- C3 witness: the dry-run executor on the three-row witness plan (one
KEEP row, two DELETE rows) returns `c3WitRes`, which issues no delete
calls, writes no plan and no report, and previews both candidates. -/
theorem claim_C3_witness :
    execute_deletion_plan c4Path c4Ts [ c4Keep, c4Del1, c4Del2 ] true [] =
      some c3WitRes ∧
    c3WitRes.deleteCalls = [] ∧ c3WitRes.updatedPlan = none ∧
    c3WitRes.reportWritten = false ∧
    c3WitRes.previewShown = min 10 c3WitRes.totalCandidates :=
  ⟨by decide,
    claim_C3.2 c4Path c4Ts [ c4Keep, c4Del1, c4Del2 ] [] c3WitRes (by decide)⟩

set_option maxRecDepth 8000 in
/-- C7 helper: the quality score of `c7Doc` is exactly 100. -/
theorem c7Doc_score : calculate_metadata_quality_score c7Now c7Doc = 100 := by decide

set_option maxRecDepth 8000 in
/-- C7: a document with a 15-character title, author "Jane", a
120-character summary, 3 tags, a non-shortener URL, and `updated_at` five
days in the past (carrying a creation date, as the spec's score sum
presupposes) scores exactly 100; `select_best_document` picks it over an
all-empty document scoring 0, and equal scores are broken by original
input order. -/
theorem claim_C7 :
    calculate_metadata_quality_score c7Now c7Doc = 100 ∧
    calculate_metadata_quality_score c7Now c7Empty = 0 ∧
    select_best_document c7Now [ c7Doc, c7Empty ] = (some c7Doc, [ c7Empty ]) ∧
    calculate_metadata_quality_score c7Now c7TieA =
      calculate_metadata_quality_score c7Now c7TieB ∧
    (select_best_document c7Now [ c7TieA, c7TieB ]).1 = some c7TieA ∧
    (select_best_document c7Now [ c7TieB, c7TieA ]).1 = some c7TieB := by
  refine ⟨c7Doc_score, by decide, ?_, by decide, by decide, by decide⟩
  show select_best_document c7Now [ c7Doc, c7Empty ] = (some c7Doc, [ c7Empty ])
  decide

/-- C1 counterexample: a CSV whose group "1" holds two rows sharing the
same document id.  The produced plan's only group has 2 members but 0
DELETE entries (both rows share the keeper's id, so the comprehension
excludes both), refuting "exactly one document of the group is KEEP and
every other member of the group is a DELETE entry". -/
theorem claim_C1_counterexample :
    (analyze_deletion_plan [ c1DupA, c1DupB ] false).map
        (fun p => p.groups.map (fun g => (g.total_documents, g.deletion_count))) =
      some [ (2, 0) ] := by decide

/-- C2 counterexample: a delete attempt rate-limited with a present and
parseable `Retry-After: 0` header sleeps the 60-second default, not the
server-supplied 0 seconds (`if retry_after:` is false for the integer 0),
refuting "sleeping the server-supplied Retry-After seconds when that
header is present and parseable". -/
theorem claim_C2_counterexample :
    _extract_retry_after (some c2Zero) = some 0 ∧
    processCandidate c2Id [ DelOutcome.exc c2Msg429 (some c2Zero), DelOutcome.ok true ] {} =
      some ({ succ := 1, succIds := [ c2Id ], calls := [ c2Id, c2Id ],
              retrySleeps := [ 60 ] }, []) := by decide

/-- C4 counterexample: a non-dry run that successfully deletes its only
DELETE candidate has processed ≥ 1 candidate, yet no new plan file is
written (`_update_deletion_plan` returns `None` when no DELETE row
remains), refuting "a new plan file is written" for every such run. -/
theorem claim_C4_counterexample :
    (execute_deletion_plan c4Path c4Ts [ c4Keep, c4Del1 ] false [ DelOutcome.ok true ]).map
        (fun r => (r.successfulDeletions, r.updatedPlan)) = some (1, none) := by decide

/-- C5 counterexample: `normalize_url` is not idempotent.  For the
scheme-less input "a" the rebuild prepends "://", so a second application
prepends it again: `normalize_url "a" = "://a"` but
`normalize_url "://a" = "://://a"`. -/
theorem claim_C5_counterexample :
    normalize_url c5In = c5Mid ∧
    normalize_url (normalize_url c5In) ≠ normalize_url c5In := by decide

/-- C6 counterexample: `calculate_title_similarity` is not symmetric:
for the titles "aba" and "babba" the two orders give 3/4 and 1/2 (the
greedy longest-match recursion of `SequenceMatcher.ratio` is
direction-dependent). -/
theorem claim_C6_counterexample :
    calculate_title_similarity c6A c6B ≠ calculate_title_similarity c6B c6A ∧
    calculate_title_similarity c6A c6B = mkRat 3 4 ∧
    calculate_title_similarity c6B c6A = mkRat 1 2 := by decide

/-- C6 (amended): `calculate_title_similarity` returns 0 whenever either
input is the empty string or either normalized form is empty, its result
always lies in `[0, 1]`, and every title whose normalized form is
non-empty has self-similarity exactly 1. The symmetry asserted by the
original claim is false (see the counterexample) and is dropped here. -/
theorem claim_C6 :
    (∀ t, calculate_title_similarity emptyStr t = 0 ∧
      calculate_title_similarity t emptyStr = 0) ∧
    (∀ t1 t2, normalize_title t1 = "" ∨ normalize_title t2 = "" →
      calculate_title_similarity t1 t2 = 0) ∧
    (∀ t1 t2, 0 ≤ calculate_title_similarity t1 t2 ∧
      calculate_title_similarity t1 t2 ≤ 1) ∧
    (∀ t, normalize_title t ≠ "" → calculate_title_similarity t t = 1) := by
  refine ⟨?_, ?_, fun t1 t2 => calculate_title_similarity_bounds t1 t2,
    fun t hn => calculate_title_similarity_self t hn⟩
  · intro t
    constructor
    · unfold calculate_title_similarity
      rw [if_pos (Or.inl (show emptyStr = "" from rfl))]
    · unfold calculate_title_similarity
      rw [if_pos (Or.inr (show emptyStr = "" from rfl))]
  · intro t1 t2 h
    unfold calculate_title_similarity
    by_cases h1 : t1 = "" ∨ t2 = ""
    · rw [if_pos h1]
    · rw [if_neg h1]
      dsimp only
      rw [if_pos h]

/-- C6 witness: the amended claim at concrete titles — an empty input
gives 0, the all-punctuation title "!!" normalizes to empty and gives 0
against "aba", the pair "aba"/"babba" lies in `[0, 1]`, and "aba" has
self-similarity 1. -/
theorem claim_C6_witness :
    (calculate_title_similarity emptyStr c6A = 0 ∧
      calculate_title_similarity c6A emptyStr = 0) ∧
    ((normalize_title c6Punct = "" ∨ normalize_title c6A = "") ∧
      calculate_title_similarity c6Punct c6A = 0) ∧
    (0 ≤ calculate_title_similarity c6A c6B ∧
      calculate_title_similarity c6A c6B ≤ 1) ∧
    (normalize_title c6A ≠ "" ∧ calculate_title_similarity c6A c6A = 1) := by
  have h2 : normalize_title c6Punct = "" ∨ normalize_title c6A = "" := by
    left
    decide
  have h4 : normalize_title c6A ≠ "" := by decide
  exact ⟨claim_C6.1 c6A, ⟨h2, claim_C6.2.1 c6Punct c6A h2⟩, claim_C6.2.2.1 c6A c6B,
    h4, claim_C6.2.2.2 c6A h4⟩

/-- C8 counterexample: two rows with the scenario's URLs but empty titles.
The advanced normalizer does map both URLs to the same key, yet
`find_csv_duplicates_advanced` does NOT group them (both of its rules
require title similarity > 0.5, which is 0 here), refuting "advanced CSV
analysis groups them as one duplicate pair". -/
theorem claim_C8_counterexample :
    normalize_url_advanced c8Url1 = normalize_url_advanced c8Url2 ∧
    (find_csv_duplicates_advanced [ c8RowA0, c8RowB0 ]).duplicate_groups = 0 := by decide

/-- C2 (amended): the executor's per-candidate behaviour.  A truthy store
result is a success and a falsy one an immediate failure; an exception
whose message does not contain "429" is an immediate failure — in all
three cases exactly one call is made, nothing is retried, and execution
continues with the next candidate on the remaining trace.  An exception
containing "429" is retried indefinitely (n consecutive 429 outcomes give
n retries and no result ever arises from 429s alone), sleeping the parsed
`Retry-After` value when it parses to a nonzero integer and 60 seconds
when the header is absent, unparseable, or zero (the counterexample shows
the zero case, which the original claim got wrong). -/
theorem claim_C2 :
    (∀ (ra : Option String) (v : Int), _extract_retry_after ra = some v → v ≠ 0 →
      sleepFor ra = v) ∧
    (∀ ra : Option String,
      _extract_retry_after ra = some 0 ∨ _extract_retry_after ra = none →
      sleepFor ra = 60) ∧
    (∀ (id : String) (trace : List DelOutcome) (acc : ExecAcc),
      processCandidate id (DelOutcome.ok true :: trace) acc =
        some (recordSuccess acc id, trace)) ∧
    (∀ (id : String) (trace : List DelOutcome) (acc : ExecAcc),
      processCandidate id (DelOutcome.ok false :: trace) acc =
        some (recordFailure acc id apiFailMsg, trace)) ∧
    (∀ (id : String) (trace : List DelOutcome) (acc : ExecAcc) (msg : String)
        (ra : Option String), pyIn str429 msg = false →
      processCandidate id (DelOutcome.exc msg ra :: trace) acc =
        some (recordFailure acc id msg, trace)) ∧
    (∀ (id : String) (acc : ExecAcc) (msg : String) (ra : Option String)
        (trace : List DelOutcome) (n : Nat), pyIn str429 msg = true →
      processCandidate id (List.replicate n (DelOutcome.exc msg ra) ++ trace) acc =
        processCandidate id trace (recordRetryN acc id ra n)) ∧
    (∀ (id : String) (acc : ExecAcc) (msg : String) (ra : Option String) (n : Nat),
      pyIn str429 msg = true →
      processCandidate id (List.replicate n (DelOutcome.exc msg ra)) acc = none) ∧
    (∀ (d : String) (rest : List String) (trace : List DelOutcome) (acc : ExecAcc)
        (out : ExecAcc × List DelOutcome),
      processCandidate d trace acc = some out →
      execCandidates (d :: rest) trace acc = execCandidates rest out.2 out.1) := by
  have hrep : ∀ (id : String) (acc : ExecAcc) (msg : String) (ra : Option String)
      (trace : List DelOutcome) (n : Nat), pyIn str429 msg = true →
      processCandidate id (List.replicate n (DelOutcome.exc msg ra) ++ trace) acc =
        processCandidate id trace (recordRetryN acc id ra n) := by
    intro id acc msg ra trace n h
    induction n generalizing acc with
    | zero =>
      simp only [List.replicate, List.nil_append]
      congr 1
      unfold recordRetryN
      simp
    | succ m ih =>
      rw [List.replicate_succ, List.cons_append]
      simp only [processCandidate]
      rw [if_pos h]
      rw [ih]
      congr 1
      unfold recordRetry recordRetryN
      simp [List.replicate_succ]
  refine ⟨?_, ?_, ?_, ?_, ?_, hrep, ?_, ?_⟩
  · intro ra v h hv
    unfold sleepFor
    rw [h]
    simp [hv]
  · intro ra h
    unfold sleepFor
    rcases h with h | h <;> simp [h]
  · intro id trace acc
    rfl
  · intro id trace acc
    rfl
  · intro id trace acc msg ra h
    simp only [processCandidate]
    rw [if_neg (by simp [h])]
  · intro id acc msg ra n h
    rw [← List.append_nil (List.replicate n (DelOutcome.exc msg ra)), hrep id acc msg ra [] n h]
    rfl
  · intro d rest trace acc out h
    obtain ⟨acc2, trace2⟩ := out
    simp only [execCandidates, h]

/-- C2 witness: the amended behaviours evaluated on concrete inputs — a
positive `Retry-After` of 7 is honoured, two consecutive 429s are both
retried, a 500-style exception fails immediately with its error recorded,
and execution then proceeds to the next candidate. -/
theorem claim_C2_witness :
    sleepFor (some "7") = 7 ∧
    sleepFor none = 60 ∧
    processCandidate c2Id
        (List.replicate 2 (DelOutcome.exc c2Msg429 none) ++ [ DelOutcome.ok true ]) {} =
      processCandidate c2Id [ DelOutcome.ok true ] (recordRetryN {} c2Id none 2) ∧
    processCandidate c2Id [ DelOutcome.exc c2MsgBoom none ] {} =
      some (recordFailure {} c2Id c2MsgBoom, []) ∧
    execCandidates [ c2Id, c2Id ] [ DelOutcome.exc c2MsgBoom none, DelOutcome.ok true ] {} =
      execCandidates [ c2Id ] [ DelOutcome.ok true ] (recordFailure {} c2Id c2MsgBoom) := by
  refine ⟨claim_C2.1 (some "7") 7 (by decide) (by decide),
    claim_C2.2.1 none (Or.inr rfl),
    claim_C2.2.2.2.2.2.1 c2Id {} c2Msg429 none [ DelOutcome.ok true ] 2 (by decide),
    claim_C2.2.2.2.2.1 c2Id [] {} c2MsgBoom none (by decide),
    claim_C2.2.2.2.2.2.2.2 c2Id [ c2Id ]
      [ DelOutcome.exc c2MsgBoom none, DelOutcome.ok true ] {}
      (recordFailure {} c2Id c2MsgBoom, [ DelOutcome.ok true ]) (by decide)⟩

/-! List scanning helpers (shared by C4 and C5). -/

theorem takeWhile_all {α : Type} (p : α → Bool) :
    ∀ l : List α, (∀ x ∈ l, p x = true) → l.takeWhile p = l := by
  intro l
  induction l with
  | nil => intro _; rfl
  | cons a t ih =>
    intro h
    rw [List.takeWhile_cons, if_pos (h a (List.mem_cons_self a t))]
    rw [ih (fun x hx => h x (List.mem_cons_of_mem a hx))]

theorem dropWhile_all {α : Type} (p : α → Bool) :
    ∀ l : List α, (∀ x ∈ l, p x = true) → l.dropWhile p = [] := by
  intro l
  induction l with
  | nil => intro _; rfl
  | cons a t ih =>
    intro h
    rw [List.dropWhile_cons_of_pos (h a (List.mem_cons_self a t))]
    exact ih (fun x hx => h x (List.mem_cons_of_mem a hx))

theorem takeWhile_append_all {α : Type} (p : α → Bool) (l1 l2 : List α)
    (h : ∀ x ∈ l1, p x = true) :
    (l1 ++ l2).takeWhile p = l1 ++ l2.takeWhile p := by
  induction l1 with
  | nil => rfl
  | cons a t ih =>
    rw [List.cons_append, List.takeWhile_cons, if_pos (h a (List.mem_cons_self a t)),
      ih (fun x hx => h x (List.mem_cons_of_mem a hx)), List.cons_append]

theorem dropWhile_append_all {α : Type} (p : α → Bool) (l1 l2 : List α)
    (h : ∀ x ∈ l1, p x = true) :
    (l1 ++ l2).dropWhile p = l2.dropWhile p := by
  induction l1 with
  | nil => rfl
  | cons a t ih =>
    rw [List.cons_append, List.dropWhile_cons_of_pos (h a (List.mem_cons_self a t))]
    exact ih (fun x hx => h x (List.mem_cons_of_mem a hx))

theorem dropWhile_head_false {α : Type} (p : α → Bool) :
    ∀ (l : List α) (c : α) (t : List α), l.dropWhile p = c :: t → p c = false := by
  intro l
  induction l with
  | nil => intro c t h; cases h
  | cons a t ih =>
    intro c u h
    by_cases hp : p a = true
    · rw [List.dropWhile_cons_of_pos hp] at h
      exact ih c u h
    · rw [List.dropWhile_cons_of_neg hp] at h
      cases h
      exact Bool.eq_false_iff.mpr hp

/-! ### URL-pipeline lemmas (for C5's amended claim) -/

theorem urlSafe_toNat (c : Char) (h : urlSafeChar c = true) :
    (97 ≤ c.toNat ∧ c.toNat ≤ 122) ∨ (48 ≤ c.toNat ∧ c.toNat ≤ 57) ∨ c.toNat = 58 ∨
    c.toNat = 47 ∨ c.toNat = 63 ∨ c.toNat = 61 ∨ c.toNat = 38 ∨ c.toNat = 46 ∨
    c.toNat = 45 ∨ c.toNat = 95 ∨ c.toNat = 126 := by
  simp only [urlSafeChar, Bool.or_eq_true, Bool.and_eq_true, decide_eq_true_eq,
    ge_iff_le] at h
  tauto

theorem toNat_ne_of_ne (c d : Char) (h : c.toNat ≠ d.toNat) : c ≠ d :=
  fun he => h (he ▸ rfl)

theorem val_toNat_eq (c : Char) (n : Nat) (h : c.val = UInt32.ofNat n) (hn : n < 4294967296) :
    c.toNat = n := by
  show c.val.toNat = n
  rw [h]
  exact Nat.mod_eq_of_lt hn

theorem urlSafe_ne (c : Char) (h : urlSafeChar c = true) :
    c ≠ '%' ∧ c ≠ '+' ∧ c ≠ '#' ∧ c ≠ ';' ∧ c ≠ '[' ∧ c ≠ ']' ∧
    ¬ (c = '\t' ∨ c = '\r' ∨ c = '\n') ∧ pyIsSpace c = false ∧ pyLowerChar c = c := by
  have hv := urlSafe_toNat c h
  have h37 : c.toNat ≠ 37 := by omega
  have h43 : c.toNat ≠ 43 := by omega
  have h35 : c.toNat ≠ 35 := by omega
  have h59 : c.toNat ≠ 59 := by omega
  have h91 : c.toNat ≠ 91 := by omega
  have h93 : c.toNat ≠ 93 := by omega
  have h9 : c.toNat ≠ 9 := by omega
  have h13 : c.toNat ≠ 13 := by omega
  have h10 : c.toNat ≠ 10 := by omega
  have h32 : c.toNat ≠ 32 := by omega
  have h11 : c.toNat ≠ 11 := by omega
  have h12 : c.toNat ≠ 12 := by omega
  refine ⟨toNat_ne_of_ne _ _ (by simpa using h37), toNat_ne_of_ne _ _ (by simpa using h43),
    toNat_ne_of_ne _ _ (by simpa using h35), toNat_ne_of_ne _ _ (by simpa using h59),
    toNat_ne_of_ne _ _ (by simpa using h91), toNat_ne_of_ne _ _ (by simpa using h93),
    ?_, ?_, ?_⟩
  · rintro (he | he | he) <;> · subst he; simp at *
  · unfold pyIsSpace
    have hc1 : ¬ c = ' ' := toNat_ne_of_ne _ _ (by simpa using h32)
    have hc2 : ¬ c = '\t' := toNat_ne_of_ne _ _ (by simpa using h9)
    have hc3 : ¬ c = '\n' := toNat_ne_of_ne _ _ (by simpa using h10)
    have hc4 : ¬ c = '\r' := toNat_ne_of_ne _ _ (by simpa using h13)
    have hc5 : ¬ c.val = 11 := by
      intro hval
      exact h11 (val_toNat_eq c 11 (by exact_mod_cast hval) (by norm_num))
    have hc6 : ¬ c.val = 12 := by
      intro hval
      exact h12 (val_toNat_eq c 12 (by exact_mod_cast hval) (by norm_num))
    simp [hc1, hc2, hc3, hc4, hc5, hc6]
  · unfold pyLowerChar
    rw [if_neg]
    intro hb
    simp only [Bool.and_eq_true, decide_eq_true_eq] at hb
    have hb1 : 65 ≤ c.toNat := hb.1
    have hb2 : c.toNat ≤ 90 := hb.2
    omega

theorem dropWhile_eq_self_of_none {α : Type} (p : α → Bool) :
    ∀ l : List α, (∀ c ∈ l, p c = false) → l.dropWhile p = l := by
  intro l
  cases l with
  | nil => intro _; rfl
  | cons a t =>
    intro h
    rw [List.dropWhile_cons_of_neg]
    rw [h a (List.mem_cons_self a t)]
    simp

theorem map_self {α : Type} (f : α → α) :
    ∀ l : List α, (∀ c ∈ l, f c = c) → l.map f = l := by
  intro l
  induction l with
  | nil => intro _; rfl
  | cons a t ih =>
    intro h
    rw [List.map_cons, h a (List.mem_cons_self a t),
      ih (fun c hc => h c (List.mem_cons_of_mem a hc))]

theorem pyStripList_id (l : List Char) (h : ∀ c ∈ l, pyIsSpace c = false) :
    pyStripList l = l := by
  unfold pyStripList
  rw [dropWhile_eq_self_of_none _ l h]
  rw [dropWhile_eq_self_of_none _ l.reverse (fun c hc => h c (List.mem_reverse.mp hc))]
  exact List.reverse_reverse l

theorem takeWhile_append_stop {α : Type} (p : α → Bool) :
    ∀ (X Y : List α), X.dropWhile p ≠ [] → (X ++ Y).takeWhile p = X.takeWhile p := by
  intro X
  induction X with
  | nil => intro Y h; exact absurd rfl h
  | cons a t ih =>
    intro Y h
    by_cases ha : p a = true
    · rw [List.dropWhile_cons_of_pos ha] at h
      rw [List.cons_append, List.takeWhile_cons_of_pos ha, List.takeWhile_cons_of_pos ha,
        ih Y h]
    · have ha2 : p a = false := Bool.eq_false_iff.mpr ha
      rw [List.cons_append, List.takeWhile_cons_of_neg ha, List.takeWhile_cons_of_neg ha]

theorem dropWhile_append_stop {α : Type} (p : α → Bool) :
    ∀ (X Y : List α), X.dropWhile p ≠ [] → (X ++ Y).dropWhile p = X.dropWhile p ++ Y := by
  intro X
  induction X with
  | nil => intro Y h; exact absurd rfl h
  | cons a t ih =>
    intro Y h
    by_cases ha : p a = true
    · rw [List.dropWhile_cons_of_pos ha] at h
      rw [List.cons_append, List.dropWhile_cons_of_pos ha, List.dropWhile_cons_of_pos ha,
        ih Y h]
    · rw [List.cons_append, List.dropWhile_cons_of_neg ha, List.dropWhile_cons_of_neg ha,
        List.cons_append]

theorem splitFirstChar_none (sep : Char) (l : List Char) (h : sep ∉ l) :
    splitFirstChar sep l = (l, none) := by
  unfold splitFirstChar
  have h1 : l.takeWhile (fun c => c ≠ sep) = l :=
    takeWhile_all _ l (fun c hc => by
      simp only [ne_eq, decide_eq_true_eq]
      intro he
      exact h (he ▸ hc))
  have h2 : l.dropWhile (fun c => c ≠ sep) = [] :=
    dropWhile_all _ l (fun c hc => by
      simp only [ne_eq, decide_eq_true_eq]
      intro he
      exact h (he ▸ hc))
  rw [h2]
  dsimp only
  rw [h1]

theorem splitFirstChar_app (sep : Char) (X Y : List Char) (h : sep ∉ X) :
    splitFirstChar sep (X ++ sep :: Y) = (X, some Y) := by
  unfold splitFirstChar
  have hall : ∀ c ∈ X, (fun c => (c ≠ sep : Bool)) c = true := fun c hc => by
    simp only [ne_eq, decide_eq_true_eq]
    intro he
    exact h (he ▸ hc)
  have h1 : (X ++ sep :: Y).takeWhile (fun c => c ≠ sep) = X := by
    rw [takeWhile_append_all _ X _ hall, List.takeWhile_cons_of_neg (by simp)]
    exact List.append_nil X
  have h2 : (X ++ sep :: Y).dropWhile (fun c => c ≠ sep) = sep :: Y := by
    rw [dropWhile_append_all _ X _ hall, List.dropWhile_cons_of_neg (by simp)]
  rw [h2]
  dsimp only
  rw [h1]

theorem contains_eq_false_of (l : List Char) (x : Char) (h : ∀ c ∈ l, c ≠ x) :
    l.contains x = false := by
  rw [List.contains_eq_any_beq, List.any_eq_false]
  intro c hc
  simp only [beq_iff_eq]
  exact fun he => h c hc he.symm

theorem pyReplacePlus_id (l : List Char) (h : '+' ∉ l) : pyReplacePlus l = l := by
  unfold pyReplacePlus
  apply map_self
  intro c hc
  rw [if_neg (fun he : c = '+' => h (he ▸ hc))]

theorem pyUnquote_cons_ne (c : Char) (rest : List Char) (hc : c ≠ '%') :
    pyUnquote (c :: rest) = c :: pyUnquote rest := by
  cases rest with
  | nil => simp [pyUnquote, hc]
  | cons b rest2 =>
    cases rest2 with
    | nil => simp [pyUnquote, hc]
    | cons d rest3 => simp [pyUnquote, hc]

theorem pyUnquote_id : ∀ l : List Char, '%' ∉ l → pyUnquote l = l := by
  intro l
  induction l with
  | nil => intro _; rfl
  | cons c rest ih =>
    intro h
    have hc : c ≠ '%' := fun he => h (he ▸ List.mem_cons_self c rest)
    have hrest : '%' ∉ rest := fun hm => h (List.mem_cons_of_mem c hm)
    rw [pyUnquote_cons_ne c rest hc, ih hrest]

theorem splitOnChar_ne_nil (sep : Char) : ∀ l, splitOnChar sep l ≠ [] := by
  intro l
  cases l with
  | nil => simp [splitOnChar]
  | cons c rest =>
    simp only [splitOnChar]
    by_cases h : c = sep
    · rw [if_pos h]
      simp
    · rw [if_neg h]
      cases hr : splitOnChar sep rest <;> simp

theorem splitOnChar_single (sep : Char) :
    ∀ l : List Char, sep ∉ l → splitOnChar sep l = [l] := by
  intro l
  induction l with
  | nil => intro _; rfl
  | cons c rest ih =>
    intro h
    simp only [splitOnChar]
    rw [if_neg (fun he : c = sep => h (he ▸ List.mem_cons_self c rest))]
    rw [ih (fun hm => h (List.mem_cons_of_mem c hm))]

theorem splitOnChar_append (sep : Char) :
    ∀ (X R : List Char), sep ∉ X →
      splitOnChar sep (X ++ sep :: R) = X :: splitOnChar sep R := by
  intro X
  induction X with
  | nil =>
    intro R h
    rw [List.nil_append]
    simp [splitOnChar]
  | cons c X ih =>
    intro R h
    rw [List.cons_append]
    simp only [splitOnChar]
    rw [if_neg (fun he : c = sep => h (he ▸ List.mem_cons_self c X))]
    rw [ih R (fun hm => h (List.mem_cons_of_mem c hm))]

theorem joinChar_cons (sep : Char) (x : List Char) (rest : List (List Char)) (h : rest ≠ []) :
    joinChar sep (x :: rest) = x ++ sep :: joinChar sep rest := by
  cases rest with
  | nil => exact absurd rfl h
  | cons y t => rfl

theorem splitOnChar_joinChar (sep : Char) :
    ∀ parts : List (List Char), parts ≠ [] → (∀ p ∈ parts, sep ∉ p) →
      splitOnChar sep (joinChar sep parts) = parts := by
  intro parts
  induction parts with
  | nil => intro h _; exact absurd rfl h
  | cons x rest ih =>
    intro _ hp
    cases rest with
    | nil =>
      show splitOnChar sep x = [x]
      exact splitOnChar_single sep x (hp x (List.mem_cons_self x []))
    | cons y t =>
      rw [joinChar_cons sep x (y :: t) (by simp)]
      rw [splitOnChar_append sep x _ (hp x (List.mem_cons_self _ _))]
      rw [ih (by simp) (fun p hm => hp p (List.mem_cons_of_mem x hm))]

theorem mem_joinChar (sep : Char) :
    ∀ (parts : List (List Char)) (c : Char), c ∈ joinChar sep parts →
      c = sep ∨ ∃ p ∈ parts, c ∈ p := by
  intro parts
  induction parts with
  | nil => intro c hc; cases hc
  | cons x rest ih =>
    intro c hc
    cases rest with
    | nil => exact Or.inr ⟨x, List.mem_cons_self _ _, hc⟩
    | cons y t =>
      rw [joinChar_cons _ _ _ (by simp)] at hc
      rcases List.mem_append.mp hc with hm | hm
      · exact Or.inr ⟨x, List.mem_cons_self _ _, hm⟩
      · rcases List.mem_cons.mp hm with he | hm2
        · exact Or.inl he
        · rcases ih c hm2 with h1 | ⟨p, hp1, hp2⟩
          · exact Or.inl h1
          · exact Or.inr ⟨p, List.mem_cons_of_mem _ hp1, hp2⟩

theorem mem_splitOnChar (sep : Char) :
    ∀ (l chunk : List Char), chunk ∈ splitOnChar sep l →
      ∀ c ∈ chunk, c ∈ l ∧ c ≠ sep := by
  intro l
  induction l with
  | nil =>
    intro chunk hc c hcc
    simp only [splitOnChar, List.mem_singleton] at hc
    subst hc
    cases hcc
  | cons a rest ih =>
    intro chunk hc c hcc
    simp only [splitOnChar] at hc
    by_cases ha : a = sep
    · rw [if_pos ha] at hc
      rcases List.mem_cons.mp hc with he | hm
      · subst he; cases hcc
      · have := ih chunk hm c hcc
        exact ⟨List.mem_cons_of_mem a this.1, this.2⟩
    · rw [if_neg ha] at hc
      cases hr : splitOnChar sep rest with
      | nil => exact absurd hr (splitOnChar_ne_nil sep rest)
      | cons h0 t0 =>
        rw [hr] at hc
        rcases List.mem_cons.mp hc with he | hm
        · subst he
          rcases List.mem_cons.mp hcc with he2 | hm2
          · constructor
            · rw [he2]
              exact List.mem_cons_self a rest
            · rw [he2]
              exact ha
          · have := ih h0 (hr ▸ List.mem_cons_self h0 t0) c hm2
            exact ⟨List.mem_cons_of_mem a this.1, this.2⟩
        · have := ih chunk (hr ▸ List.mem_cons_of_mem h0 hm) c hcc
          exact ⟨List.mem_cons_of_mem a this.1, this.2⟩

theorem lexLe_total : ∀ a b : List Char, lexLe a b = true ∨ lexLe b a = true := by
  intro a
  induction a with
  | nil => intro b; exact Or.inl rfl
  | cons x a ih =>
    intro b
    cases b with
    | nil => exact Or.inr rfl
    | cons y b =>
      simp only [lexLe]
      by_cases h1 : x.val < y.val
      · left
        rw [if_pos h1]
      · by_cases h2 : y.val < x.val
        · right
          rw [if_pos h2]
        · rw [if_neg h1, if_neg h2, if_neg h2, if_neg h1]
          exact ih b

theorem lexLe_trans : ∀ a b c : List Char,
    lexLe a b = true → lexLe b c = true → lexLe a c = true := by
  intro a
  induction a with
  | nil => intro b c _ _; rfl
  | cons x a ih =>
    intro b c hab hbc
    cases b with
    | nil => cases hab
    | cons y b =>
      cases c with
      | nil => cases hbc
      | cons z c =>
        simp only [lexLe] at hab hbc ⊢
        have hxy : x.val.toNat < y.val.toNat ∨ ¬ x.val < y.val := by
          by_cases h : x.val < y.val
          · exact Or.inl h
          · exact Or.inr h
        by_cases h1 : x.val < y.val
        · have h1n : x.val.toNat < y.val.toNat := h1
          by_cases h2 : y.val < z.val
          · have h2n : y.val.toNat < z.val.toNat := h2
            rw [if_pos (show x.val < z.val from Nat.lt_trans h1n h2n)]
          · by_cases h3 : z.val < y.val
            · rw [if_neg h2, if_pos h3] at hbc
              cases hbc
            · have hyz : y.val.toNat = z.val.toNat :=
                Nat.le_antisymm (Nat.le_of_not_lt h3) (Nat.le_of_not_lt h2)
              rw [if_pos (show x.val < z.val from
                show x.val.toNat < z.val.toNat by omega)]
        · by_cases h4 : y.val < x.val
          · rw [if_neg h1, if_pos h4] at hab
            cases hab
          · have hxy2 : x.val.toNat = y.val.toNat :=
              Nat.le_antisymm (Nat.le_of_not_lt h4) (Nat.le_of_not_lt h1)
            rw [if_neg h1, if_neg h4] at hab
            by_cases h2 : y.val < z.val
            · have h2n : y.val.toNat < z.val.toNat := h2
              rw [if_pos (show x.val < z.val from
                show x.val.toNat < z.val.toNat by omega)]
            · by_cases h3 : z.val < y.val
              · rw [if_neg h2, if_pos h3] at hbc
                cases hbc
              · rw [if_neg h2, if_neg h3] at hbc
                have g2 : ¬ x.val < z.val := by
                  intro hcon
                  have hcn : x.val.toNat < z.val.toNat := hcon
                  have h2n : ¬ y.val.toNat < z.val.toNat := h2
                  omega
                have g3 : ¬ z.val < x.val := by
                  intro hcon
                  have hcn : z.val.toNat < x.val.toNat := hcon
                  have h3n : ¬ z.val.toNat < y.val.toNat := h3
                  omega
                rw [if_neg g2, if_neg g3]
                exact ih b c hab hbc

theorem lexLe_antisymm : ∀ a b : List Char,
    lexLe a b = true → lexLe b a = true → a = b := by
  intro a
  induction a with
  | nil =>
    intro b _ hba
    cases b with
    | nil => rfl
    | cons y b => cases hba
  | cons x a ih =>
    intro b hab hba
    cases b with
    | nil => cases hab
    | cons y b =>
      simp only [lexLe] at hab hba
      by_cases h1 : x.val < y.val
      · have h1n : x.val.toNat < y.val.toNat := h1
        have g2 : ¬ y.val < x.val := by
          intro hcon
          have : y.val.toNat < x.val.toNat := hcon
          omega
        rw [if_neg g2, if_pos h1] at hba
        cases hba
      · by_cases h2 : y.val < x.val
        · rw [if_neg h1, if_pos h2] at hab
          cases hab
        · rw [if_neg h1, if_neg h2] at hab
          rw [if_neg h2, if_neg h1] at hba
          have hxy : x = y := by
            apply Char.ext
            apply UInt32.ext
            exact Nat.le_antisymm (Nat.le_of_not_lt h2) (Nat.le_of_not_lt h1)
          rw [hxy, ih b hab hba]

theorem pairsOf_cons (e : List Char × List (List Char))
    (rest : List (List Char × List (List Char))) :
    pairsOf (e :: rest) = e.2.map (fun v => (e.1, v)) ++ pairsOf rest := by
  unfold pairsOf
  rw [List.flatMap_cons]

theorem queryPartsOf_eq (items : List (List Char × List (List Char))) :
    queryPartsOf items =
      (pairsOf items).map (fun kv => (⟨kv.1 ++ '=' :: kv.2⟩ : String)) := by
  unfold queryPartsOf pairsOf
  induction items with
  | nil => rfl
  | cons p rest ih =>
    rw [List.flatMap_cons, List.flatMap_cons, List.map_append, ih, List.map_map]
    rfl

theorem pairsOf_qsInsert (kv : List Char × List Char)
    (m : List (List Char × List (List Char))) :
    (pairsOf (qsInsert kv m)).Perm (pairsOf m ++ [kv]) := by
  induction m with
  | nil =>
    show (pairsOf [(kv.1, [kv.2])]).Perm _
    unfold pairsOf
    simp
  | cons e rest ih =>
    obtain ⟨k', vs⟩ := e
    simp only [qsInsert]
    by_cases h : k' = kv.1
    · subst h
      rw [if_pos rfl]
      rw [pairsOf_cons, pairsOf_cons]
      dsimp only
      rw [List.map_append, List.append_assoc, List.append_assoc]
      apply List.Perm.append_left
      exact List.perm_append_comm
    · rw [if_neg h]
      rw [pairsOf_cons, pairsOf_cons]
      dsimp only
      rw [List.append_assoc]
      exact List.Perm.append_left _ ih

theorem pairsOf_foldl :
    ∀ (pairs : List (List Char × List Char)) (m : List (List Char × List (List Char))),
      (pairsOf (pairs.foldl (fun m kv => qsInsert kv m) m)).Perm (pairsOf m ++ pairs) := by
  intro pairs
  induction pairs with
  | nil => intro m; simp
  | cons kv rest ih =>
    intro m
    rw [List.foldl_cons]
    refine (ih (qsInsert kv m)).trans ?_
    refine ((pairsOf_qsInsert kv m).append_right rest).trans ?_
    rw [List.append_assoc]
    exact List.Perm.refl _

theorem parseQs_perm (q : List Char) : (pairsOf (parseQs q)).Perm (parseQsl q) := by
  unfold parseQs
  have h := pairsOf_foldl (parseQsl q) []
  simpa using h

theorem qsInsert_entry (P Q : List Char → Prop)
    (kv : List Char × List Char) (m : List (List Char × List (List Char)))
    (hm : ∀ e ∈ m, P e.1 ∧ ∀ v ∈ e.2, Q v) (hk : P kv.1) (hv : Q kv.2) :
    ∀ e ∈ qsInsert kv m, P e.1 ∧ ∀ v ∈ e.2, Q v := by
  induction m with
  | nil =>
    intro e he
    simp only [qsInsert, List.mem_singleton] at he
    subst he
    refine ⟨hk, fun v hv2 => ?_⟩
    rw [List.mem_singleton] at hv2
    exact hv2 ▸ hv
  | cons e0 rest ih =>
    obtain ⟨k', vs⟩ := e0
    intro e he
    simp only [qsInsert] at he
    by_cases h : k' = kv.1
    · rw [if_pos h] at he
      rcases List.mem_cons.mp he with he1 | he2
      · subst he1
        have h0 := hm (k', vs) (List.mem_cons_self _ _)
        refine ⟨h0.1, fun v hvv => ?_⟩
        rcases List.mem_append.mp hvv with hv1 | hv2
        · exact h0.2 v hv1
        · rw [List.mem_singleton] at hv2
          exact hv2 ▸ hv
      · exact hm e (List.mem_cons_of_mem _ he2)
    · rw [if_neg h] at he
      rcases List.mem_cons.mp he with he1 | he2
      · subst he1
        exact hm (k', vs) (List.mem_cons_self _ _)
      · exact ih (fun e2 he3 => hm e2 (List.mem_cons_of_mem _ he3)) e he2

theorem foldl_qsInsert_entry (P Q : List Char → Prop) :
    ∀ (pairs : List (List Char × List Char)) (m : List (List Char × List (List Char))),
      (∀ e ∈ m, P e.1 ∧ ∀ v ∈ e.2, Q v) →
      (∀ kv ∈ pairs, P kv.1 ∧ Q kv.2) →
      ∀ e ∈ pairs.foldl (fun m kv => qsInsert kv m) m, P e.1 ∧ ∀ v ∈ e.2, Q v := by
  intro pairs
  induction pairs with
  | nil => intro m hm _; exact hm
  | cons kv rest ih =>
    intro m hm hp
    rw [List.foldl_cons]
    exact ih _
      (qsInsert_entry P Q kv m hm (hp kv (List.mem_cons_self _ _)).1
        (hp kv (List.mem_cons_self _ _)).2)
      (fun kv2 h2 => hp kv2 (List.mem_cons_of_mem _ h2))

theorem qsInsert_ne_nil (kv : List Char × List Char)
    (m : List (List Char × List (List Char))) : qsInsert kv m ≠ [] := by
  cases m with
  | nil => simp [qsInsert]
  | cons e rest =>
    obtain ⟨k', vs⟩ := e
    simp only [qsInsert]
    split <;> simp

theorem foldl_qsInsert_ne_nil :
    ∀ (pairs : List (List Char × List Char)) (m : List (List Char × List (List Char))),
      m ≠ [] → pairs.foldl (fun m kv => qsInsert kv m) m ≠ [] := by
  intro pairs
  induction pairs with
  | nil => intro m hm; exact hm
  | cons kv rest ih =>
    intro m _
    rw [List.foldl_cons]
    exact ih _ (qsInsert_ne_nil kv m)

theorem parseQs_ne_nil (q : List Char) (h : parseQsl q ≠ []) : parseQs q ≠ [] := by
  unfold parseQs
  cases hp : parseQsl q with
  | nil => exact absurd hp h
  | cons kv rest =>
    rw [List.foldl_cons]
    exact foldl_qsInsert_ne_nil rest _ (qsInsert_ne_nil kv [])

theorem mem_pairsOf (items : List (List Char × List (List Char)))
    (kv : List Char × List Char) (h : kv ∈ pairsOf items) :
    ∃ e ∈ items, kv.1 = e.1 ∧ kv.2 ∈ e.2 := by
  unfold pairsOf at h
  rw [List.mem_flatMap] at h
  obtain ⟨e, he, hkv⟩ := h
  rw [List.mem_map] at hkv
  obtain ⟨v, hv, heq⟩ := hkv
  exact ⟨e, he, by rw [← heq], by rw [← heq]; exact hv⟩

theorem parseQsl_props (q : List Char) (hq : ∀ c ∈ q, c ≠ '%' ∧ c ≠ '+') :
    ∀ kv ∈ parseQsl q, '=' ∉ kv.1 ∧ kv.2 ≠ [] ∧
      (∀ c ∈ kv.1, c ∈ q ∧ c ≠ '&') ∧ (∀ c ∈ kv.2, c ∈ q ∧ c ≠ '&') := by
  intro kv hkv
  unfold parseQsl at hkv
  rw [List.mem_flatMap] at hkv
  obtain ⟨chunk, hchunk, hkv⟩ := hkv
  have hcs := mem_splitOnChar '&' q chunk hchunk
  by_cases hnil : chunk = []
  · rw [if_pos hnil] at hkv
    cases hkv
  · rw [if_neg hnil] at hkv
    rcases hsp : splitFirstChar '=' chunk with ⟨k, o⟩
    rw [hsp] at hkv
    cases o with
    | none =>
      dsimp only at hkv
      cases hkv
    | some v =>
      dsimp only at hkv
      by_cases hv : v = []
      · rw [if_pos hv] at hkv
        cases hkv
      · rw [if_neg hv] at hkv
        rw [List.mem_singleton] at hkv
        unfold splitFirstChar at hsp
        cases hd : chunk.dropWhile (fun c => c ≠ '=') with
        | nil =>
          rw [hd] at hsp
          dsimp only at hsp
          simp at hsp
        | cons d rest =>
          rw [hd] at hsp
          dsimp only at hsp
          have hk : chunk.takeWhile (fun c => c ≠ '=') = k := congrArg Prod.fst hsp
          have hv2 : rest = v := by
            have h2 := congrArg Prod.snd hsp
            simpa using h2
          have hkchunk : ∀ c ∈ k, c ∈ chunk := by
            intro c hc
            rw [← hk] at hc
            exact (List.takeWhile_sublist _).mem hc
          have hvchunk : ∀ c ∈ v, c ∈ chunk := by
            intro c hc
            rw [← hv2] at hc
            exact (List.dropWhile_sublist _).mem (hd ▸ List.mem_cons_of_mem d hc)
          have hkq : ∀ c ∈ k, c ∈ q ∧ c ≠ '&' := fun c hc => hcs c (hkchunk c hc)
          have hvq : ∀ c ∈ v, c ∈ q ∧ c ≠ '&' := fun c hc => hcs c (hvchunk c hc)
          have hkid : pyUnquote (pyReplacePlus k) = k := by
            rw [pyReplacePlus_id k (fun hc => ((hq '+' (hkq '+' hc).1).2 rfl))]
            exact pyUnquote_id k (fun hc => ((hq '%' (hkq '%' hc).1).1 rfl))
          have hvid : pyUnquote (pyReplacePlus v) = v := by
            rw [pyReplacePlus_id v (fun hc => ((hq '+' (hvq '+' hc).1).2 rfl))]
            exact pyUnquote_id v (fun hc => ((hq '%' (hvq '%' hc).1).1 rfl))
          rw [hkid, hvid] at hkv
          subst hkv
          refine ⟨?_, hv, hkq, hvq⟩
          intro hmem
          rw [← hk] at hmem
          have := List.mem_takeWhile_imp hmem
          simp at this

theorem flatMap_encode :
    ∀ parts : List (List Char × List Char),
      (∀ kv ∈ parts, '=' ∉ kv.1 ∧ kv.2 ≠ [] ∧ '%' ∉ kv.1 ∧ '%' ∉ kv.2 ∧
        '+' ∉ kv.1 ∧ '+' ∉ kv.2) →
      ((parts.map (fun kv => kv.1 ++ '=' :: kv.2)).flatMap (fun chunk =>
        if chunk = [] then []
        else
          match splitFirstChar '=' chunk with
          | (_, none) => []
          | (k, some v) =>
            if v = [] then []
            else [(pyUnquote (pyReplacePlus k), pyUnquote (pyReplacePlus v))])) = parts := by
  intro parts
  induction parts with
  | nil => intro _; rfl
  | cons kv rest ih =>
    intro h
    have h0 := h kv (List.mem_cons_self _ _)
    rw [List.map_cons, List.flatMap_cons]
    rw [ih (fun kv2 h2 => h kv2 (List.mem_cons_of_mem _ h2))]
    rw [if_neg (by simp : ¬ kv.1 ++ '=' :: kv.2 = [])]
    rw [splitFirstChar_app '=' kv.1 kv.2 h0.1]
    dsimp only
    rw [if_neg h0.2.1]
    rw [pyReplacePlus_id kv.1 h0.2.2.2.2.1, pyUnquote_id kv.1 h0.2.2.1]
    rw [pyReplacePlus_id kv.2 h0.2.2.2.2.2, pyUnquote_id kv.2 h0.2.2.2.1]
    rfl

theorem parseQsl_encoded (parts : List (List Char × List Char))
    (hne : parts ≠ [])
    (h : ∀ kv ∈ parts, '=' ∉ kv.1 ∧ kv.2 ≠ [] ∧ '&' ∉ kv.1 ∧ '&' ∉ kv.2 ∧
      '%' ∉ kv.1 ∧ '%' ∉ kv.2 ∧ '+' ∉ kv.1 ∧ '+' ∉ kv.2) :
    parseQsl (joinChar '&' (parts.map (fun kv => kv.1 ++ '=' :: kv.2))) = parts := by
  unfold parseQsl
  rw [splitOnChar_joinChar '&' _ (by
      intro hmap
      exact hne (List.map_eq_nil_iff.mp hmap))
    (by
      intro p hp hmem
      rw [List.mem_map] at hp
      obtain ⟨kv, hkv, heq⟩ := hp
      have h0 := h kv hkv
      rw [← heq] at hmem
      rcases List.mem_append.mp hmem with hm | hm
      · exact h0.2.2.1 hm
      · rcases List.mem_cons.mp hm with he | hm2
        · cases he
        · exact h0.2.2.2.1 hm2)]
  exact flatMap_encode parts
    (fun kv hkv => ⟨(h kv hkv).1, (h kv hkv).2.1, (h kv hkv).2.2.2.2.1,
      (h kv hkv).2.2.2.2.2.1, (h kv hkv).2.2.2.2.2.2.1, (h kv hkv).2.2.2.2.2.2.2⟩)

theorem pySorted_perm (X : List String) : (pySorted X).Perm X :=
  List.perm_insertionSort strLe X

theorem pySorted_eq (X Y : List String) (hperm : X.Perm Y)
    (hsorted : List.Sorted strLe Y) : pySorted X = Y := by
  haveI : IsTotal String strLe := ⟨fun a b => lexLe_total a.data b.data⟩
  haveI : IsTrans String strLe := ⟨fun a b c => lexLe_trans a.data b.data c.data⟩
  haveI : IsAntisymm String strLe :=
    ⟨fun a b h1 h2 => String.ext (lexLe_antisymm a.data b.data h1 h2)⟩
  exact List.eq_of_perm_of_sorted ((List.perm_insertionSort strLe X).trans hperm)
    (List.sorted_insertionSort strLe X) hsorted

theorem pySorted_sorted (X : List String) : List.Sorted strLe (pySorted X) := by
  haveI : IsTotal String strLe := ⟨fun a b => lexLe_total a.data b.data⟩
  haveI : IsTrans String strLe := ⟨fun a b c => lexLe_trans a.data b.data c.data⟩
  exact List.sorted_insertionSort strLe X

theorem pairsOf_ne_nil (items : List (List Char × List (List Char)))
    (hne : items ≠ []) (hvs : ∀ e ∈ items, e.2 ≠ []) : pairsOf items ≠ [] := by
  cases items with
  | nil => exact absurd rfl hne
  | cons e rest =>
    rw [pairsOf_cons]
    intro happ
    rcases List.append_eq_nil.mp happ with ⟨h1, _⟩
    exact hvs e (List.mem_cons_self _ _) (List.map_eq_nil_iff.mp h1)

theorem decode_encode (kv : List Char × List Char) (h : '=' ∉ kv.1) :
    ((kv.1 ++ '=' :: kv.2).takeWhile (fun c => c ≠ '='),
      ((kv.1 ++ '=' :: kv.2).dropWhile (fun c => c ≠ '=')).tail) = kv := by
  have hall : ∀ c ∈ kv.1, (fun c => (c ≠ '=' : Bool)) c = true := fun c hc => by
    simp only [ne_eq, decide_eq_true_eq]
    intro he
    exact h (he ▸ hc)
  rw [takeWhile_append_all _ kv.1 _ hall, dropWhile_append_all _ kv.1 _ hall]
  rw [List.takeWhile_cons_of_neg (by simp), List.dropWhile_cons_of_neg (by simp)]
  rw [List.append_nil]
  rfl

theorem qsInsert_vs_ne_nil (kv : List Char × List Char)
    (m : List (List Char × List (List Char)))
    (hm : ∀ e ∈ m, e.2 ≠ []) : ∀ e ∈ qsInsert kv m, e.2 ≠ [] := by
  induction m with
  | nil =>
    intro e he
    simp only [qsInsert, List.mem_singleton] at he
    subst he
    simp
  | cons e0 rest ih =>
    obtain ⟨k', vs⟩ := e0
    intro e he
    simp only [qsInsert] at he
    by_cases h : k' = kv.1
    · rw [if_pos h] at he
      rcases List.mem_cons.mp he with he1 | he2
      · subst he1
        simp
      · exact hm e (List.mem_cons_of_mem _ he2)
    · rw [if_neg h] at he
      rcases List.mem_cons.mp he with he1 | he2
      · subst he1
        exact hm (k', vs) (List.mem_cons_self _ _)
      · exact ih (fun e2 h2 => hm e2 (List.mem_cons_of_mem _ h2)) e he2

theorem foldl_qsInsert_vs_ne_nil :
    ∀ (pairs : List (List Char × List Char)) (m : List (List Char × List (List Char))),
      (∀ e ∈ m, e.2 ≠ []) →
      ∀ e ∈ pairs.foldl (fun m kv => qsInsert kv m) m, e.2 ≠ [] := by
  intro pairs
  induction pairs with
  | nil => intro m hm; exact hm
  | cons kv rest ih =>
    intro m hm
    rw [List.foldl_cons]
    exact ih _ (qsInsert_vs_ne_nil kv m hm)

theorem parseQs_vs_ne_nil (q : List Char) : ∀ e ∈ parseQs q, e.2 ≠ [] := by
  unfold parseQs
  exact foldl_qsInsert_vs_ne_nil (parseQsl q) [] (fun e he => absurd he (List.not_mem_nil e))

theorem rebuiltQuery_nil : rebuiltQuery [] = [] := by
  unfold rebuiltQuery
  rw [if_neg (by simp)]

theorem rebuiltQuery_fix (q : List Char) (hq : ∀ c ∈ q, c ≠ '%' ∧ c ≠ '+') :
    rebuiltQuery (rebuiltQuery q) = rebuiltQuery q := by
  by_cases hnil : rebuiltQuery q = []
  · rw [hnil, rebuiltQuery_nil]
  · have h1 : q ≠ [] := by
      intro h0
      apply hnil
      rw [h0, rebuiltQuery_nil]
    have h2 : cleanParams (parseQs q) ≠ [] := by
      intro h0
      apply hnil
      unfold rebuiltQuery
      rw [if_pos h1]
      dsimp only
      rw [if_neg (by simp [h0])]
    have hqeq : rebuiltQuery q =
        joinChar '&' ((pySorted (queryPartsOf (cleanParams (parseQs q)))).map String.data) := by
      unfold rebuiltQuery
      rw [if_pos h1]
      dsimp only
      rw [if_pos h2]
    have hpairs := parseQsl_props q hq
    have hentries : ∀ e ∈ parseQs q,
        ('=' ∉ e.1 ∧ ∀ c ∈ e.1, c ∈ q ∧ c ≠ '&') ∧
        ∀ v ∈ e.2, v ≠ [] ∧ ∀ c ∈ v, c ∈ q ∧ c ≠ '&' := by
      unfold parseQs
      exact foldl_qsInsert_entry
        (fun k => '=' ∉ k ∧ ∀ c ∈ k, c ∈ q ∧ c ≠ '&')
        (fun v => v ≠ [] ∧ ∀ c ∈ v, c ∈ q ∧ c ≠ '&')
        (parseQsl q) [] (fun e he => absurd he (List.not_mem_nil e))
        (fun kv hkv => ⟨⟨(hpairs kv hkv).1, (hpairs kv hkv).2.2.1⟩,
          (hpairs kv hkv).2.1, (hpairs kv hkv).2.2.2⟩)
    have hclean : ∀ e ∈ cleanParams (parseQs q),
        ('=' ∉ e.1 ∧ ∀ c ∈ e.1, c ∈ q ∧ c ≠ '&') ∧
        (∀ v ∈ e.2, v ≠ [] ∧ ∀ c ∈ v, c ∈ q ∧ c ≠ '&') ∧
        trackingParams.contains ⟨e.1.map pyLowerChar⟩ = false := by
      intro e he
      unfold cleanParams at he
      have hm := List.mem_of_mem_filter he
      have hp := List.of_mem_filter he
      refine ⟨(hentries e hm).1, (hentries e hm).2, ?_⟩
      simpa using hp
    have hpc : ∀ kv ∈ pairsOf (cleanParams (parseQs q)),
        '=' ∉ kv.1 ∧ kv.2 ≠ [] ∧ (∀ c ∈ kv.1, c ∈ q ∧ c ≠ '&') ∧
        (∀ c ∈ kv.2, c ∈ q ∧ c ≠ '&') ∧
        trackingParams.contains ⟨kv.1.map pyLowerChar⟩ = false := by
      intro kv hkv
      obtain ⟨e, he, hk1, hk2⟩ := mem_pairsOf _ kv hkv
      have h3 := hclean e he
      rw [hk1]
      exact ⟨h3.1.1, (h3.2.1 kv.2 hk2).1, h3.1.2, (h3.2.1 kv.2 hk2).2, h3.2.2⟩
    have hmemparts : ∀ s ∈ pySorted (queryPartsOf (cleanParams (parseQs q))),
        ∃ kv ∈ pairsOf (cleanParams (parseQs q)), s = (⟨kv.1 ++ '=' :: kv.2⟩ : String) := by
      intro s hs
      have hs2 := (pySorted_perm (queryPartsOf (cleanParams (parseQs q)))).mem_iff.mp hs
      rw [queryPartsOf_eq] at hs2
      obtain ⟨kv, hkv, heq⟩ := List.mem_map.mp hs2
      exact ⟨kv, hkv, heq.symm⟩
    have hdec : ((pySorted (queryPartsOf (cleanParams (parseQs q)))).map
          (fun s => (s.data.takeWhile (fun c => c ≠ '='),
            (s.data.dropWhile (fun c => c ≠ '=')).tail))).Perm
        (pairsOf (cleanParams (parseQs q))) := by
      have hperm := pySorted_perm (queryPartsOf (cleanParams (parseQs q)))
      nth_rewrite 2 [queryPartsOf_eq] at hperm
      have h4 := hperm.map (fun s => (s.data.takeWhile (fun c => c ≠ '='),
        (s.data.dropWhile (fun c => c ≠ '=')).tail))
      rw [List.map_map] at h4
      refine h4.trans ?_
      have h5 : (pairsOf (cleanParams (parseQs q))).map
          ((fun s => (s.data.takeWhile (fun c => c ≠ '='),
            (s.data.dropWhile (fun c => c ≠ '=')).tail)) ∘
            (fun kv => (⟨kv.1 ++ '=' :: kv.2⟩ : String))) =
          pairsOf (cleanParams (parseQs q)) := by
        apply map_self
        intro kv hkv
        exact decode_encode kv (hpc kv hkv).1
      rw [h5]
    have hencode : (pySorted (queryPartsOf (cleanParams (parseQs q)))).map String.data =
        ((pySorted (queryPartsOf (cleanParams (parseQs q)))).map
          (fun s => (s.data.takeWhile (fun c => c ≠ '='),
            (s.data.dropWhile (fun c => c ≠ '=')).tail))).map
          (fun kv => kv.1 ++ '=' :: kv.2) := by
      rw [List.map_map]
      apply List.map_congr_left
      intro s hs
      obtain ⟨kv, hkv, heq⟩ := hmemparts s hs
      subst heq
      have d1 : (kv.1 ++ '=' :: kv.2).takeWhile (fun c => c ≠ '=') = kv.1 :=
        congrArg Prod.fst (decode_encode kv (hpc kv hkv).1)
      have d2 : ((kv.1 ++ '=' :: kv.2).dropWhile (fun c => c ≠ '=')).tail = kv.2 :=
        congrArg Prod.snd (decode_encode kv (hpc kv hkv).1)
      show kv.1 ++ '=' :: kv.2 =
        ((kv.1 ++ '=' :: kv.2).takeWhile (fun c => c ≠ '=')) ++
          '=' :: ((kv.1 ++ '=' :: kv.2).dropWhile (fun c => c ≠ '=')).tail
      rw [d1, d2]
    have hps_ne : pySorted (queryPartsOf (cleanParams (parseQs q))) ≠ [] := by
      intro h0
      have hp := pySorted_perm (queryPartsOf (cleanParams (parseQs q)))
      rw [h0] at hp
      have h6 : queryPartsOf (cleanParams (parseQs q)) = [] := hp.symm.eq_nil
      rw [queryPartsOf_eq] at h6
      have h7 : pairsOf (cleanParams (parseQs q)) = [] := List.map_eq_nil_iff.mp h6
      exact pairsOf_ne_nil _ h2
        (fun e he => parseQs_vs_ne_nil q e (List.mem_of_mem_filter he)) h7
    have hdecprops : ∀ kv ∈ (pySorted (queryPartsOf (cleanParams (parseQs q)))).map
          (fun s => (s.data.takeWhile (fun c => c ≠ '='),
            (s.data.dropWhile (fun c => c ≠ '=')).tail)),
        '=' ∉ kv.1 ∧ kv.2 ≠ [] ∧ '&' ∉ kv.1 ∧ '&' ∉ kv.2 ∧
          '%' ∉ kv.1 ∧ '%' ∉ kv.2 ∧ '+' ∉ kv.1 ∧ '+' ∉ kv.2 := by
      intro kv hkv
      have hkv2 := hdec.mem_iff.mp hkv
      have h3 := hpc kv hkv2
      refine ⟨h3.1, h3.2.1, ?_, ?_, ?_, ?_, ?_, ?_⟩
      · exact fun hm => (h3.2.2.1 '&' hm).2 rfl
      · exact fun hm => (h3.2.2.2.1 '&' hm).2 rfl
      · exact fun hm => (hq '%' (h3.2.2.1 '%' hm).1).1 rfl
      · exact fun hm => (hq '%' (h3.2.2.2.1 '%' hm).1).1 rfl
      · exact fun hm => (hq '+' (h3.2.2.1 '+' hm).1).2 rfl
      · exact fun hm => (hq '+' (h3.2.2.2.1 '+' hm).1).2 rfl
    have hql : parseQsl (rebuiltQuery q) =
        (pySorted (queryPartsOf (cleanParams (parseQs q)))).map
          (fun s => (s.data.takeWhile (fun c => c ≠ '='),
            (s.data.dropWhile (fun c => c ≠ '=')).tail)) := by
      rw [hqeq, hencode]
      exact parseQsl_encoded _
        (fun hm => hps_ne (List.map_eq_nil_iff.mp hm)) hdecprops
    have hm2pairs : (pairsOf (parseQs (rebuiltQuery q))).Perm
        (pairsOf (cleanParams (parseQs q))) := by
      refine (parseQs_perm (rebuiltQuery q)).trans ?_
      rw [hql]
      exact hdec
    have hm2track : ∀ e ∈ parseQs (rebuiltQuery q),
        trackingParams.contains ⟨e.1.map pyLowerChar⟩ = false := by
      have hstep : ∀ e ∈ parseQs (rebuiltQuery q),
          (trackingParams.contains ⟨e.1.map pyLowerChar⟩ = false) ∧
          ∀ v ∈ e.2, True := by
        unfold parseQs
        refine foldl_qsInsert_entry
          (fun k => trackingParams.contains ⟨k.map pyLowerChar⟩ = false)
          (fun _ => True)
          (parseQsl (rebuiltQuery q)) [] (fun e he => absurd he (List.not_mem_nil e)) ?_
        intro kv hkv
        rw [hql] at hkv
        have hkv2 := hdec.mem_iff.mp hkv
        exact ⟨(hpc kv hkv2).2.2.2.2, trivial⟩
      exact fun e he => (hstep e he).1
    have hm2clean : cleanParams (parseQs (rebuiltQuery q)) = parseQs (rebuiltQuery q) := by
      unfold cleanParams
      apply List.filter_eq_self.mpr
      intro e he
      simpa using hm2track e he
    have hm2ne : parseQs (rebuiltQuery q) ≠ [] := by
      apply parseQs_ne_nil
      rw [hql]
      intro hm
      exact hps_ne (List.map_eq_nil_iff.mp hm)
    have hqp2 : (queryPartsOf (parseQs (rebuiltQuery q))).Perm
        (pySorted (queryPartsOf (cleanParams (parseQs q)))) := by
      rw [queryPartsOf_eq]
      refine (hm2pairs.map (fun kv => (⟨kv.1 ++ '=' :: kv.2⟩ : String))).trans ?_
      rw [← queryPartsOf_eq]
      exact (pySorted_perm _).symm
    have hsorted2 : pySorted (queryPartsOf (parseQs (rebuiltQuery q))) =
        pySorted (queryPartsOf (cleanParams (parseQs q))) :=
      pySorted_eq _ _ hqp2 (pySorted_sorted _)
    nth_rewrite 1 [rebuiltQuery]
    rw [if_pos hnil]
    dsimp only
    rw [hm2clean, if_pos hm2ne, hsorted2]
    exact hqeq.symm

theorem schemeChar_facts (c : Char) (h : schemeChar c = true) :
    c ≠ ':' ∧ c ≠ '\t' ∧ c ≠ '\r' ∧ c ≠ '\n' := by
  refine ⟨?_, ?_, ?_, ?_⟩ <;> · intro he; subst he; exact absurd h (by decide)

theorem pySchemeSplit_rebuilt (sch R : List Char) (hsne : sch ≠ [])
    (hhead : (sch.headD ' ').isAlpha = true) (hall : sch.all schemeChar = true)
    (hlower : ∀ c ∈ sch, pyLowerChar c = c) :
    pySchemeSplit (sch ++ ':' :: R) = (some sch, R) := by
  unfold pySchemeSplit
  have hnc : ∀ c ∈ sch, (fun c => (c ≠ ':' : Bool)) c = true := by
    intro c hc
    simp only [ne_eq, decide_eq_true_eq]
    exact (schemeChar_facts c (List.all_eq_true.mp hall c hc)).1
  have h1 : (sch ++ ':' :: R).takeWhile (fun c => c ≠ ':') = sch := by
    rw [takeWhile_append_all _ sch _ hnc, List.takeWhile_cons_of_neg (by simp),
      List.append_nil]
  have h2 : (sch ++ ':' :: R).dropWhile (fun c => c ≠ ':') = ':' :: R := by
    rw [dropWhile_append_all _ sch _ hnc, List.dropWhile_cons_of_neg (by simp)]
  dsimp only
  rw [h2]
  dsimp only
  rw [h1]
  rw [if_pos ⟨hsne, hhead, hall⟩]
  rw [map_self pyLowerChar sch hlower]

theorem pyUrlparse_rebuilt (sch A : List Char) (qopt : Option (List Char))
    (hsne : sch ≠ []) (hhead : (sch.headD ' ').isAlpha = true)
    (hall : sch.all schemeChar = true)
    (hlower : ∀ c ∈ sch, pyLowerChar c = c)
    (hA : ∀ c ∈ A, c ≠ '#' ∧ c ≠ '?' ∧ c ≠ ';' ∧ c ≠ '[' ∧ c ≠ ']' ∧
      ¬ (c = '\t' ∨ c = '\r' ∨ c = '\n'))
    (hq : ∀ q2 ∈ qopt, ∀ c ∈ q2, c ≠ '#' ∧ ¬ (c = '\t' ∨ c = '\r' ∨ c = '\n')) :
    ∃ N2 P2, pyUrlparse (sch ++ ':' :: '/' :: '/' ::
        (A ++ qopt.elim [] (fun q2 => '?' :: q2))) =
      some ⟨sch, N2, P2, qopt.getD []⟩ ∧ N2 ++ P2 = A := by
  have hfilt : (sch ++ ':' :: '/' :: '/' ::
      (A ++ qopt.elim [] (fun q2 => '?' :: q2))).filter
        (fun c => ¬ (c = '\t' ∨ c = '\r' ∨ c = '\n')) =
      sch ++ ':' :: '/' :: '/' ::
        (A ++ qopt.elim [] (fun q2 => '?' :: q2)) := by
    apply List.filter_eq_self.mpr
    intro c hc
    simp only [decide_eq_true_eq]
    rcases List.mem_append.mp hc with hm | hm
    · have h3 := schemeChar_facts c (List.all_eq_true.mp hall c hm)
      rintro (he | he | he)
      · exact h3.2.1 he
      · exact h3.2.2.1 he
      · exact h3.2.2.2 he
    · rcases List.mem_cons.mp hm with he | hm2
      · subst he; decide
      · rcases List.mem_cons.mp hm2 with he | hm3
        · subst he; decide
        · rcases List.mem_cons.mp hm3 with he | hm4
          · subst he; decide
          · rcases List.mem_append.mp hm4 with hm5 | hm6
            · exact (hA c hm5).2.2.2.2.2
            · cases qopt with
              | none => cases hm6
              | some q2 =>
                rcases List.mem_cons.mp hm6 with he | hm7
                · subst he; decide
                · exact (hq q2 rfl c hm7).2
  unfold pyUrlparse
  dsimp only
  rw [hfilt]
  rw [pySchemeSplit_rebuilt sch _ hsne hhead hall hlower]
  dsimp only
  have hC : (('/' :: '/' ::
      (A ++ qopt.elim [] (fun q2 => '?' :: q2))).take 2 =
      ['/', '/']) := rfl
  simp only [if_pos hC, List.drop_succ_cons, List.drop_zero]
  cases qopt with
  | none =>
    dsimp only [Option.getD, Option.elim]
    rw [List.append_nil]
    have hnet : ∀ c ∈ A.takeWhile (fun c => ¬ netlocDelim c), c ∈ A :=
      fun c hc => (List.takeWhile_sublist _).mem hc
    have hr2 : ∀ c ∈ A.dropWhile (fun c => ¬ netlocDelim c), c ∈ A :=
      fun c hc => (List.dropWhile_sublist _).mem hc
    rw [if_neg (by
      rw [contains_eq_false_of _ '[' (fun c hc => (hA c (hnet c hc)).2.2.2.1),
        contains_eq_false_of _ ']' (fun c hc => (hA c (hnet c hc)).2.2.2.2.1)]
      simp)]
    rw [splitFirstChar_none '#' _ (fun hm => (hA '#' (hr2 '#' hm)).1 rfl)]
    dsimp only
    rw [splitFirstChar_none '?' _ (fun hm => (hA '?' (hr2 '?' hm)).2.1 rfl)]
    dsimp only
    rw [if_neg (by
      rw [contains_eq_false_of _ ';' (fun c hc => (hA c (hr2 c hc)).2.2.1)]
      simp)]
    exact ⟨A.takeWhile (fun c => ¬ netlocDelim c), A.dropWhile (fun c => ¬ netlocDelim c),
      rfl, List.takeWhile_append_dropWhile _ _⟩
  | some q2 =>
    dsimp only [Option.getD, Option.elim]
    by_cases hD : A.dropWhile (fun c => ¬ netlocDelim c) = []
    · have hallA : ∀ c ∈ A, (fun c => (¬ netlocDelim c : Bool)) c = true :=
        List.dropWhile_eq_nil_iff.mp hD
      have hnet : (A ++ '?' :: q2).takeWhile (fun c => ¬ netlocDelim c) = A := by
        rw [takeWhile_append_all _ A _ hallA,
          List.takeWhile_cons_of_neg (by decide), List.append_nil]
      have hr2 : (A ++ '?' :: q2).dropWhile (fun c => ¬ netlocDelim c) = '?' :: q2 := by
        rw [dropWhile_append_all _ A _ hallA, List.dropWhile_cons_of_neg (by decide)]
      rw [hnet, hr2]
      rw [if_neg (by
        rw [contains_eq_false_of _ '[' (fun c hc => (hA c hc).2.2.2.1),
          contains_eq_false_of _ ']' (fun c hc => (hA c hc).2.2.2.2.1)]
        simp)]
      rw [splitFirstChar_none '#' _ (by
        intro hm
        rcases List.mem_cons.mp hm with he | hm2
        · cases he
        · exact (hq q2 rfl '#' hm2).1 rfl)]
      dsimp only
      rw [show ('?' :: q2 : List Char) = [] ++ '?' :: q2 from rfl,
        splitFirstChar_app '?' [] q2 (List.not_mem_nil '?')]
      dsimp only
      rw [if_neg (by simp)]
      exact ⟨A, [], rfl, List.append_nil A⟩
    · have hnet : (A ++ '?' :: q2).takeWhile (fun c => ¬ netlocDelim c) =
          A.takeWhile (fun c => ¬ netlocDelim c) := takeWhile_append_stop _ A _ hD
      have hr2 : (A ++ '?' :: q2).dropWhile (fun c => ¬ netlocDelim c) =
          A.dropWhile (fun c => ¬ netlocDelim c) ++ '?' :: q2 :=
        dropWhile_append_stop _ A _ hD
      have hnetA : ∀ c ∈ A.takeWhile (fun c => ¬ netlocDelim c), c ∈ A :=
        fun c hc => (List.takeWhile_sublist _).mem hc
      have hDA : ∀ c ∈ A.dropWhile (fun c => ¬ netlocDelim c), c ∈ A :=
        fun c hc => (List.dropWhile_sublist _).mem hc
      rw [hnet, hr2]
      rw [if_neg (by
        rw [contains_eq_false_of _ '[' (fun c hc => (hA c (hnetA c hc)).2.2.2.1),
          contains_eq_false_of _ ']' (fun c hc => (hA c (hnetA c hc)).2.2.2.2.1)]
        simp)]
      rw [splitFirstChar_none '#' _ (by
        intro hm
        rcases List.mem_append.mp hm with hm1 | hm2
        · exact (hA '#' (hDA '#' hm1)).1 rfl
        · rcases List.mem_cons.mp hm2 with he | hm3
          · cases he
          · exact (hq q2 rfl '#' hm3).1 rfl)]
      dsimp only
      rw [splitFirstChar_app '?' _ q2 (fun hm => (hA '?' (hDA '?' hm)).2.1 rfl)]
      dsimp only
      rw [if_neg (by
        rw [contains_eq_false_of _ ';' (fun c hc => (hA c (hDA c hc)).2.2.1)]
        simp)]
      exact ⟨A.takeWhile (fun c => ¬ netlocDelim c),
        A.dropWhile (fun c => ¬ netlocDelim c), rfl, List.takeWhile_append_dropWhile _ _⟩

theorem splitFirstChar_fst (sep : Char) (l : List Char) :
    (splitFirstChar sep l).1 = l.takeWhile (fun c => c ≠ sep) := by
  unfold splitFirstChar
  dsimp only
  cases hd : l.dropWhile (fun c => c ≠ sep) <;> rfl

theorem splitFirstChar_snd_sub (sep : Char) (l : List Char) :
    ∀ c ∈ ((splitFirstChar sep l).2).getD [], c ∈ l := by
  unfold splitFirstChar
  dsimp only
  cases hd : l.dropWhile (fun c => c ≠ sep) with
  | nil =>
    intro c hc
    cases hc
  | cons d rest =>
    intro c hc
    exact (List.dropWhile_sublist _).mem (hd ▸ List.mem_cons_of_mem d hc)

theorem pySchemeSplit_some (s sch r1 : List Char)
    (hsafe : ∀ c ∈ s, urlSafeChar c = true)
    (hsp : pySchemeSplit s = (some sch, r1)) :
    sch ≠ [] ∧ (sch.headD ' ').isAlpha = true ∧ sch.all schemeChar = true ∧
    (∀ c ∈ sch, c ∈ s) ∧ (∀ c ∈ r1, c ∈ s) := by
  unfold pySchemeSplit at hsp
  dsimp only at hsp
  cases hd : s.dropWhile (fun c => c ≠ ':') with
  | nil =>
    rw [hd] at hsp
    dsimp only at hsp
    cases congrArg Prod.fst hsp
  | cons d rest =>
    rw [hd] at hsp
    dsimp only at hsp
    by_cases hv : s.takeWhile (fun c => c ≠ ':') ≠ [] ∧
        ((s.takeWhile (fun c => c ≠ ':')).headD ' ').isAlpha ∧
        (s.takeWhile (fun c => c ≠ ':')).all schemeChar
    · rw [if_pos hv] at hsp
      rw [Prod.mk.injEq, Option.some.injEq] at hsp
      obtain ⟨h1, h2⟩ := hsp
      have hsub : ∀ c ∈ s.takeWhile (fun c => c ≠ ':'), c ∈ s :=
        fun c hc => (List.takeWhile_sublist _).mem hc
      have hid : (s.takeWhile (fun c => c ≠ ':')).map pyLowerChar =
          s.takeWhile (fun c => c ≠ ':') :=
        map_self _ _ (fun c hc => (urlSafe_ne c (hsafe c (hsub c hc))).2.2.2.2.2.2.2.2)
      rw [hid] at h1
      subst h1
      refine ⟨hv.1, hv.2.1, hv.2.2, hsub, ?_⟩
      intro c hc
      rw [← h2] at hc
      exact (List.dropWhile_sublist _).mem (hd ▸ List.mem_cons_of_mem d hc)
    · rw [if_neg hv] at hsp
      cases congrArg Prod.fst hsp

theorem pyUrlparse_props (s : List Char) (P : UrlParts)
    (hsafe : ∀ c ∈ s, urlSafeChar c = true)
    (hparse : pyUrlparse s = some P) (hsch : P.scheme ≠ []) :
    (P.scheme.headD ' ').isAlpha = true ∧ P.scheme.all schemeChar = true ∧
    (∀ c ∈ P.scheme, c ∈ s) ∧
    (∀ c ∈ P.netloc, netlocDelim c = false ∧ c ∈ s) ∧
    '?' ∉ P.path ∧ (∀ c ∈ P.path, c ∈ s) ∧ (∀ c ∈ P.query, c ∈ s) := by
  have hfilt : s.filter (fun c => ¬ (c = '\t' ∨ c = '\r' ∨ c = '\n')) = s := by
    apply List.filter_eq_self.mpr
    intro c hc
    simp only [decide_eq_true_eq]
    exact (urlSafe_ne c (hsafe c hc)).2.2.2.2.2.2.1
  have hnosemi : ∀ (l : List Char), (∀ c ∈ l, c ∈ s) → l.contains ';' = false :=
    fun l hl => contains_eq_false_of l ';' (fun c hc he =>
      (urlSafe_ne c (hsafe c (hl c hc))).2.2.2.1 (by rw [he]))
  unfold pyUrlparse at hparse
  dsimp only at hparse
  rw [hfilt] at hparse
  rcases hsp : pySchemeSplit s with ⟨os, r1⟩
  rw [hsp] at hparse
  dsimp only at hparse
  by_cases hN : r1.take 2 = ['/', '/']
  · simp only [if_pos hN] at hparse
    split at hparse
    · cases hparse
    · rw [Option.some.injEq] at hparse
      subst hparse
      dsimp only at hsch ⊢
      cases os with
      | none => exact absurd rfl hsch
      | some sch =>
        have hss := pySchemeSplit_some s sch r1 hsafe hsp
        have hr1 := hss.2.2.2.2
        have hnet : ∀ c ∈ (r1.drop 2).takeWhile (fun c => ¬ netlocDelim c),
            netlocDelim c = false ∧ c ∈ s := by
          intro c hc
          have h3 := List.mem_takeWhile_imp hc
          simp only [decide_eq_true_eq] at h3
          refine ⟨by simpa using h3, ?_⟩
          exact hr1 c ((List.drop_sublist 2 r1).mem ((List.takeWhile_sublist _).mem hc))
        have hr2 : ∀ c ∈ (r1.drop 2).dropWhile (fun c => ¬ netlocDelim c), c ∈ s :=
          fun c hc => hr1 c ((List.drop_sublist 2 r1).mem ((List.dropWhile_sublist _).mem hc))
        have hr3 : ∀ c ∈ (splitFirstChar '#'
            ((r1.drop 2).dropWhile (fun c => ¬ netlocDelim c))).1, c ∈ s := by
          rw [splitFirstChar_fst]
          exact fun c hc => hr2 c ((List.takeWhile_sublist _).mem hc)
        have hpr : ∀ c ∈ (splitFirstChar '?' (splitFirstChar '#'
            ((r1.drop 2).dropWhile (fun c => ¬ netlocDelim c))).1).1, c ∈ s := by
          rw [splitFirstChar_fst]
          exact fun c hc => hr3 c ((List.takeWhile_sublist _).mem hc)
        have hprq : '?' ∉ (splitFirstChar '?' (splitFirstChar '#'
            ((r1.drop 2).dropWhile (fun c => ¬ netlocDelim c))).1).1 := by
          rw [splitFirstChar_fst]
          intro hm
          have h3 := List.mem_takeWhile_imp hm
          simp at h3
        refine ⟨hss.2.1, hss.2.2.1, hss.2.2.2.1, hnet, ?_, ?_, ?_⟩
        · rw [if_neg (by rw [hnosemi _ hpr]; simp)]
          exact hprq
        · rw [if_neg (by rw [hnosemi _ hpr]; simp)]
          exact hpr
        · exact fun c hc => hr3 c (splitFirstChar_snd_sub '?' _ c hc)
  · simp only [if_neg hN] at hparse
    split at hparse
    · cases hparse
    · rw [Option.some.injEq] at hparse
      subst hparse
      dsimp only at hsch ⊢
      cases os with
      | none => exact absurd rfl hsch
      | some sch =>
        have hss := pySchemeSplit_some s sch r1 hsafe hsp
        have hr1 := hss.2.2.2.2
        have hr3 : ∀ c ∈ (splitFirstChar '#' r1).1, c ∈ s := by
          rw [splitFirstChar_fst]
          exact fun c hc => hr1 c ((List.takeWhile_sublist _).mem hc)
        have hpr : ∀ c ∈ (splitFirstChar '?' (splitFirstChar '#' r1).1).1, c ∈ s := by
          rw [splitFirstChar_fst]
          exact fun c hc => hr3 c ((List.takeWhile_sublist _).mem hc)
        have hprq : '?' ∉ (splitFirstChar '?' (splitFirstChar '#' r1).1).1 := by
          rw [splitFirstChar_fst]
          intro hm
          have h3 := List.mem_takeWhile_imp hm
          simp at h3
        refine ⟨hss.2.1, hss.2.2.1, hss.2.2.2.1, ?_, ?_, ?_, ?_⟩
        · intro c hc
          cases hc
        · rw [if_neg (by rw [hnosemi _ hpr]; simp)]
          exact hprq
        · rw [if_neg (by rw [hnosemi _ hpr]; simp)]
          exact hpr
        · exact fun c hc => hr3 c (splitFirstChar_snd_sub '?' _ c hc)

theorem rebuiltQuery_chars (q : List Char) (hq : ∀ c ∈ q, c ≠ '%' ∧ c ≠ '+') :
    ∀ c ∈ rebuiltQuery q, c ∈ q ∨ c = '&' ∨ c = '=' := by
  intro c hc
  by_cases h1 : q ≠ []
  swap
  · rw [not_not] at h1
    rw [h1, rebuiltQuery_nil] at hc
    cases hc
  unfold rebuiltQuery at hc
  rw [if_pos h1] at hc
  dsimp only at hc
  by_cases h2 : cleanParams (parseQs q) ≠ []
  swap
  · rw [if_neg h2] at hc
    cases hc
  rw [if_pos h2] at hc
  have hpairs := parseQsl_props q hq
  have hentries : ∀ e ∈ parseQs q,
      ('=' ∉ e.1 ∧ ∀ x ∈ e.1, x ∈ q ∧ x ≠ '&') ∧
      ∀ v ∈ e.2, v ≠ [] ∧ ∀ x ∈ v, x ∈ q ∧ x ≠ '&' := by
    unfold parseQs
    exact foldl_qsInsert_entry
      (fun k => '=' ∉ k ∧ ∀ x ∈ k, x ∈ q ∧ x ≠ '&')
      (fun v => v ≠ [] ∧ ∀ x ∈ v, x ∈ q ∧ x ≠ '&')
      (parseQsl q) [] (fun e he => absurd he (List.not_mem_nil e))
      (fun kv hkv => ⟨⟨(hpairs kv hkv).1, (hpairs kv hkv).2.2.1⟩,
        (hpairs kv hkv).2.1, (hpairs kv hkv).2.2.2⟩)
  have hpc : ∀ kv ∈ pairsOf (cleanParams (parseQs q)),
      (∀ x ∈ kv.1, x ∈ q) ∧ (∀ x ∈ kv.2, x ∈ q) := by
    intro kv hkv
    obtain ⟨e, he, hk1, hk2⟩ := mem_pairsOf _ kv hkv
    have hm := List.mem_of_mem_filter he
    have h3 := hentries e hm
    rw [hk1]
    exact ⟨fun x hx => (h3.1.2 x hx).1,
      fun x hx => ((h3.2 kv.2 hk2).2 x hx).1⟩
  rcases mem_joinChar '&' _ c hc with he | ⟨part, hpart, hcp⟩
  · exact Or.inr (Or.inl he)
  rw [List.mem_map] at hpart
  obtain ⟨t, ht, heq⟩ := hpart
  have hs2 := (pySorted_perm _).mem_iff.mp ht
  rw [queryPartsOf_eq] at hs2
  obtain ⟨kv, hkv, heq2⟩ := List.mem_map.mp hs2
  have hf := hpc kv hkv
  subst heq
  rw [← heq2] at hcp
  have hcp2 : c ∈ kv.1 ++ '=' :: kv.2 := hcp
  rcases List.mem_append.mp hcp2 with hm | hm
  · exact Or.inl (hf.1 c hm)
  · rcases List.mem_cons.mp hm with he | hm2
    · exact Or.inr (Or.inr he)
    · exact Or.inl (hf.2 c hm2)

theorem normalize_url_idem (url : String) (P : UrlParts)
    (hne : url ≠ "")
    (hparse : pyUrlparse (pyStrip (pyLower url)).data = some P)
    (hsch : P.scheme ≠ [])
    (hsafe : (pyStrip (pyLower url)).data.all urlSafeChar = true) :
    normalize_url (normalize_url url) = normalize_url url := by
  have hsafe' : ∀ c ∈ (pyStrip (pyLower url)).data, urlSafeChar c = true := by
    rw [List.all_eq_true] at hsafe
    intro c hc
    exact hsafe c hc
  have props := pyUrlparse_props _ P hsafe' hparse hsch
  have hqsafe : ∀ c ∈ P.query, urlSafeChar c = true :=
    fun c hc => hsafe' c (props.2.2.2.2.2.2 c hc)
  have hqpm : ∀ c ∈ P.query, c ≠ '%' ∧ c ≠ '+' :=
    fun c hc => ⟨(urlSafe_ne c (hqsafe c hc)).1, (urlSafe_ne c (hqsafe c hc)).2.1⟩
  have hlower : ∀ c ∈ P.scheme, pyLowerChar c = c :=
    fun c hc => (urlSafe_ne c (hsafe' c (props.2.2.1 c hc))).2.2.2.2.2.2.2.2
  have hAfacts : ∀ c ∈ P.netloc ++ P.path, c ≠ '#' ∧ c ≠ '?' ∧ c ≠ ';' ∧ c ≠ '[' ∧
      c ≠ ']' ∧ ¬ (c = '\t' ∨ c = '\r' ∨ c = '\n') := by
    intro c hc
    rcases List.mem_append.mp hc with hm | hm
    · have hu := urlSafe_ne c (hsafe' c (props.2.2.2.1 c hm).2)
      have hd := (props.2.2.2.1 c hm).1
      refine ⟨hu.2.2.1, ?_, hu.2.2.2.1, hu.2.2.2.2.1, hu.2.2.2.2.2.1, hu.2.2.2.2.2.2.1⟩
      intro he
      rw [he] at hd
      exact absurd hd (by decide)
    · have hu := urlSafe_ne c (hsafe' c (props.2.2.2.2.2.1 c hm))
      exact ⟨hu.2.2.1, fun he => props.2.2.2.2.1 (he ▸ hm), hu.2.2.2.1, hu.2.2.2.2.1,
        hu.2.2.2.2.2.1, hu.2.2.2.2.2.2.1⟩
  have h1 : normalize_url url =
      ⟨if rebuiltQuery P.query ≠ [] then
          (P.scheme ++ ':' :: '/' :: '/' :: P.netloc ++ P.path) ++ '?' :: rebuiltQuery P.query
        else P.scheme ++ ':' :: '/' :: '/' :: P.netloc ++ P.path⟩ := by
    unfold normalize_url
    rw [if_neg hne, hparse]
  by_cases hq : rebuiltQuery P.query ≠ []
  · have h1A : normalize_url url =
        ⟨P.scheme ++ ':' :: '/' :: '/' ::
          ((P.netloc ++ P.path) ++ '?' :: rebuiltQuery P.query)⟩ := by
      rw [h1, if_pos hq]
      refine congrArg String.mk ?_
      simp [List.append_assoc]
    have hosafeA : ∀ c ∈ P.scheme ++ ':' :: '/' :: '/' ::
        ((P.netloc ++ P.path) ++ '?' :: rebuiltQuery P.query), urlSafeChar c = true := by
      intro c hc
      rcases List.mem_append.mp hc with hm | hm
      · exact hsafe' c (props.2.2.1 c hm)
      · simp only [List.mem_cons] at hm
        rcases hm with rfl | rfl | rfl | hm
        · decide
        · decide
        · decide
        · rcases List.mem_append.mp hm with hm2 | hm2
          · rcases List.mem_append.mp hm2 with hm3 | hm3
            · exact hsafe' c (props.2.2.2.1 c hm3).2
            · exact hsafe' c (props.2.2.2.2.2.1 c hm3)
          · simp only [List.mem_cons] at hm2
            rcases hm2 with rfl | hm3
            · decide
            · rcases rebuiltQuery_chars P.query hqpm c hm3 with h4 | rfl | rfl
              · exact hqsafe c h4
              · decide
              · decide
    have honeA : (⟨P.scheme ++ ':' :: '/' :: '/' ::
        ((P.netloc ++ P.path) ++ '?' :: rebuiltQuery P.query)⟩ : String) ≠ "" := by
      intro he
      have h2 := congrArg String.data he
      simp at h2
    have hstripA : (pyStrip (pyLower (⟨P.scheme ++ ':' :: '/' :: '/' ::
        ((P.netloc ++ P.path) ++ '?' :: rebuiltQuery P.query)⟩ : String))).data =
        P.scheme ++ ':' :: '/' :: '/' ::
          ((P.netloc ++ P.path) ++ '?' :: rebuiltQuery P.query) := by
      show pyStripList ((P.scheme ++ ':' :: '/' :: '/' ::
        ((P.netloc ++ P.path) ++ '?' :: rebuiltQuery P.query)).map pyLowerChar) = _
      rw [map_self _ _ (fun c hc => (urlSafe_ne c (hosafeA c hc)).2.2.2.2.2.2.2.2)]
      exact pyStripList_id _ (fun c hc => (urlSafe_ne c (hosafeA c hc)).2.2.2.2.2.2.2.1)
    obtain ⟨N2, P2, hparse2, hNP⟩ := pyUrlparse_rebuilt P.scheme (P.netloc ++ P.path)
      (some (rebuiltQuery P.query)) hsch props.1 props.2.1 hlower hAfacts
      (by
        intro q2 hq2 c hc
        simp only [Option.mem_def, Option.some.injEq] at hq2
        subst hq2
        rcases rebuiltQuery_chars P.query hqpm c hc with hm | rfl | rfl
        · have hu := urlSafe_ne c (hqsafe c hm)
          exact ⟨hu.2.2.1, hu.2.2.2.2.2.2.1⟩
        · exact ⟨by decide, by decide⟩
        · exact ⟨by decide, by decide⟩)
    dsimp only [Option.elim, Option.getD] at hparse2
    rw [h1A]
    unfold normalize_url
    rw [if_neg honeA, hstripA, hparse2]
    dsimp only
    rw [rebuiltQuery_fix P.query hqpm, if_pos hq]
    refine congrArg String.mk ?_
    have h5 := congrArg (fun l => l ++ '?' :: rebuiltQuery P.query) hNP
    simp only [List.append_assoc] at h5
    simp only [List.cons_append, List.append_assoc]
    rw [h5]
  · have h1B : normalize_url url =
        ⟨P.scheme ++ ':' :: '/' :: '/' :: (P.netloc ++ P.path)⟩ := by
      rw [h1, if_neg hq]
      refine congrArg String.mk ?_
      simp [List.append_assoc]
    have hosafeB : ∀ c ∈ P.scheme ++ ':' :: '/' :: '/' :: (P.netloc ++ P.path),
        urlSafeChar c = true := by
      intro c hc
      rcases List.mem_append.mp hc with hm | hm
      · exact hsafe' c (props.2.2.1 c hm)
      · simp only [List.mem_cons] at hm
        rcases hm with rfl | rfl | rfl | hm
        · decide
        · decide
        · decide
        · rcases List.mem_append.mp hm with hm3 | hm3
          · exact hsafe' c (props.2.2.2.1 c hm3).2
          · exact hsafe' c (props.2.2.2.2.2.1 c hm3)
    have honeB : (⟨P.scheme ++ ':' :: '/' :: '/' ::
        (P.netloc ++ P.path)⟩ : String) ≠ "" := by
      intro he
      have h2 := congrArg String.data he
      simp at h2
    have hstripB : (pyStrip (pyLower (⟨P.scheme ++ ':' :: '/' :: '/' ::
        (P.netloc ++ P.path)⟩ : String))).data =
        P.scheme ++ ':' :: '/' :: '/' :: (P.netloc ++ P.path) := by
      show pyStripList ((P.scheme ++ ':' :: '/' :: '/' ::
        (P.netloc ++ P.path)).map pyLowerChar) = _
      rw [map_self _ _ (fun c hc => (urlSafe_ne c (hosafeB c hc)).2.2.2.2.2.2.2.2)]
      exact pyStripList_id _ (fun c hc => (urlSafe_ne c (hosafeB c hc)).2.2.2.2.2.2.2.1)
    obtain ⟨N2, P2, hparse2, hNP⟩ := pyUrlparse_rebuilt P.scheme (P.netloc ++ P.path)
      none hsch props.1 props.2.1 hlower hAfacts
      (by
        intro q2 hq2 c hc
        simp at hq2)
    dsimp only [Option.elim, Option.getD] at hparse2
    rw [List.append_nil] at hparse2
    rw [h1B]
    unfold normalize_url
    rw [if_neg honeB, hstripB, hparse2]
    dsimp only
    rw [rebuiltQuery_nil, if_neg (fun h2 => h2 rfl)]
    refine congrArg String.mk ?_
    simp only [List.cons_append, List.append_assoc]
    rw [hNP]

/-- C5 (amended): `normalize_url` maps the empty string to the empty
string; when `urlparse` fails on the stripped lower-cased input it
returns that stripped lower-cased copy (the model is a total function,
so no exception escapes); every query parameter surviving the rebuild
has a key whose lower-casing is outside the tracking deny-list; and the
idempotency asserted by the original claim — refuted in general by the
counterexample — holds on every URL whose stripped lower-casing parses
with a non-empty scheme and consists of inert characters (lower-case
letters, digits, `:/?=&.-_~`). -/
theorem claim_C5 :
    normalize_url emptyStr = emptyStr ∧
    (∀ url, url ≠ emptyStr →
      pyUrlparse (pyStrip (pyLower url)).data = none →
      normalize_url url = pyStrip (pyLower url)) ∧
    (∀ q p, p ∈ cleanParams (parseQs q) →
      trackingParams.contains ⟨p.1.map pyLowerChar⟩ = false) ∧
    (∀ url P, url ≠ emptyStr →
      pyUrlparse (pyStrip (pyLower url)).data = some P → P.scheme ≠ [] →
      (pyStrip (pyLower url)).data.all urlSafeChar = true →
      normalize_url (normalize_url url) = normalize_url url) := by
  refine ⟨rfl, ?_, ?_, ?_⟩
  · intro url hne hparse
    unfold normalize_url
    rw [if_neg (fun he => hne (by rw [he]; rfl)), hparse]
  · intro q p hp
    unfold cleanParams at hp
    have h2 := List.of_mem_filter hp
    simpa using h2
  · intro url P hne hparse hsch hsafe
    exact normalize_url_idem url P (fun he => hne (by rw [he]; rfl)) hparse hsch hsafe

set_option maxRecDepth 8000 in
/-- C5 witness: the amended claim at concrete inputs — the unparseable
"http://[a" (unbalanced bracket) falls back to its stripped lower-cased
copy, the query "utm_source=x&b=2" keeps exactly the non-tracking pair
`b=2`, and "https://ex.com/a?utm_source=x&b=2" is a fixed point of a
second normalization. -/
theorem claim_C5_witness :
    c5Bad ≠ emptyStr ∧ pyUrlparse (pyStrip (pyLower c5Bad)).data = none ∧
    normalize_url c5Bad = pyStrip (pyLower c5Bad) ∧
    (c5WK.data, [ c5WV.data ]) ∈ cleanParams (parseQs c5WQ.data) ∧
    trackingParams.contains ⟨c5WK.data.map pyLowerChar⟩ = false ∧
    c5Wit ≠ emptyStr ∧ pyUrlparse (pyStrip (pyLower c5Wit)).data = some c5WitP ∧
    c5WitP.scheme ≠ [] ∧ (pyStrip (pyLower c5Wit)).data.all urlSafeChar = true ∧
    normalize_url (normalize_url c5Wit) = normalize_url c5Wit := by
  refine ⟨by decide, by decide, ?_, by decide, ?_, by decide, by decide, by decide,
    by decide, ?_⟩
  · exact claim_C5.2.1 c5Bad (by decide) (by decide)
  · exact claim_C5.2.2.1 c5WQ.data (c5WK.data, [ c5WV.data ]) (by decide)
  · exact claim_C5.2.2.2 c5Wit c5WitP (by decide) (by decide) (by decide) (by decide)

/-! Path lemmas for C4's "never overwrites the original" conclusion. -/

theorem basename_no_slash (p : String) : '/' ∉ (pyBasename p).data := by
  unfold pyBasename
  intro h
  simp only [List.mem_reverse] at h
  have := List.mem_takeWhile_imp h
  simp at this

theorem basename_of_no_slash (p : String) (h : '/' ∉ p.data) : pyBasename p = p := by
  unfold pyBasename
  have ht : p.data.reverse.takeWhile (fun c => c ≠ '/') = p.data.reverse := by
    apply takeWhile_all
    intro x hx
    simp only [List.mem_reverse] at hx
    simp only [ne_eq, decide_eq_true_eq]
    intro hx'
    exact h (hx' ▸ hx)
  rw [ht, List.reverse_reverse]

theorem splitextStem_spec (name : String) :
    pySplitextStem name = name ∨
    (∃ rest, name.data = (pySplitextStem name).data ++ '.' :: rest ∧
      (pySplitextStem name).data.length + 1 + rest.length = name.data.length) := by
  unfold pySplitextStem
  dsimp only
  by_cases h1 : (name.data.reverse.takeWhile (fun c => c ≠ '.')).length = name.data.length
  · rw [if_pos h1]
    exact Or.inl rfl
  · rw [if_neg h1]
    have hsplit := List.takeWhile_append_dropWhile (fun c => (c ≠ '.' : Bool)) name.data.reverse
    cases hdw : name.data.reverse.dropWhile (fun c => c ≠ '.') with
    | nil =>
      exfalso
      rw [hdw, List.append_nil] at hsplit
      exact h1 (by rw [hsplit, List.length_reverse])
    | cons c t =>
      have hc : c = '.' := by
        have := dropWhile_head_false _ _ _ _ hdw
        simpa using this
      subst hc
      rw [hdw] at hsplit
      have hdata : name.data =
          t.reverse ++ '.' :: (name.data.reverse.takeWhile (fun c => c ≠ '.')).reverse := by
        have := congrArg List.reverse hsplit
        rw [List.reverse_reverse, List.reverse_append, List.reverse_cons, List.append_assoc]
          at this
        simpa using this.symm
      have hlen : name.data.length =
          (name.data.reverse.takeWhile (fun c => c ≠ '.')).length + 1 + t.length := by
        have := congrArg List.length hsplit
        simp only [List.length_append, List.length_cons, List.length_reverse] at this
        omega
      have hstem :
          name.data.take
              (name.data.length - (name.data.reverse.takeWhile (fun c => c ≠ '.')).length - 1) =
            t.reverse := by
        have h2 : name.data.length -
            (name.data.reverse.takeWhile (fun c => c ≠ '.')).length - 1 = t.reverse.length := by
          rw [List.length_reverse]; omega
        rw [h2, hdata, List.take_left]
      split
      · exact Or.inl rfl
      · refine Or.inr ⟨(name.data.reverse.takeWhile (fun c => c ≠ '.')).reverse, ?_, ?_⟩
        · show name.data = name.data.take _ ++ '.' :: _
          rw [hstem]
          exact hdata
        · show (name.data.take _).length + 1 + _ = name.data.length
          rw [hstem, List.length_reverse, List.length_reverse]
          omega

theorem splitextStem_mem (name : String) {x : Char}
    (h : x ∈ (pySplitextStem name).data) : x ∈ name.data := by
  rcases splitextStem_spec name with hs | ⟨rest, hr, _⟩
  · rw [hs] at h; exact h
  · rw [hr]; exact List.mem_append.mpr (Or.inl h)

theorem newPlanName_ne (p ts : String) (hts : '/' ∉ ts.data) : newPlanName p ts ≠ p := by
  intro heq
  by_cases hp : '/' ∈ p.data
  · have hnp : '/' ∉ (newPlanName p ts).data := by
      unfold newPlanName
      simp only [String.data_append]
      intro hmem
      rcases List.mem_append.mp hmem with h | h
      · rcases List.mem_append.mp h with h | h
        · rcases List.mem_append.mp h with h | h
          · exact basename_no_slash p (splitextStem_mem _ h)
          · revert h; decide
        · exact hts h
      · revert h; decide
    rw [heq] at hnp
    exact hnp hp
  · have hb : pyBasename p = p := basename_of_no_slash p hp
    have hdata := congrArg String.data heq
    unfold newPlanName at hdata
    rw [hb] at hdata
    simp only [String.data_append, List.append_assoc] at hdata
    rcases splitextStem_spec p with hs | ⟨rest, hr, _⟩
    · rw [hs] at hdata
      have : updatedInfix.data ++ (ts.data ++ csvExt.data) = [] := by
        have h0 : p.data ++ (updatedInfix.data ++ (ts.data ++ csvExt.data)) =
            p.data ++ [] := by
          rw [List.append_nil]; exact hdata
        exact List.append_cancel_left h0
      cases this
    · rw [hr] at hdata
      have hcancel :
          updatedInfix.data ++ (ts.data ++ csvExt.data) = '.' :: rest :=
        List.append_cancel_left hdata
      have : updatedInfix.data.head? = some '.' := by
        rw [← List.head?_append_of_ne_nil]
        · rw [hcancel]; rfl
        · decide
      revert this; decide

/-- C4 (amended): a non-dry executor run writes a new timestamped plan file
exactly when at least one DELETE candidate was processed (successfully
deleted or 404-classified) AND at least one DELETE row remains unprocessed
(the counterexample shows no file is written when every DELETE row was
processed); the new file keeps all KEEP rows and exactly the unprocessed
DELETE rows, and its name — `<stem>_updated_<timestamp>.csv` — never
equals the original plan path. -/
theorem claim_C4 (p ts : String) (rows : List PlanCsvRow) (trace : List DelOutcome)
    (r : ExecResult) (hts : '/' ∉ ts.data)
    (hrun : execute_deletion_plan p ts rows false trace = some r)
    (hproc : r.successIds ++ extract404Ids r.errors ≠ [])
    (hrem : ∃ row ∈ rows, pyUpper row.action = deleteStr ∧
        pyStrip row.document_id ∉ r.successIds ++ extract404Ids r.errors) :
    r.updatedPlan = some (newPlanName p ts,
      rows.filter (fun row => pyUpper row.action = keepStr ∨
        (pyUpper row.action = deleteStr ∧
          pyStrip row.document_id ∉ r.successIds ++ extract404Ids r.errors))) ∧
    newPlanName p ts ≠ p := by
  refine ⟨?_, newPlanName_ne p ts hts⟩
  unfold execute_deletion_plan at hrun
  simp only [Bool.false_eq_true, if_false] at hrun
  split at hrun
  · simp only [Option.some.injEq] at hrun
    subst hrun
    simp [extract404Ids] at hproc
  · cases hexec : execCandidates
        ((rows.filter (fun r => pyUpper r.action = deleteStr)).map
          (fun r => r.document_id)) trace {} with
    | none => rw [hexec] at hrun; simp at hrun
    | some out =>
      obtain ⟨acc, remTrace⟩ := out
      rw [hexec] at hrun
      simp only [Option.some.injEq] at hrun
      subst hrun
      dsimp only at hproc hrem ⊢
      have hcond : acc.succIds ≠ [] ∨ acc.errors ≠ [] := by
        by_contra hno
        push_neg at hno
        rw [hno.1, hno.2] at hproc
        simp only [extract404Ids, List.foldl_nil, List.append_nil] at hproc
        exact absurd rfl hproc
      rw [if_pos hcond]
      unfold _update_deletion_plan
      rw [if_neg (by simpa using hproc)]
      rcases hrem with ⟨row, hrow, hdel, hnp⟩
      have hmemrem : row ∈ rows.filter (fun row => pyUpper row.action = keepStr ∨
          (pyUpper row.action = deleteStr ∧
            pyStrip row.document_id ∉ acc.succIds ++ extract404Ids acc.errors)) := by
        apply List.mem_filter.mpr
        refine ⟨hrow, ?_⟩
        simp only [decide_eq_true_eq]
        exact Or.inr ⟨hdel, hnp⟩
      have hlen : ((rows.filter (fun row => pyUpper row.action = keepStr ∨
          (pyUpper row.action = deleteStr ∧
            pyStrip row.document_id ∉ acc.succIds ++ extract404Ids acc.errors))).filter
            (fun r => pyUpper r.action = deleteStr)).length ≠ 0 := by
        have hmem2 : row ∈ (rows.filter (fun row => pyUpper row.action = keepStr ∨
            (pyUpper row.action = deleteStr ∧
              pyStrip row.document_id ∉ acc.succIds ++ extract404Ids acc.errors))).filter
              (fun r => pyUpper r.action = deleteStr) := by
          apply List.mem_filter.mpr
          exact ⟨hmemrem, by simpa using hdel⟩
        have := List.length_pos.mpr (List.ne_nil_of_mem hmem2)
        omega
      rw [if_neg hlen]

set_option maxRecDepth 8000 in
/-- C4 witness: the amended claim applied to a concrete run — `d1` deleted,
`d2` failing with a recorded error — producing the updated plan with the
KEEP row and the unprocessed DELETE row, under a fresh filename. -/
theorem claim_C4_witness :
    c4WitRes.updatedPlan = some (newPlanName c4Path c4Ts,
      [ c4Keep, c4Del1, c4Del2 ].filter (fun row => pyUpper row.action = keepStr ∨
        (pyUpper row.action = deleteStr ∧
          pyStrip row.document_id ∉ c4WitRes.successIds ++ extract404Ids c4WitRes.errors))) ∧
    newPlanName c4Path c4Ts ≠ c4Path := by
  exact claim_C4 c4Path c4Ts [ c4Keep, c4Del1, c4Del2 ]
    [ DelOutcome.ok true, DelOutcome.ok false ] c4WitRes (by decide) (by decide)
    (by decide) ⟨c4Del2, by decide, by decide, by decide⟩

set_option maxRecDepth 4000 in
/-- C9 counterexample: on a CSV whose first two rows share a title and
whose last row is unrelated, the recorded group's `match_reason` is the
empty string (modelled `none`): the variable is reset on every non-skipped
inner iteration and the last candidate did not match — refuting "every
recorded match_reason is of the title-similarity form". -/
theorem claim_C9_counterexample :
    (find_csv_duplicates_advanced [ c9R1, c9R2, c9R3 ]).duplicate_groups = 1 ∧
    (find_csv_duplicates_advanced [ c9R1, c9R2, c9R3 ]).groups.map
      (fun g => g.match_reason) = [ none ] := by decide

set_option maxRecDepth 8000 in
/-- C8 (amended): for the scenario CSV rows with `source_url`s
`https://ex.com/a?utm_source=x` and `http://ex.com/a` (and their titles
similar — here identical), the standard analysis does NOT group them (the
simple normalizer strips only the scheme, leaving different keys), while
the advanced analysis groups them as one pair — because the advanced
normalizer maps both URLs to the same key AND their title similarity
exceeds 0.5, which the counterexample shows to be required. -/
theorem claim_C8 :
    normalize_url_simple c8Url1 ≠ normalize_url_simple c8Url2 ∧
    (find_csv_duplicates [ c8RowA, c8RowB ]).duplicate_groups = 0 ∧
    normalize_url_advanced c8Url1 = normalize_url_advanced c8Url2 ∧
    calculate_title_similarity c8Title c8Title > halfQ ∧
    (find_csv_duplicates_advanced [ c8RowA, c8RowB ]).duplicate_groups = 1 ∧
    (find_csv_duplicates_advanced [ c8RowA, c8RowB ]).groups.map
      (fun g => (g.rows, g.match_reason)) =
      [ ([ (1, c8RowA), (2, c8RowB) ], some MatchReason.titleSim) ] := by decide

/-- Helper: an `elif` whose condition implies the `if`'s condition can
never fire. -/
theorem if_dead {α : Type} (P Q : Prop) [Decidable P] [Decidable Q] (hQP : Q → P)
    (x y : α) :
    (if P then some x else if Q then some y else none) = if P then some x else none := by
  by_cases hP : P
  · simp [hP]
  · have hQ : ¬ Q := fun hq => hP (hQP hq)
    simp [hP, hQ]

/-- C9 helper: the second rule of `advDecide` can never fire — the pair
decision is extensionally the pure title-similarity test. -/
theorem advDecide_eq (t1 nu1 : String) (r2 : CsvRow) :
    advDecide t1 nu1 r2 =
      (if titleOnlyDecide t1 r2 then some MatchReason.titleSim else none) := by
  unfold advDecide titleOnlyDecide
  exact if_dead _ _ (fun h => h.2.2.2) _ _

/-- C9 helper: the inner scan collects exactly the candidates of the pure
title-similarity scan, and never records the URL rule as reason. -/
theorem advInner_spec (t1 nu1 : String) (processed : List Nat) :
    ∀ (l : List (Nat × Nat × CsvRow)) (acc : List (Nat × Nat × CsvRow))
      (r0 : Option MatchReason),
      (advInner t1 nu1 processed l (acc, r0)).1 = titleOnlyInner t1 processed l acc ∧
      (r0 ≠ some MatchReason.urlAndTitle →
        (advInner t1 nu1 processed l (acc, r0)).2 ≠ some MatchReason.urlAndTitle) := by
  intro l
  induction l with
  | nil => intro acc r0; exact ⟨rfl, fun h => h⟩
  | cons hd tl ih =>
    intro acc r0
    obtain ⟨j, rn, row⟩ := hd
    by_cases hp : j ∈ processed
    · simp only [advInner, titleOnlyInner, if_pos hp]
      exact ih acc r0
    · by_cases hd2 : titleOnlyDecide t1 row
      · have ha : advDecide t1 nu1 row = some MatchReason.titleSim := by
          rw [advDecide_eq, if_pos hd2]
        simp only [advInner, titleOnlyInner, if_neg hp, ha, if_pos hd2]
        exact ⟨(ih _ _).1,
          fun _ => (ih (acc ++ [(j, rn, row)]) (some MatchReason.titleSim)).2 (by simp)⟩
      · have ha : advDecide t1 nu1 row = none := by
          rw [advDecide_eq, if_neg hd2]
        simp only [advInner, titleOnlyInner, if_neg hp, ha, if_neg hd2]
        exact ⟨(ih _ _).1, fun _ => (ih acc none).2 (by simp)⟩

/-- C9 helper: the outer clusterings correspond group-by-group. -/
theorem advOuter_spec :
    ∀ (l : List (Nat × Nat × CsvRow)) (processed : List Nat)
      (accA : List AdvGroup) (accT : List (List (Nat × CsvRow))),
      accA.map (fun g => g.rows) = accT →
      (∀ g ∈ accA, g.match_reason ≠ some MatchReason.urlAndTitle) →
      (advOuter l processed accA).map (fun g => g.rows) =
        titleOnlyOuter l processed accT ∧
      ∀ g ∈ advOuter l processed accA, g.match_reason ≠ some MatchReason.urlAndTitle := by
  intro l
  induction l with
  | nil => intro processed accA accT hmap hr; exact ⟨hmap, hr⟩
  | cons hd tl ih =>
    intro processed accA accT hmap hr
    obtain ⟨i, rn, row⟩ := hd
    by_cases hp : i ∈ processed
    · simp only [advOuter, titleOnlyOuter, if_pos hp]
      exact ih processed accA accT hmap hr
    · have hinner := advInner_spec (pyStrip row.title)
        (if pyStrip row.source_url ≠ "" then
          normalize_url_advanced (pyStrip row.source_url) else "") processed tl [] none
      by_cases hlen :
          ((i, rn, row) ::
            (advInner (pyStrip row.title)
              (if pyStrip row.source_url ≠ "" then
                normalize_url_advanced (pyStrip row.source_url) else "")
              processed tl ([], none)).1).length > 1
      · have hlenT :
            ((i, rn, row) ::
              titleOnlyInner (pyStrip row.title) processed tl []).length > 1 := by
          rw [← hinner.1]; exact hlen
        simp only [advOuter, titleOnlyOuter, if_neg hp, if_pos hlen, if_pos hlenT]
        rw [hinner.1]
        refine ih _ _ _ ?_ ?_
        · simp only [List.map_append, hmap, List.map_cons, List.map_nil]
        · intro g hg
          rcases List.mem_append.mp hg with h | h
          · exact hr g h
          · simp only [List.mem_singleton] at h
            subst h
            exact hinner.2 (by simp)
      · have hlenT :
            ¬ ((i, rn, row) ::
              titleOnlyInner (pyStrip row.title) processed tl []).length > 1 := by
          rw [← hinner.1]; exact hlen
        simp only [advOuter, titleOnlyOuter, if_neg hp, if_neg hlen, if_neg hlenT]
        exact ih processed accA accT hmap hr

/-- C9 (amended): the advanced matcher's second rule can indeed never
fire (`advDecide` never returns the URL-and-title reason), and the
clustering is extensionally equal to pure title-similarity clustering;
moreover no recorded `match_reason` is of the URL-and-title form.  The
original claim's "every recorded match_reason is of the title-similarity
form" is refuted by the counterexample (the reason is reset to empty by a
last non-matching candidate) and is weakened accordingly. -/
theorem claim_C9 :
    (∀ t1 nu1 r2, advDecide t1 nu1 r2 ≠ some MatchReason.urlAndTitle) ∧
    (∀ rows, (find_csv_duplicates_advanced rows).groups.map (fun g => g.rows) =
      titleClusterGroups rows) ∧
    (∀ rows g, g ∈ (find_csv_duplicates_advanced rows).groups →
      g.match_reason ≠ some MatchReason.urlAndTitle) := by
  refine ⟨?_, ?_, ?_⟩
  · intro t1 nu1 r2
    rw [advDecide_eq]
    split <;> simp
  · intro rows
    unfold find_csv_duplicates_advanced titleClusterGroups
    dsimp only
    exact (advOuter_spec _ [] [] []
      rfl (fun g hg => absurd hg (List.not_mem_nil g))).1
  · intro rows g hg
    unfold find_csv_duplicates_advanced at hg
    dsimp only at hg
    exact (advOuter_spec _ [] [] []
      rfl (fun g2 hg2 => absurd hg2 (List.not_mem_nil g2))).2 g hg

set_option maxRecDepth 4000 in
/-- C9 witness: the amended claim on the three witness rows — the
recorded group (whose reason is empty, not the URL rule) is a member of
the advanced analysis output. -/
theorem claim_C9_witness :
    c9WitGroup ∈ (find_csv_duplicates_advanced [ c9R1, c9R2, c9R3 ]).groups ∧
    c9WitGroup.match_reason ≠ some MatchReason.urlAndTitle :=
  ⟨by decide, claim_C9.2.2 [ c9R1, c9R2, c9R3 ] c9WitGroup (by decide)⟩

/-! Selector membership lemmas (shared by C1 and C10). -/

theorem mem_stableInsertDescBy {α : Type} (key : α → Int) (x y : α) :
    ∀ l, y ∈ stableInsertDescBy key x l → y = x ∨ y ∈ l := by
  intro l
  induction l with
  | nil => intro h; simpa [stableInsertDescBy] using h
  | cons a t ih =>
    simp only [stableInsertDescBy]
    split
    · intro h
      rcases List.mem_cons.mp h with h | h
      · exact Or.inr (by simp [h])
      · rcases ih h with h | h
        · exact Or.inl h
        · exact Or.inr (List.mem_cons_of_mem _ h)
    · intro h
      rcases List.mem_cons.mp h with h | h
      · exact Or.inl h
      · exact Or.inr h

theorem mem_stableSortDescBy {α : Type} (key : α → Int) (y : α) :
    ∀ l, y ∈ stableSortDescBy key l → y ∈ l := by
  intro l
  induction l with
  | nil => intro h; simp [stableSortDescBy] at h
  | cons a t ih =>
    intro h
    rcases mem_stableInsertDescBy key a y _ h with h | h
    · simp [h]
    · exact List.mem_cons_of_mem _ (ih h)

theorem mem_stableInsertAscBy {α : Type} (key : α → Int) (x y : α) :
    ∀ l, y ∈ stableInsertAscBy key x l → y = x ∨ y ∈ l := by
  intro l
  induction l with
  | nil => intro h; simpa [stableInsertAscBy] using h
  | cons a t ih =>
    simp only [stableInsertAscBy]
    split
    · intro h
      rcases List.mem_cons.mp h with h | h
      · exact Or.inr (by simp [h])
      · rcases ih h with h | h
        · exact Or.inl h
        · exact Or.inr (List.mem_cons_of_mem _ h)
    · intro h
      rcases List.mem_cons.mp h with h | h
      · exact Or.inl h
      · exact Or.inr h

theorem mem_stableSortAscBy {α : Type} (key : α → Int) (y : α) :
    ∀ l, y ∈ stableSortAscBy key l → y ∈ l := by
  intro l
  induction l with
  | nil => intro h; simp [stableSortAscBy] at h
  | cons a t ih =>
    intro h
    rcases mem_stableInsertAscBy key a y _ h with h | h
    · simp [h]
    · exact List.mem_cons_of_mem _ (ih h)

theorem stableInsertDescBy_ne_nil {α : Type} (key : α → Int) (x : α) (l : List α) :
    stableInsertDescBy key x l ≠ [] := by
  cases l with
  | nil => simp [stableInsertDescBy]
  | cons a t => simp only [stableInsertDescBy]; split <;> simp

theorem stableSortDescBy_ne_nil {α : Type} (key : α → Int) (l : List α)
    (h : l ≠ []) : stableSortDescBy key l ≠ [] := by
  cases l with
  | nil => exact absurd rfl h
  | cons a t => exact stableInsertDescBy_ne_nil key a _

theorem stableInsertAscBy_ne_nil {α : Type} (key : α → Int) (x : α) (l : List α) :
    stableInsertAscBy key x l ≠ [] := by
  cases l with
  | nil => simp [stableInsertAscBy]
  | cons a t => simp only [stableInsertAscBy]; split <;> simp

theorem stableSortAscBy_ne_nil {α : Type} (key : α → Int) (l : List α)
    (h : l ≠ []) : stableSortAscBy key l ≠ [] := by
  cases l with
  | nil => exact absurd rfl h
  | cons a t => exact stableInsertAscBy_ne_nil key a _

theorem mem_sortDated {pn : Bool} {dated : List (CsvRow × Int × Option Int)}
    {p : CsvRow × Int × Option Int} (h : p ∈ sortDated pn dated) : p ∈ dated := by
  unfold sortDated at h
  split at h
  · exact mem_stableSortDescBy _ p _ h
  · exact mem_stableSortAscBy _ p _ h

theorem sortDated_ne_nil {pn : Bool} {dated : List (CsvRow × Int × Option Int)}
    (h : dated ≠ []) : sortDated pn dated ≠ [] := by
  unfold sortDated
  split
  · exact stableSortDescBy_ne_nil _ _ h
  · exact stableSortAscBy_ne_nil _ _ h

theorem mem_of_mem_datedList {docs2 : List CsvRow} {p : CsvRow × Int × Option Int}
    (h : p ∈ datedList docs2) : p.1 ∈ docs2 ∧ parsedCreatedAt p.1 = some p.2 := by
  unfold datedList at h
  rcases List.mem_filterMap.mp h with ⟨d, hd, hmap⟩
  cases hpc : parsedCreatedAt d with
  | none => rw [hpc] at hmap; cases hmap
  | some q =>
    rw [hpc] at hmap
    simp only [Option.map_some'] at hmap
    cases hmap
    exact ⟨hd, hpc⟩

theorem notesStep_inl {docs : List CsvRow} {r? : Option CsvRow}
    (h : notesStep docs = .inl r?) : ∃ r, r? = some r ∧ r ∈ docs := by
  unfold notesStep at h
  dsimp only at h
  split at h
  · split at h
    · rename_i hlen
      rcases List.length_eq_one.mp hlen with ⟨a, ha⟩
      refine ⟨a, ?_, ?_⟩
      · cases h; rw [ha]; rfl
      · exact List.mem_of_mem_filter (ha ▸ List.mem_singleton_self a)
    · cases h
  · cases h

theorem notesStep_inr {docs out : List CsvRow} (h : notesStep docs = .inr out) :
    (∀ x ∈ out, x ∈ docs) ∧ (docs ≠ [] → out ≠ []) := by
  unfold notesStep at h
  dsimp only at h
  split at h
  · split at h
    · cases h
    · rename_i hcond _
      cases h
      exact ⟨fun x hx => List.mem_of_mem_filter hx, fun _ => hcond.1⟩
  · cases h
    exact ⟨fun x hx => hx, fun h => h⟩

theorem tagsStep_inl {docs : List CsvRow} {r? : Option CsvRow}
    (h : tagsStep docs = .inl r?) : ∃ r, r? = some r ∧ r ∈ docs := by
  unfold tagsStep at h
  dsimp only at h
  split at h
  · split at h
    · rename_i hlen
      rcases List.length_eq_one.mp hlen with ⟨a, ha⟩
      refine ⟨a, ?_, ?_⟩
      · cases h; rw [ha]; rfl
      · exact List.mem_of_mem_filter (ha ▸ List.mem_singleton_self a)
    · cases h
  · cases h

theorem tagsStep_inr {docs out : List CsvRow} (h : tagsStep docs = .inr out) :
    (∀ x ∈ out, x ∈ docs) ∧ (docs ≠ [] → out ≠ []) := by
  unfold tagsStep at h
  dsimp only at h
  split at h
  · split at h
    · cases h
    · rename_i hcond _
      cases h
      exact ⟨fun x hx => List.mem_of_mem_filter hx, fun _ => hcond.1⟩
  · cases h
    exact ⟨fun x hx => hx, fun h => h⟩

theorem fieldCandidates_inl {rows : List CsvRow} {r? : Option CsvRow}
    (h : fieldCandidates rows = .inl r?) : ∃ r, r? = some r ∧ r ∈ rows := by
  unfold fieldCandidates at h
  cases hn : notesStep rows with
  | inl r => rw [hn] at h; cases h; exact notesStep_inl hn
  | inr d1 =>
    rw [hn] at h
    rcases tagsStep_inl h with ⟨r, hr, hmem⟩
    exact ⟨r, hr, (notesStep_inr hn).1 r hmem⟩

theorem fieldCandidates_inr {rows out : List CsvRow}
    (h : fieldCandidates rows = .inr out) :
    (∀ x ∈ out, x ∈ rows) ∧ (rows ≠ [] → out ≠ []) := by
  unfold fieldCandidates at h
  cases hn : notesStep rows with
  | inl r => rw [hn] at h; cases h
  | inr d1 =>
    rw [hn] at h
    have h1 := notesStep_inr hn
    have h2 := tagsStep_inr h
    exact ⟨fun x hx => h1.1 x (h2.1 x hx), fun hne => h2.2 (h1.2 hne)⟩

theorem dateStep_mem {pn : Bool} {docs2 : List CsvRow} {r : CsvRow}
    (h : dateStep pn docs2 = some r) : r ∈ docs2 := by
  unfold dateStep at h
  split at h
  · split at h
    · cases h
    · cases hh : (sortDated pn (datedList docs2)).head? with
      | none => rw [hh] at h; cases h
      | some p =>
        rw [hh] at h
        simp only [Option.map_some', Option.some.injEq] at h
        subst h
        exact (mem_of_mem_datedList (mem_sortDated (List.mem_of_mem_head? hh))).1
  · cases docs2 with
    | nil => cases h
    | cons a t =>
      simp only [List.head?_cons, Option.some.injEq] at h
      subst h
      exact List.mem_cons_self a t

theorem dateStep_no_dates {pn : Bool} {docs2 : List CsvRow}
    (h : ∀ d ∈ docs2, parsedCreatedAt d = none) :
    dateStep pn docs2 = docs2.head? := by
  unfold dateStep
  have hd : datedList docs2 = [] := by
    unfold datedList
    rw [List.filterMap_eq_nil_iff]
    intro d hd
    rw [h d hd]
    rfl
  simp [hd]

theorem dateStep_isSome {pn : Bool} {docs2 : List CsvRow} (hne : docs2 ≠ [])
    (huni : (∀ d ∈ docs2, ((parsedCreatedAt d).all (fun p => p.2.isSome)) = true) ∨
            (∀ d ∈ docs2, ((parsedCreatedAt d).all (fun p => p.2.isNone)) = true)) :
    (dateStep pn docs2).isSome = true := by
  unfold dateStep
  split
  · rename_i hdne
    have hmix :
        ¬ ((datedList docs2).any (fun p => p.2.2.isSome) = true ∧
           (datedList docs2).any (fun p => p.2.2.isNone) = true) := by
      rintro ⟨hsome, hnone⟩
      rcases List.any_eq_true.mp hsome with ⟨p, hp, hps⟩
      rcases List.any_eq_true.mp hnone with ⟨q, hq, hqn⟩
      have hpd := mem_of_mem_datedList hp
      have hqd := mem_of_mem_datedList hq
      rcases huni with huni | huni
      · have := huni q.1 hqd.1
        rw [hqd.2] at this
        simp only [Option.all_some] at this
        simp only [Option.isNone_iff_eq_none] at hqn
        rw [hqn] at this
        cases this
      · have := huni p.1 hpd.1
        rw [hpd.2] at this
        simp only [Option.all_some] at this
        rcases Option.isSome_iff_exists.mp hps with ⟨v, hv⟩
        rw [hv] at this
        cases this
    rw [if_neg hmix]
    have hsne : sortDated pn (datedList docs2) ≠ [] := sortDated_ne_nil hdne
    cases hh : (sortDated pn (datedList docs2)).head? with
    | none => exact absurd (List.head?_eq_none_iff.mp hh) hsne
    | some p => simp [hh]
  · cases docs2 with
    | nil => exact absurd rfl hne
    | cons a t => simp

theorem select_eq_inl {rows : List CsvRow} {pn : Bool} {r? : Option CsvRow}
    (h : fieldCandidates rows = .inl r?) :
    _select_best_document_to_keep rows pn = r? := by
  unfold _select_best_document_to_keep
  rw [h]

theorem select_eq_inr {rows : List CsvRow} {pn : Bool} {out : List CsvRow}
    (h : fieldCandidates rows = .inr out) :
    _select_best_document_to_keep rows pn = dateStep pn out := by
  unfold _select_best_document_to_keep
  rw [h]

theorem select_mem {rows : List CsvRow} {pn : Bool} {r : CsvRow}
    (h : _select_best_document_to_keep rows pn = some r) : r ∈ rows := by
  cases hf : fieldCandidates rows with
  | inl r? =>
    rw [select_eq_inl hf] at h
    rcases fieldCandidates_inl hf with ⟨r', hr', hmem⟩
    rw [hr'] at h
    cases h
    exact hmem
  | inr out =>
    rw [select_eq_inr hf] at h
    exact (fieldCandidates_inr hf).1 r (dateStep_mem h)

/-- C10 (amended): for every non-empty list of CSV rows whose parseable
`created_at` values are uniformly offset-aware or uniformly offset-naive,
`_select_best_document_to_keep` returns an element of the input (it raises
only when aware and naive dates are mixed — see the counterexample);
unparseable dates are treated as absent, and when no date in the rows
parses, the first document (in input order) of the possibly restricted
candidate set is returned. -/
theorem claim_C10 (rows : List CsvRow) (pn : Bool) (hne : rows ≠ [])
    (huni : (∀ d ∈ rows, ((parsedCreatedAt d).all (fun p => p.2.isSome)) = true) ∨
            (∀ d ∈ rows, ((parsedCreatedAt d).all (fun p => p.2.isNone)) = true)) :
    (∃ r, _select_best_document_to_keep rows pn = some r ∧ r ∈ rows) ∧
    ((∀ d ∈ rows, parsedCreatedAt d = none) →
      ∀ out, fieldCandidates rows = .inr out →
        _select_best_document_to_keep rows pn = out.head?) := by
  constructor
  · cases hf : fieldCandidates rows with
    | inl r? =>
      rcases fieldCandidates_inl hf with ⟨r, hr, hmem⟩
      refine ⟨r, ?_, hmem⟩
      rw [select_eq_inl hf, hr]
    | inr out =>
      have hsub := fieldCandidates_inr hf
      have hout : out ≠ [] := hsub.2 hne
      have huni' : (∀ d ∈ out, ((parsedCreatedAt d).all (fun p => p.2.isSome)) = true) ∨
          (∀ d ∈ out, ((parsedCreatedAt d).all (fun p => p.2.isNone)) = true) := by
        rcases huni with h | h
        · exact Or.inl (fun d hd => h d (hsub.1 d hd))
        · exact Or.inr (fun d hd => h d (hsub.1 d hd))
      have hs := @dateStep_isSome pn out hout huni'
      cases hds : dateStep pn out with
      | none => rw [hds] at hs; cases hs
      | some r =>
        refine ⟨r, ?_, hsub.1 r (dateStep_mem hds)⟩
        rw [select_eq_inr hf, hds]
  · intro hnd out hf
    rw [select_eq_inr hf]
    exact dateStep_no_dates (fun d hd => hnd d ((fieldCandidates_inr hf).1 d hd))

/-- C10 witness: the amended claim applied to two concrete rows with an
unparseable and an absent date: the selector succeeds and returns the
first row. -/
theorem claim_C10_witness :
    (∃ r, _select_best_document_to_keep [ c10WitA, c10WitB ] false = some r ∧
        r ∈ [ c10WitA, c10WitB ]) ∧
    _select_best_document_to_keep [ c10WitA, c10WitB ] false =
      [ c10WitA, c10WitB ].head? := by
  have h := claim_C10 [ c10WitA, c10WitB ] false (by decide) (Or.inr (by decide))
  exact ⟨h.1, h.2 (by decide) [ c10WitA, c10WitB ] (by decide)⟩

/-- C1 helper: with pairwise-distinct ids, the id-based delete
comprehension is exactly "everyone but the keeper". -/
theorem filter_ne_id_eq_erase :
    ∀ (docs : List CsvRow) (b : CsvRow), b ∈ docs →
      (docs.map (fun d => d.id)).Nodup →
      docs.filter (fun d => d.id ≠ b.id) = docs.erase b := by
  intro docs
  induction docs with
  | nil => intro b hb; cases hb
  | cons d tail ih =>
    intro b hb hnd
    simp only [List.map_cons, List.nodup_cons] at hnd
    rcases List.mem_cons.mp hb with hbd | hbt
    · subst hbd
      rw [List.erase_cons_head]
      have h1 : (decide (b.id ≠ b.id)) = false := by simp
      rw [List.filter_cons_of_neg (by simp)]
      apply List.filter_eq_self.mpr
      intro a ha
      simp only [ne_eq, decide_eq_true_eq]
      intro haid
      exact hnd.1 (haid ▸ List.mem_map_of_mem (fun d => d.id) ha)
    · have hne : d ≠ b := by
        intro hdb
        exact hnd.1 (hdb ▸ List.mem_map_of_mem (fun d => d.id) hbt)
      rw [List.erase_cons_tail (by simpa using hne)]
      have hdid : d.id ≠ b.id := by
        intro hdb
        exact hnd.1 (hdb ▸ List.mem_map_of_mem (fun d => d.id) hbt)
      rw [List.filter_cons_of_pos (by simpa using hdid)]
      rw [ih b hbt hnd.2]

/-- C1 helper: every multi-member group of the grouping pass yields exactly
one plan group, whose keeper is the selector's choice and whose DELETE list
is the id-based comprehension. -/
theorem planLoop_spec (pn : Bool) :
    ∀ (gl : List (String × List CsvRow)) (gs : List PlanGroup),
      planLoop pn gl = some gs →
      ∀ gid docs, (gid, docs) ∈ gl → docs.length > 1 →
        ∃ g ∈ gs, g.group_id = gid ∧
          _select_best_document_to_keep docs pn = some g.keep_document ∧
          g.delete_documents = docs.filter (fun d => d.id ≠ g.keep_document.id) ∧
          g.deletion_count = g.delete_documents.length ∧
          g.total_documents = docs.length := by
  intro gl
  induction gl with
  | nil => intro gs h gid docs hmem; cases hmem
  | cons hd tl ih =>
    intro gs h gid docs hmem hlen
    obtain ⟨gid', docs'⟩ := hd
    unfold planLoop at h
    split at h
    · rcases List.mem_cons.mp hmem with heq | htl
      · cases heq
        rename_i hle
        omega
      · exact ih gs h gid docs htl hlen
    · cases hsel : _select_best_document_to_keep docs' pn with
      | none => rw [hsel] at h; cases h
      | some best =>
        rw [hsel] at h
        cases hrec : planLoop pn tl with
        | none => rw [hrec] at h; cases h
        | some gs' =>
          rw [hrec] at h
          simp only [Option.some.injEq] at h
          subst h
          rcases List.mem_cons.mp hmem with heq | htl
          · rcases Prod.mk.injEq .. ▸ heq with ⟨h1, h2⟩
            subst h1; subst h2
            refine ⟨_, List.mem_cons_self _ _, rfl, hsel, rfl, rfl, rfl⟩
          · rcases ih gs' hrec gid docs htl hlen with ⟨g, hg, hrest⟩
            exact ⟨g, List.mem_cons_of_mem _ hg, hrest⟩

/-- C1 (amended): for every deletion plan successfully produced by
`analyze_deletion_plan`, `total_to_delete` is the sum of the groups'
`deletion_count`s (unconditionally); and for every multi-row CSV group
whose document ids are pairwise distinct (the counterexample shows the
claim fails for repeated ids), the plan's corresponding group classifies
exactly one member as KEEP — the selector's keeper, a member of the group —
and every other member as a DELETE entry. -/
theorem claim_C1 (rows : List CsvRow) (pn : Bool) (p : PlanAnalysis)
    (h : analyze_deletion_plan rows pn = some p) :
    p.total_to_delete = (p.groups.map (fun g => g.deletion_count)).sum ∧
    ∀ gid docs, (gid, docs) ∈ buildPlanGroups rows → docs.length > 1 →
      (docs.map (fun d => d.id)).Nodup →
      ∃ g ∈ p.groups, g.group_id = gid ∧ g.keep_document ∈ docs ∧
        g.delete_documents = docs.erase g.keep_document ∧
        g.keep_document ∉ g.delete_documents ∧
        g.deletion_count + 1 = docs.length ∧ g.total_documents = docs.length := by
  unfold analyze_deletion_plan at h
  cases hpl : planLoop pn (buildPlanGroups rows) with
  | none => rw [hpl] at h; cases h
  | some gs =>
    rw [hpl] at h
    simp only [Option.some.injEq] at h
    subst h
    constructor
    · rfl
    · intro gid docs hmem hlen hnd
      rcases planLoop_spec pn _ gs hpl gid docs hmem hlen with
        ⟨g, hg, hgid, hsel, hdel, hcount, htot⟩
      have hkmem : g.keep_document ∈ docs := select_mem hsel
      have herase : g.delete_documents = docs.erase g.keep_document := by
        rw [hdel]; exact filter_ne_id_eq_erase docs g.keep_document hkmem hnd
      refine ⟨g, hg, hgid, hkmem, herase, ?_, ?_, htot⟩
      · rw [herase]
        intro hcontra
        have hdocs : docs.Nodup := hnd.of_map
        exact ((List.Nodup.mem_erase_iff hdocs).mp hcontra).1 rfl
      · rw [hcount, herase, List.length_erase_of_mem hkmem]
        omega

/-- C1 witness: the amended claim applied to a concrete two-row group with
distinct ids: keeper `c1WitB` (it has notes), `c1WitA` the sole DELETE
entry, totals consistent. -/
theorem claim_C1_witness :
    (analyze_deletion_plan [ c1WitA, c1WitB ] false = some c1WitPlan) ∧
    c1WitPlan.total_to_delete =
      (c1WitPlan.groups.map (fun g => g.deletion_count)).sum ∧
    ∃ g ∈ c1WitPlan.groups, g.group_id = gid1 ∧
      g.keep_document ∈ [ c1WitA, c1WitB ] ∧
      g.delete_documents = [ c1WitA, c1WitB ].erase g.keep_document ∧
      g.keep_document ∉ g.delete_documents ∧
      g.deletion_count + 1 = ([ c1WitA, c1WitB ] : List CsvRow).length ∧
      g.total_documents = ([ c1WitA, c1WitB ] : List CsvRow).length := by
  have h := claim_C1 [ c1WitA, c1WitB ] false c1WitPlan (by decide)
  exact ⟨by decide, h.1, h.2 gid1 [ c1WitA, c1WitB ] (by decide) (by decide) (by decide)⟩

/-- C10 counterexample: `_select_best_document_to_keep` raises on two rows
whose `created_at` values both parse but mix an offset-aware and an
offset-naive datetime (`list.sort` raises `TypeError` comparing them),
refuting "returns an element of the input list and never raises". -/
theorem claim_C10_counterexample :
    _select_best_document_to_keep [ c10Aware, c10Naive ] false = none := by decide

end Dedup
